import Mathlib

/-!
# Verification of the bptree-hash-index core

Shallow embedding of the two index engines of the repository
(`src/bplustree/tree.py`, `src/bplustree/node.py`, `src/hash/extendible.py`,
`src/hash/bucket.py`) together with the record serialization layer
(`src/common/record.py`) and the configuration layer (`src/common/config.py`).

Modelling conventions:
* Python `int` keys and record fields become `Int`; Python `key & ((1 << g) - 1)`
  on arbitrary (possibly negative) integers equals the floor modulus
  `key % 2 ^ g`, which is what we use (`Int.emod` is nonnegative for a
  positive modulus, exactly like Python's `%`).
* In-place mutation becomes explicit state passing.  The extendible hash
  directory holds *indices into an arena* (`store : List Bucket`); two
  directory slots reference "the same bucket instance" exactly when they hold
  the same arena index.  A mutation of a shared bucket is a write to its arena
  cell, visible through every directory slot that holds that index, which is
  exactly the Python aliasing semantics.
* Python exceptions at the interface (`ValueError` of the constructors,
  `struct.error` of `Record.serialize`) are modelled with `Except`/`Option`
  results.
* The doubly linked leaf list of the B+ tree is represented by the in-order
  sequence of leaves of the tree: the Python code splices a freshly split leaf
  immediately after the split one, so the `next`-pointer order coincides with
  the in-order leaf sequence at all times.
-/

namespace BHIndex

/-- A record is its list of integer fields; `fields[0]` is the key
(`src/common/record.py`). -/
abbrev Rec := List Int

/-! ## Record serialization (`src/common/record.py`) -/

namespace Record

/-- `struct.pack('i', x)`: the four little-endian bytes of the 32-bit two's
complement representation of `x`. -/
def serializeField (x : Int) : List Nat :=
  let u : Nat := (x % (2 ^ 32 : Int)).toNat
  [u % 256, u / 256 % 256, u / 256 ^ 2 % 256, u / 256 ^ 3 % 256]

/-- The acceptance range of `struct.pack` format `'i'` (signed 32-bit):
out-of-range fields raise `struct.error`. -/
def fieldInRange (x : Int) : Bool :=
  decide (-(2 ^ 31) ≤ x) && decide (x < 2 ^ 31)

/-- `Record.serialize`: packs all fields as consecutive 4-byte signed
integers; `none` models the `struct.error` raised on an out-of-range field.
(An empty record serializes to `b''`.) -/
def serialize (fields : List Int) : Option (List Nat) :=
  if fields.all fieldInRange then
    some ((fields.map serializeField).flatten)
  else
    none

/-- `struct.unpack('i', ·)` of four little-endian bytes: reassemble and take
the signed value. -/
def deserializeField (bs : List Nat) : Int :=
  let u : Nat := bs.getD 0 0 + 256 * bs.getD 1 0
      + 256 ^ 2 * bs.getD 2 0 + 256 ^ 3 * bs.getD 3 0
  if u < 2 ^ 31 then (u : Int) else (u : Int) - 2 ^ 32

/-- `Record.deserialize(data, num_fields)`: empty data yields the empty
record, otherwise the first `num_fields` 4-byte groups are unpacked. -/
def deserialize (data : List Nat) (numFields : Nat) : Rec :=
  if data = [] then []
  else (List.range numFields).map fun i => deserializeField ((data.drop (4 * i)).take 4)

end Record

/-! ## Configuration (`src/common/config.py`) -/

/-- `Config`: validated page size / field count. -/
structure Config where
  pageSize : Int
  numFields : Int
deriving DecidableEq, Repr

/-- `Config.__post_init__` validation: raises on `page_size < 256` or
`num_fields < 1`. -/
def Config.make (pageSize numFields : Int) : Except String Config :=
  if pageSize < 256 then .error "page size"
  else if numFields < 1 then .error "field count"
  else .ok ⟨pageSize, numFields⟩

/-- Entry size used by both sizing functions: one key slot plus the record
(`key_size + record_size`, with 4-byte fields). -/
def Config.entrySize (c : Config) : Int := 4 + c.numFields * 4

/-- `Config.calculate_bplus_order`: `max(3, page_size // entry_size)`. -/
def Config.calculateBplusOrder (c : Config) : Int :=
  max 3 (c.pageSize / c.entrySize)

/-- `Config.calculate_hash_bucket_capacity`: `max(2, page_size // entry_size)`. -/
def Config.calculateHashBucketCapacity (c : Config) : Int :=
  max 2 (c.pageSize / c.entrySize)

/-- `Node.__init__` raises `ValueError` when `order < 3`
(`src/bplustree/node.py`). -/
def Node.initCheck (order : Int) : Except String Unit :=
  if order < 3 then .error "order" else .ok ()

/-- `BPlusTree.__init__`'s resolution of the order parameter: a `None` order
is computed from the config, an explicit order is *clamped* to `max(3, order)`
(`src/bplustree/tree.py`, line 75). -/
def BPlusTree.resolveOrder (order : Option Int) (c : Config) : Int :=
  match order with
  | none => c.calculateBplusOrder
  | some o => max 3 o

/-- Constructing a `BPlusTree`: validate the config, then resolve the order.
Returns the resulting order; the root starts as an empty leaf. -/
def BPlusTree.construct (order : Option Int) (pageSize numFields : Int) :
    Except String Int :=
  (Config.make pageSize numFields).map (BPlusTree.resolveOrder order)

/-- `ExtendibleHash.__init__`'s capacity resolution: explicit capacities are
clamped to `max(2, capacity)` (`src/hash/extendible.py`, line 62). -/
def ExtendibleHash.resolveCapacity (cap : Option Int) (c : Config) : Int :=
  match cap with
  | none => c.calculateHashBucketCapacity
  | some k => max 2 k

/-! ## Hash bucket (`src/hash/bucket.py`) -/

/-- The low `d` bits of a key, as a natural number: Python's
`key & ((1 << d) - 1)`, i.e. the floor modulus `key % 2 ^ d`. -/
def hashK (key : Int) (d : Nat) : Nat := (key % (2 ^ d : Int)).toNat

/-- Bit `i` of the infinite two's complement representation of `k`: Python's
`k & (1 << i) != 0`.  Equals `2 ^ i ≤ k % 2 ^ (i + 1)` because the floor
modulus by `2 ^ (i + 1)` keeps exactly the low `i + 1` bits. -/
def keyBit (k : Int) (i : Nat) : Bool :=
  decide ((2 ^ i : Int) ≤ k % 2 ^ (i + 1))

/-- A hash bucket: local depth, capacity, and the (key, record) pairs in
insertion order. -/
structure Bucket where
  localDepth : Nat
  capacity : Nat
  records : List (Int × Rec)
deriving DecidableEq, Repr

namespace Bucket

/-- `Bucket.is_full`: `len(records) >= capacity`. -/
def isFull (b : Bucket) : Bool := decide (b.capacity ≤ b.records.length)

/-- `Bucket.insert`: reject a duplicate key, then reject when full, else
append.  Returns the success flag and the updated bucket. -/
def insert (b : Bucket) (key : Int) (r : Rec) : Bool × Bucket :=
  if b.records.any fun p => p.1 = key then (false, b)
  else if b.isFull then (false, b)
  else (true, { b with records := b.records ++ [(key, r)] })

/-- `Bucket.search`: linear scan for the key. -/
def search (b : Bucket) (key : Int) : Option Rec :=
  (b.records.find? fun p => p.1 = key).map Prod.snd

/-- `Bucket.delete`: remove the first pair with the key, if any. -/
def delete (b : Bucket) (key : Int) : Option Rec × Bucket :=
  match b.records.find? fun p => p.1 = key with
  | some p => (some p.2, { b with records := b.records.eraseP fun q => q.1 = key })
  | none => (none, b)

/-- `Bucket.split`: increment the local depth and redistribute every record
by bit `new_local_depth - 1` of its key (0 → first bucket, 1 → second). -/
def split (b : Bucket) : Bucket × Bucket :=
  let d := b.localDepth + 1
  (⟨d, b.capacity, b.records.filter fun p => !keyBit p.1 (d - 1)⟩,
   ⟨d, b.capacity, b.records.filter fun p => keyBit p.1 (d - 1)⟩)

end Bucket

/-! ## Extendible hash engine (`src/hash/extendible.py`) -/

/-- The instrumentation counters of the hash engine. -/
structure HashStats where
  bucketReads : Nat
  bucketWrites : Nat
  splits : Nat
  directoryDoublings : Nat
deriving DecidableEq, Repr

/-- The extendible hash state.  `directory` holds indices into the arena
`store`; bucket identity (Python object identity, `is`) is arena-index
equality.  Superseded buckets simply become unreferenced. -/
structure EHash where
  bucketCapacity : Nat
  globalDepth : Nat
  directory : List Nat
  store : List Bucket
  stats : HashStats
deriving DecidableEq, Repr

namespace EHash

/-- `ExtendibleHash.__init__` with an explicit bucket capacity (clamped to a
minimum of 2): global depth 1, two fresh buckets at local depth 1. -/
def new (cap : Nat) : EHash :=
  { bucketCapacity := max 2 cap
    globalDepth := 1
    directory := [0, 1]
    store := [⟨1, max 2 cap, []⟩, ⟨1, max 2 cap, []⟩]
    stats := ⟨0, 0, 0, 0⟩ }

/-- `ExtendibleHash._hash`: the low `global_depth` bits of the key,
`key & (2^global_depth - 1)`, i.e. the floor modulus `key % 2^global_depth`. -/
def hashIdx (s : EHash) (key : Int) : Nat :=
  hashK key s.globalDepth

/-- The arena index stored in directory slot `i`. -/
def dirId (s : EHash) (i : Nat) : Nat := s.directory.getD i 0

/-- The bucket stored in arena cell `id`. -/
def bucketAt (s : EHash) (id : Nat) : Bucket := s.store.getD id ⟨0, 0, []⟩

/-- Overwrite arena cell `id` (a mutation of a possibly shared bucket). -/
def writeBucket (s : EHash) (id : Nat) (b : Bucket) : EHash :=
  { s with store := s.store.set id b }

/-- Bump a counter. -/
def addReads (s : EHash) (n : Nat) : EHash :=
  { s with stats := { s.stats with bucketReads := s.stats.bucketReads + n } }

def addWrites (s : EHash) (n : Nat) : EHash :=
  { s with stats := { s.stats with bucketWrites := s.stats.bucketWrites + n } }

/-- `ExtendibleHash._double_directory`: `global_depth += 1` and the new
directory is the old one concatenated with itself (`[A,B] → [A,B,A,B]`). -/
def doubleDirectory (s : EHash) : EHash :=
  { s with
    globalDepth := s.globalDepth + 1
    directory := s.directory ++ s.directory
    stats := { s.stats with directoryDoublings := s.stats.directoryDoublings + 1 } }

/-- Repoint every directory slot holding `oldId` to `id0`/`id1` according to
bit `bitPos` of the slot index (the loop at the end of
`ExtendibleHash._split_bucket`); `i` is the index of the first slot of `ds`. -/
def repoint (oldId id0 id1 bitPos : Nat) : Nat → List Nat → List Nat
  | _, [] => []
  | i, d :: ds =>
      (if d = oldId then (if i.testBit bitPos then id1 else id0) else d)
        :: repoint oldId id0 id1 bitPos (i + 1) ds

/-- `ExtendibleHash._split_bucket(index)`: split the bucket referenced by
directory slot `index` into two fresh arena cells and repoint exactly the
slots that referenced it, by bit `new_local_depth - 1` of the slot index. -/
def splitBucket (s : EHash) (index : Nat) : EHash :=
  let oldId := s.dirId index
  let old := s.bucketAt oldId
  let bs := old.split
  let id0 := s.store.length
  let id1 := s.store.length + 1
  { s with
    store := s.store ++ [bs.1, bs.2]
    directory := repoint oldId id0 id1 (bs.1.localDepth - 1) 0 s.directory
    stats := { s.stats with
      splits := s.stats.splits + 1
      bucketWrites := s.stats.bucketWrites + 2 } }

/-- One step of `ExtendibleHash._handle_overflow` up to the retry: split the
key's bucket (doubling the directory first when its local depth equals the
global depth). -/
def overflowStep (s : EHash) (key : Int) : EHash :=
  let index := s.hashIdx key
  let b := s.bucketAt (s.dirId index)
  if b.localDepth < s.globalDepth then s.splitBucket index
  else
    let s' := s.doubleDirectory
    s'.splitBucket (s'.hashIdx key)

/-- `ExtendibleHash._handle_overflow`: split/double, then retry the insert,
recursing while the key's bucket is still full.  The Python recursion has no
structural bound, so the model takes explicit fuel; `none` means the fuel ran
out (which, as proved below, cannot happen from a reachable state). -/
def handleOverflow : Nat → EHash → Int → Rec → Option EHash
  | 0, _, _, _ => none
  | fuel + 1, s, key, r =>
    let s1 := overflowStep s key
    let s2 := s1.addReads 1
    let id := s2.dirId (s2.hashIdx key)
    let res := (s2.bucketAt id).insert key r
    if res.1 then some ((s2.writeBucket id res.2).addWrites 1)
    else handleOverflow fuel s2 key r

/-- All keys stored anywhere in the arena, plus the key being inserted; used
to compute a sufficient fuel for the overflow recursion. -/
def allKeyBound (s : EHash) (key : Int) : Nat :=
  (key.natAbs :: (s.store.map fun b => (b.records.map fun p => p.1.natAbs).foldr max 0))
    |>.foldr max 0

/-- A fuel that provably suffices for `handleOverflow`: once the local depth
of the key's bucket exceeds the bit length of every stored key, the bucket
can no longer contain any key other than `key` itself. -/
def overflowFuel (s : EHash) (key : Int) : Nat :=
  Nat.size (allKeyBound s key) + s.globalDepth + 2

/-- `ExtendibleHash.insert`: try the bucket directly; a duplicate key fails;
a full bucket goes through overflow handling.  (The fuel shortage branch
returns the state unchanged; it is unreachable from reachable states.) -/
def insert (s : EHash) (key : Int) (r : Rec) : Bool × EHash :=
  let s0 := s.addReads 1
  let id := s0.dirId (s0.hashIdx key)
  let b := s0.bucketAt id
  let res := b.insert key r
  if res.1 then (true, (s0.writeBucket id res.2).addWrites 1)
  else if (b.search key).isSome then (false, s0)
  else
    match handleOverflow (overflowFuel s0 key) s0 key r with
    | some s' => (true, s')
    | none => (true, s0)

/-- `ExtendibleHash.search`: one directory access, one bucket probe. -/
def search (s : EHash) (key : Int) : Option Rec × EHash :=
  let s0 := s.addReads 1
  ((s0.bucketAt (s0.dirId (s0.hashIdx key))).search key, s0)

/-- First directory slot referencing arena cell `id` (the identity scan at
the start of `_try_merge_buckets`). -/
def firstSlot (s : EHash) (id : Nat) : Option Nat :=
  go s.directory 0
where
  go : List Nat → Nat → Option Nat
    | [], _ => none
    | d :: ds, i => if d = id then some i else go ds (i + 1)

/-- `ExtendibleHash._find_buddy_bucket`: the slot obtained by flipping bit
`local_depth - 1` of the bucket's slot; the buddy must exist, have equal
local depth, and be a distinct bucket instance. -/
def findBuddy (s : EHash) (id : Nat) (slot : Nat) : Option (Nat × Nat) :=
  let b := s.bucketAt id
  if b.localDepth = 0 then none
  else
    let buddySlot := slot ^^^ (1 <<< (b.localDepth - 1))
    if s.directory.length ≤ buddySlot then none
    else
      let buddyId := s.dirId buddySlot
      if (s.bucketAt buddyId).localDepth = b.localDepth ∧ buddyId ≠ id then
        some (buddyId, buddySlot)
      else none

/-- `ExtendibleHash._try_merge_buckets`: merge the bucket with its buddy into
a fresh arena cell at `local_depth - 1` when the depths match and the
combined records fit, repointing every slot that referenced either. -/
def tryMergeBuckets (s : EHash) (id : Nat) : EHash :=
  let b := s.bucketAt id
  if b.localDepth ≤ 1 then s
  else
    match s.firstSlot id with
    | none => s
    | some slot =>
      match s.findBuddy id slot with
      | none => s
      | some (buddyId, _) =>
        let buddy := s.bucketAt buddyId
        if b.capacity < b.records.length + buddy.records.length then s
        else
          let merged : Bucket := ⟨b.localDepth - 1, b.capacity, b.records ++ buddy.records⟩
          let mid := s.store.length
          { s with
            store := s.store ++ [merged]
            directory := s.directory.map fun d => if d = id ∨ d = buddyId then mid else d
            stats := { s.stats with bucketWrites := s.stats.bucketWrites + 1 } }

/-- `ExtendibleHash._try_shrink_directory`: when every referenced bucket has
`local_depth < global_depth` (and the depth is above 1), halve the directory. -/
def tryShrinkDirectory (s : EHash) : EHash :=
  if s.globalDepth ≤ 1 then s
  else if s.directory.all fun d => decide ((s.bucketAt d).localDepth < s.globalDepth) then
    { s with
      globalDepth := s.globalDepth - 1
      directory := s.directory.take (2 ^ (s.globalDepth - 1)) }
  else s

/-- `ExtendibleHash.delete`: one bucket probe; on a successful removal, try a
buddy merge and then a directory shrink. -/
def delete (s : EHash) (key : Int) : Option Rec × EHash :=
  let s0 := s.addReads 1
  let id := s0.dirId (s0.hashIdx key)
  let res := (s0.bucketAt id).delete key
  match res.1 with
  | none => (none, s0)
  | some r =>
    let s1 := (s0.writeBucket id res.2).addWrites 1
    let s2 := s1.tryMergeBuckets id
    (some r, s2.tryShrinkDirectory)

/-- The abstract contents of the hash index: the record found for `key` by a
single bucket probe through the directory. -/
def lookup (s : EHash) (key : Int) : Option Rec :=
  (s.bucketAt (s.dirId (s.hashIdx key))).search key

/-- The structural invariant of the extendible hash engine.  `dirId` equality
is bucket *identity* (arena index); the bucket of every slot `i` is also
written `s.bucketAt (s.dirId i)`. -/
structure Inv (s : EHash) : Prop where
  gdPos : 1 ≤ s.globalDepth
  capGe : 2 ≤ s.bucketCapacity
  dirLen : s.directory.length = 2 ^ s.globalDepth
  idLt : ∀ i < s.directory.length, s.dirId i < s.store.length
  ldLe : ∀ i < s.directory.length, (s.bucketAt (s.dirId i)).localDepth ≤ s.globalDepth
  capEq : ∀ i < s.directory.length, (s.bucketAt (s.dirId i)).capacity = s.bucketCapacity
  sizeLe : ∀ i < s.directory.length,
    (s.bucketAt (s.dirId i)).records.length ≤ s.bucketCapacity
  classEq : ∀ i < s.directory.length, ∀ j < s.directory.length,
    i % 2 ^ (s.bucketAt (s.dirId i)).localDepth = j % 2 ^ (s.bucketAt (s.dirId i)).localDepth →
    s.dirId i = s.dirId j
  sameId : ∀ i < s.directory.length, ∀ j < s.directory.length,
    s.dirId i = s.dirId j →
    i % 2 ^ (s.bucketAt (s.dirId i)).localDepth = j % 2 ^ (s.bucketAt (s.dirId i)).localDepth
  keysIn : ∀ i < s.directory.length, ∀ p ∈ (s.bucketAt (s.dirId i)).records,
    (p.1 % (2 ^ (s.bucketAt (s.dirId i)).localDepth : Int)).toNat
      = i % 2 ^ (s.bucketAt (s.dirId i)).localDepth
  keysNodup : ∀ i < s.directory.length,
    ((s.bucketAt (s.dirId i)).records.map Prod.fst).Nodup

/-- States reachable by any sequence of operations on the hash engine. -/
inductive Reach (cap : Nat) : EHash → Prop
  | init : Reach cap (EHash.new cap)
  | ins {s} (key : Int) (r : Rec) : Reach cap s → Reach cap (EHash.insert s key r).2
  | del {s} (key : Int) : Reach cap s → Reach cap (EHash.delete s key).2
  | srch {s} (key : Int) : Reach cap s → Reach cap (EHash.search s key).2

end EHash

/-! ## B+ tree nodes (`src/bplustree/node.py`) -/

/-- A B+ tree node: leaves carry the records (keys in lock-step with
records), internal nodes carry routing keys and children.  The doubly linked
leaf list is represented by the in-order sequence of leaves. -/
inductive BNode where
  | leaf (keys : List Int) (recs : List Rec)
  | internal (keys : List Int) (children : List BNode)
deriving Repr

/-- `Node._binary_search`: the classic lower-bound loop.  The `while` loop
is rendered with a fuel argument; `right - left` shrinks on every pass, so a
fuel of `keys.length` suffices from the initial bounds. -/
def bsLoop (keys : List Int) (key : Int) : Nat → Nat → Nat → Nat
  | fuel + 1, left, right =>
    if left < right then
      let mid := (left + right) / 2
      if keys.getD mid 0 < key then bsLoop keys key fuel (mid + 1) right
      else bsLoop keys key fuel left mid
    else left
  | 0, left, _ => left

def binSearch (keys : List Int) (key : Int) : Nat :=
  bsLoop keys key keys.length 0 keys.length

/-- `LeafNode.insert`: binary-search the position, reject a duplicate,
otherwise insert key and record at the position. -/
def leafInsert (keys : List Int) (recs : List Rec) (key : Int) (r : Rec) :
    Option (List Int × List Rec) :=
  let pos := binSearch keys key
  if pos < keys.length ∧ keys.getD pos 0 = key then none
  else some (keys.insertIdx pos key, recs.insertIdx pos r)

/-- `LeafNode.search`. -/
def leafSearch (keys : List Int) (recs : List Rec) (key : Int) : Option Rec :=
  let pos := binSearch keys key
  if pos < keys.length ∧ keys.getD pos 0 = key then recs[pos]? else none

/-- `LeafNode.delete`: remove the matching entry, returning it. -/
def leafDelete (keys : List Int) (recs : List Rec) (key : Int) :
    List Int × List Rec × Option Rec :=
  let pos := binSearch keys key
  if pos < keys.length ∧ keys.getD pos 0 = key then
    (keys.eraseIdx pos, recs.eraseIdx pos, recs[pos]?)
  else (keys, recs, none)

/-- First index whose key is strictly greater than `key` (the loop of
`InternalNode.find_child_index`). -/
def firstGt (key : Int) : List Int → Option Nat
  | [] => none
  | k :: ks => if key < k then some 0 else (firstGt key ks).map (· + 1)

/-- `InternalNode.find_child_index`: the first `i` with `key < keys[i]`,
else the last child index. -/
def findChildIdx (keys : List Int) (key : Int) (childCount : Nat) : Nat :=
  (firstGt key keys).getD (childCount - 1)

mutual
/-- The functional form of `BPlusTree.insert`'s descent plus
`_handle_split`: returns `none` on a duplicate key, otherwise the rebuilt
node, an optional promoted key with the new right sibling, and the number of
splits performed.  An out-of-range child access (impossible under the
structure invariant, an `IndexError` in Python) also yields `none`. -/
def insertNode (order : Nat) (key : Int) (r : Rec) : BNode → Option (BNode × Option (Int × BNode) × Nat)
  | .leaf keys recs =>
    match leafInsert keys recs key r with
    | none => none
    | some (ks, rs) =>
      if order ≤ ks.length then
        let mid := ks.length / 2
        some (.leaf (ks.take mid) (rs.take mid),
          some ((ks.drop mid).headD 0, .leaf (ks.drop mid) (rs.drop mid)), 1)
      else some (.leaf ks rs, none, 0)
  | .internal keys children =>
    match insertSeq order key r (findChildIdx keys key children.length) children with
    | none => none
    | some (children1, none, sc) => some (.internal keys children1, none, sc)
    | some (children1, some (pk, nn), sc) =>
      let pos := (keys.takeWhile fun k => decide (k < pk)).length
      let keys2 := keys.insertIdx pos pk
      let children2 := children1.insertIdx (pos + 1) nn
      if order ≤ keys2.length then
        let mid := keys2.length / 2
        some (.internal (keys2.take mid) (children2.take (mid + 1)),
          some (keys2.getD mid 0,
            .internal (keys2.drop (mid + 1)) (children2.drop (mid + 1))), sc + 1)
      else some (.internal keys2 children2, none, sc)

/-- The recursive call `children[idx].insert(...)` followed by replacing
that child in place: returns the updated child list, the split information
propagated up, and the split count; `none` on a duplicate key (or on an
`IndexError`, impossible under the structure invariant). -/
def insertSeq (order : Nat) (key : Int) (r : Rec) : Nat → List BNode → Option (List BNode × Option (Int × BNode) × Nat)
  | _, [] => none
  | 0, c :: cs =>
    match insertNode order key r c with
    | none => none
    | some (c1, prom, sc) => some (c1 :: cs, prom, sc)
  | i + 1, c :: cs =>
    match insertSeq order key r i cs with
    | none => none
    | some (cs1, prom, sc) => some (c :: cs1, prom, sc)
end

mutual
/-- `BPlusTree.search`: descend by routing keys, probe the leaf. -/
def searchNode (key : Int) : BNode → Option Rec
  | .leaf keys recs => leafSearch keys recs key
  | .internal keys children =>
    searchSeq key (findChildIdx keys key children.length) children

/-- Descent into `children[idx]` (an out-of-range index finds nothing). -/
def searchSeq (key : Int) : Nat → List BNode → Option Rec
  | _, [] => none
  | 0, c :: _ => searchNode key c
  | i + 1, _ :: cs => searchSeq key i cs
end

mutual
/-- `BPlusTree.delete`: descend, remove at the leaf, no rebalancing. -/
def deleteNode (key : Int) : BNode → BNode × Option Rec
  | .leaf keys recs =>
    let res := leafDelete keys recs key
    (.leaf res.1 res.2.1, res.2.2)
  | .internal keys children =>
    let res := deleteSeq key (findChildIdx keys key children.length) children
    (.internal keys res.1, res.2)

/-- The recursive delete on `children[idx]`, replacing the child in place. -/
def deleteSeq (key : Int) : Nat → List BNode → List BNode × Option Rec
  | _, [] => ([], none)
  | 0, c :: cs =>
    let res := deleteNode key c
    (res.1 :: cs, res.2)
  | i + 1, c :: cs =>
    let res := deleteSeq key i cs
    (c :: res.1, res.2)
end

mutual
/-- Internal nodes visited by `_find_leaf` (each bumps `page_reads`). -/
def internalsOnPath (key : Int) : BNode → Nat
  | .leaf _ _ => 0
  | .internal keys children =>
    1 + pathSeq key (findChildIdx keys key children.length) children

def pathSeq (key : Int) : Nat → List BNode → Nat
  | _, [] => 0
  | 0, c :: _ => internalsOnPath key c
  | i + 1, _ :: cs => pathSeq key i cs
end

mutual
/-- The in-order (key, record) pairs of a subtree. -/
def entries : BNode → List (Int × Rec)
  | .leaf keys recs => keys.zip recs
  | .internal _ children => entriesL children
def entriesL : List BNode → List (Int × Rec)
  | [] => []
  | c :: cs => entries c ++ entriesL cs
end

mutual
/-- The in-order leaf sequence of a subtree: the leaf linked list. -/
def allLeaves : BNode → List (List Int × List Rec)
  | .leaf keys recs => [(keys, recs)]
  | .internal _ children => allLeavesL children
def allLeavesL : List BNode → List (List Int × List Rec)
  | [] => []
  | c :: cs => allLeaves c ++ allLeavesL cs
end

mutual
/-- `_find_leaf(start_key)` followed by the `next`-pointer chain: the found
leaf and every leaf after it in the linked list. -/
def leavesFrom (key : Int) : BNode → List (List Int × List Rec)
  | .leaf keys recs => [(keys, recs)]
  | .internal keys children =>
    leavesFromSeq key (findChildIdx keys key children.length) children

/-- Descend into `children[idx]`; the leaves of the later siblings follow
in the linked list. -/
def leavesFromSeq (key : Int) : Nat → List BNode → List (List Int × List Rec)
  | _, [] => []
  | 0, c :: cs => leavesFrom key c ++ allLeavesL cs
  | i + 1, _ :: cs => leavesFromSeq key i cs
end

/-- The per-leaf loop of `range_search`: collect records with
`lo ≤ key ≤ hi`; the Bool reports the early exit on `key > hi`. -/
def scanPairs (lo hi : Int) : List (Int × Rec) → List Rec × Bool
  | [] => ([], false)
  | (k, r) :: rest =>
    if hi < k then ([], true)
    else
      let res := scanPairs lo hi rest
      if lo ≤ k then (r :: res.1, res.2) else res

/-- The leaf-chain loop of `range_search`; the Nat counts the extra leaves
visited through `next` (each bumps `page_reads`). -/
def scanLeaves (lo hi : Int) : List (List Int × List Rec) → List Rec × Nat
  | [] => ([], 0)
  | (ks, rs) :: rest =>
    let res := scanPairs lo hi (ks.zip rs)
    if res.2 then (res.1, 0)
    else
      match rest with
      | [] => (res.1, 0)
      | l2 :: rest2 =>
        let r2 := scanLeaves lo hi (l2 :: rest2)
        (res.1 ++ r2.1, r2.2 + 1)

/-- The number of levels from the root down to the leftmost leaf. -/
def treeDepth : BNode → Nat
  | .leaf _ _ => 1
  | .internal _ [] => 1
  | .internal _ (c :: _) => 1 + treeDepth c

mutual
/-- Every leaf of the subtree sits exactly `d` levels down. -/
def depthOK : BNode → Nat → Bool
  | .leaf _ _, d => d == 1
  | .internal _ children, d => decide (2 ≤ d) && depthOKL children (d - 1)
def depthOKL : List BNode → Nat → Bool
  | [], _ => true
  | c :: cs, d => depthOK c d && depthOKL cs d
end

/-- All leaves at equal depth. -/
def equalLeafDepth (n : BNode) : Bool := depthOK n (treeDepth n)

/-- `min_keys = ceil(order/2) - 1` (`Node.is_underflow`). -/
def minKeys (order : Nat) : Nat := (order + 1) / 2 - 1

mutual
/-- The node-count bounds: every node has at most `order - 1` keys, and
every non-root node at least `minKeys order` keys. -/
def nodeSizeOK (order : Nat) (isRoot : Bool) : BNode → Bool
  | .leaf keys _ =>
      (isRoot || decide (minKeys order ≤ keys.length)) && decide (keys.length ≤ order - 1)
  | .internal keys children =>
      (isRoot || decide (minKeys order ≤ keys.length)) && decide (keys.length ≤ order - 1)
        && nodeSizeOKL order children
def nodeSizeOKL (order : Nat) : List BNode → Bool
  | [] => true
  | c :: cs => nodeSizeOK order false c && nodeSizeOKL order cs
end

/-! ## The tree engine (`src/bplustree/tree.py`) -/

structure TStats where
  pageReads : Nat
  pageWrites : Nat
  splits : Nat
  merges : Nat
  height : Nat
deriving Repr, DecidableEq

structure TState where
  order : Nat
  root : BNode
  stats : TStats
deriving Repr

namespace BPlusTree

/-- `BPlusTree.__init__` with an explicit order (clamped to at least 3):
an empty leaf root and height 1. -/
def new (order : Nat) : TState :=
  { order := max 3 order, root := .leaf [] [], stats := ⟨0, 0, 0, 0, 1⟩ }

/-- `BPlusTree.insert`: descend, try the leaf insert, propagate splits, and
create a fresh root (bumping `height`) exactly when the old root split. -/
def insertT (s : TState) (key : Int) (r : Rec) : Bool × TState :=
  let reads := internalsOnPath key s.root + 1
  match insertNode s.order key r s.root with
  | none => (false, { s with stats := { s.stats with
      pageReads := s.stats.pageReads + reads } })
  | some (n1, none, sc) =>
    (true, { s with root := n1, stats := { s.stats with
        pageReads := s.stats.pageReads + reads
        pageWrites := s.stats.pageWrites + 1 + 2 * sc
        splits := s.stats.splits + sc } })
  | some (n1, some (pk, nn), sc) =>
    (true, { s with root := .internal [pk] [n1, nn], stats := { s.stats with
        pageReads := s.stats.pageReads + reads
        pageWrites := s.stats.pageWrites + 1 + 2 * sc + 1
        splits := s.stats.splits + sc
        height := s.stats.height + 1 } })

/-- `BPlusTree.search`. -/
def searchT (s : TState) (key : Int) : Option Rec × TState :=
  (searchNode key s.root, { s with stats := { s.stats with
    pageReads := s.stats.pageReads + internalsOnPath key s.root + 1 } })

/-- `BPlusTree.delete` (no rebalancing). -/
def deleteT (s : TState) (key : Int) : Option Rec × TState :=
  let reads := internalsOnPath key s.root + 1
  let res := deleteNode key s.root
  match res.2 with
  | none => (none, { s with root := res.1, stats := { s.stats with
      pageReads := s.stats.pageReads + reads } })
  | some r => (some r, { s with root := res.1, stats := { s.stats with
      pageReads := s.stats.pageReads + reads
      pageWrites := s.stats.pageWrites + 1 } })

/-- `BPlusTree.range_search`: empty for `lo > hi`, else descend to the leaf
for `lo` and walk the leaf chain. -/
def rangeT (s : TState) (lo hi : Int) : List Rec × TState :=
  if hi < lo then ([], s)
  else
    let reads := internalsOnPath lo s.root + 1
    let res := scanLeaves lo hi (leavesFrom lo s.root)
    (res.1, { s with stats := { s.stats with
      pageReads := s.stats.pageReads + reads + res.2 } })

/-- `BPlusTree.reset_stats`: zero every counter except `height`. -/
def resetStatsT (s : TState) : TState :=
  { s with stats := ⟨0, 0, 0, 0, s.stats.height⟩ }

end BPlusTree

/-! ## Operation sequences and the functional specification -/

/-- An index operation. -/
inductive Op where
  | ins (key : Int) (r : Rec)
  | del (key : Int)

/-- The reference semantics of one operation on a partial map: a duplicate
insert is rejected (the original record stays), a delete removes the key. -/
def specApply (m : Int → Option Rec) : Op → (Int → Option Rec)
  | .ins key r => if (m key).isSome then m else fun k => if k = key then some r else m k
  | .del key => fun k => if k = key then none else m k

/-- The map described by a sequence of operations. -/
def specMap (ops : List Op) : Int → Option Rec :=
  ops.foldl specApply fun _ => none

def applyT (s : TState) : Op → TState
  | .ins key r => (BPlusTree.insertT s key r).2
  | .del key => (BPlusTree.deleteT s key).2

/-- Run a sequence of inserts/deletes against the tree engine. -/
def runT (ops : List Op) (s : TState) : TState := ops.foldl applyT s

def applyH (s : EHash) : Op → EHash
  | .ins key r => (EHash.insert s key r).2
  | .del key => (EHash.delete s key).2

/-- Run a sequence of inserts/deletes against the hash engine. -/
def runH (ops : List Op) (s : EHash) : EHash := ops.foldl applyH s

/-- Tree states reachable by any sequence of operations. -/
inductive TReach (order : Nat) : TState → Prop
  | init : TReach order (BPlusTree.new order)
  | ins {s} (key : Int) (r : Rec) : TReach order s → TReach order (BPlusTree.insertT s key r).2
  | del {s} (key : Int) : TReach order s → TReach order (BPlusTree.deleteT s key).2
  | srch {s} (key : Int) : TReach order s → TReach order (BPlusTree.searchT s key).2
  | range {s} (lo hi : Int) : TReach order s → TReach order (BPlusTree.rangeT s lo hi).2
  | reset {s} : TReach order s → TReach order (BPlusTree.resetStatsT s)

/-! ## The structural invariant of the tree -/

/-- Inclusive lower bound (`none` = unbounded). -/
def lbO : Option Int → Int → Prop
  | none, _ => True
  | some a, k => a ≤ k

/-- Exclusive upper bound (`none` = unbounded). -/
def ubO : Option Int → Int → Prop
  | none, _ => True
  | some b, k => k < b

/-- Strict lower bound, used for routing keys. -/
def slbO : Option Int → Int → Prop
  | none, _ => True
  | some a, k => a < k

mutual
/-- Well-formedness of a subtree at height `h` with key range `[lo, hi)`:
leaf keys are strictly sorted within the range, internal nodes alternate
routing keys and children so that each routing key is an inclusive lower
bound for everything to its right. -/
inductive WF (order : Nat) : Nat → Option Int → Option Int → BNode → Prop where
  | leaf {keys recs lo hi} :
      List.Pairwise (· < ·) keys →
      (∀ k ∈ keys, lbO lo k ∧ ubO hi k) →
      recs.length = keys.length →
      WF order 1 lo hi (.leaf keys recs)
  | internal {keys children lo hi h} :
      WFSeq order h lo keys children hi →
      WF order (h + 1) lo hi (.internal keys children)

/-- A routing-key/child alternation `c₀ k₁ c₁ … kₘ cₘ` covering `[lo, hi)`:
child `cᵢ` covers `[kᵢ, kᵢ₊₁)` and each routing key lies strictly inside the
enclosing range. -/
inductive WFSeq (order : Nat) : Nat → Option Int → List Int → List BNode → Option Int → Prop where
  | single {h lo hi c} : WF order h lo hi c → WFSeq order h lo [] [c] hi
  | cons {h lo hi k ks c cs} :
      WF order h lo (some k) c →
      slbO lo k → ubO hi k →
      WFSeq order h (some k) ks cs hi →
      WFSeq order h lo (k :: ks) (c :: cs) hi
end

/-- The association-list view of the index contents. -/
def lookupE (l : List (Int × Rec)) (key : Int) : Option Rec :=
  (l.find? fun p => p.1 = key).map Prod.snd

/-- Insertion into a key-sorted association list. -/
def sortedIns (key : Int) (r : Rec) : List (Int × Rec) → List (Int × Rec)
  | [] => [(key, r)]
  | p :: t => if key < p.1 then (key, r) :: p :: t else p :: sortedIns key r t

/-- Removal of a key from an association list (first occurrence). -/
def eraseKey (key : Int) (l : List (Int × Rec)) : List (Int × Rec) :=
  l.eraseP fun p => decide (p.1 = key)

/-- The engine-level invariant: a well-formed root whose height matches the
`height` statistic. -/
def TInv (s : TState) : Prop :=
  3 ≤ s.order ∧ ∃ h, WF s.order h none none s.root ∧ s.stats.height = h

/-- `res` is the lower-bound position of `key` in `keys`: everything before
it is `< key`, nothing from it on is. -/
def IsLB (keys : List Int) (key : Int) (res : Nat) : Prop :=
  res ≤ keys.length ∧ (∀ i, i < res → keys.getD i 0 < key) ∧
    ∀ i, res ≤ i → i < keys.length → ¬ keys.getD i 0 < key

/-- The keys seen when walking the leaf linked list left to right. -/
def leafKeys (n : BNode) : List Int := (allLeaves n).flatMap fun l => l.1

/-- Whether an operation is an insertion. -/
def Op.isIns : Op → Bool
  | .ins _ _ => true
  | .del _ => false

end BHIndex

namespace BHIndex

/-! ## Round trip of serialization (claim C9) -/

theorem deserializeField_serializeField (x : Int)
    (h₁ : -(2 ^ 31) ≤ x) (h₂ : x < 2 ^ 31) :
    Record.deserializeField (Record.serializeField x) = x := by
  unfold Record.serializeField Record.deserializeField
  have hlt : x % (2 ^ 32 : Int) < 2 ^ 32 := Int.emod_lt_of_pos x (by norm_num)
  have hge : (0 : Int) ≤ x % (2 ^ 32 : Int) := Int.emod_nonneg x (by norm_num)
  have hchar : x % (2 ^ 32 : Int) = if 0 ≤ x then x else x + 2 ^ 32 := by
    have := Int.emod_add_ediv x (2 ^ 32)
    have hdiv : x / (2 ^ 32 : Int) = if 0 ≤ x then 0 else -1 := by
      split <;> omega
    split at hdiv <;> simp [hdiv] at this <;> omega
  simp only [List.getD_cons_zero, List.getD_cons_succ]
  omega

theorem serializeField_length (x : Int) : (Record.serializeField x).length = 4 := rfl

theorem serialize_chunk (fs : List Int) (i : Nat) (h : i < fs.length) :
    (((fs.map Record.serializeField).flatten.drop (4 * i)).take 4)
      = Record.serializeField fs[i] := by
  induction fs generalizing i with
  | nil => simp at h
  | cons f rest ih =>
    cases i with
    | zero =>
      simp only [List.map_cons, List.flatten_cons, Nat.mul_zero, List.drop_zero]
      rw [List.take_append_of_le_length (by simp [serializeField_length])]
      simp [Record.serializeField]
    | succ j =>
      have h4 : 4 * (j + 1) = (Record.serializeField f).length + 4 * j := by
        simp [serializeField_length]; omega
      simp only [List.map_cons, List.flatten_cons, h4, List.drop_append]
      exact ih j (by simpa using h)

/-- **C9.** `Record.deserialize(Record.serialize(r), n) == r` for every
record `r` of `n` fields: whenever serialization succeeds (all fields fit the
4-byte signed layout that `struct.pack('i')` enforces), deserializing the
bytes with the record's own field count recovers the record exactly. -/
theorem record_serialize_roundtrip (r : Rec) (bs : List Nat)
    (h : Record.serialize r = some bs) :
    Record.deserialize bs r.length = r := by
  unfold Record.serialize at h
  split at h
  case isFalse => exact absurd h (by simp)
  case isTrue hall =>
    obtain rfl : (r.map Record.serializeField).flatten = bs := by
      simpa using h
    unfold Record.deserialize
    split
    case isTrue hempty =>
      cases r with
      | nil => rfl
      | cons f rest =>
        exfalso
        have : (4 : Nat) ≤ 0 := by
          calc (4 : Nat) = (Record.serializeField f).length := rfl
          _ ≤ ((f :: rest).map Record.serializeField).flatten.length := by
                simp [List.flatten_cons]
          _ = 0 := by rw [hempty]; rfl
        omega
    case isFalse =>
      apply List.ext_getElem (by simp)
      intro i h1 h2
      simp only [List.getElem_map, List.getElem_range]
      rw [serialize_chunk r i (by simpa using h2)]
      have hin : r[i] ∈ r := List.getElem_mem _
      have := List.all_eq_true.mp hall _ hin
      simp only [Record.fieldInRange, Bool.and_eq_true, decide_eq_true_eq] at this
      exact deserializeField_serializeField _ this.1 this.2

/-- Witness for C9 at the concrete record `[1, -5, 2147483647]`. -/
theorem record_serialize_roundtrip_witness :
    Record.deserialize
      [1, 0, 0, 0, 251, 255, 255, 255, 255, 255, 255, 127]
      ([1, -5, 2147483647] : Rec).length = [1, -5, 2147483647] :=
  record_serialize_roundtrip [1, -5, 2147483647]
    [1, 0, 0, 0, 251, 255, 255, 255, 255, 255, 255, 127] (by decide)

/-! ## Construction (claim C8) -/

/-- **C8 counterexample.** Constructing a `BPlusTree` with `order = 2`
(below 3) and otherwise valid parameters is *not* a fatal configuration
error: the constructor silently clamps the order to 3 and succeeds, so the
claim that an order below 3 is "reported immediately at construction time"
is false at the `BPlusTree` level. -/
theorem bplustree_order_two_not_fatal :
    BPlusTree.construct (some 2) 512 10 = .ok 3 := rfl

/-- **C8 (amended).** Constructing a B+ tree index with a non-positive field
count (or a page size below 256) is a fatal configuration error reported
immediately at construction time; an explicit order below 3 is *clamped to 3*
by `BPlusTree.__init__` rather than rejected (only constructing a bare
`Node` with order < 3 raises); for every order ≥ 3 and valid page/field
parameters, construction succeeds with exactly that order. -/
theorem bplustree_construct_spec (o pageSize numFields : Int)
    (hp : 256 ≤ pageSize) (hn : 1 ≤ numFields) :
    (∀ nf : Int, nf ≤ 0 → ∀ ord ps, (BPlusTree.construct ord ps nf).isOk = false) ∧
    (3 ≤ o → BPlusTree.construct (some o) pageSize numFields = .ok o) ∧
    (o < 3 → BPlusTree.construct (some o) pageSize numFields = .ok 3) ∧
    (o < 3 → (Node.initCheck o).isOk = false) := by
  refine ⟨?_, ?_, ?_, ?_⟩
  · intro nf hnf ord ps
    unfold BPlusTree.construct Config.make
    split
    · rfl
    · rw [if_pos (by omega)]; rfl
  · intro h3
    unfold BPlusTree.construct Config.make
    rw [if_neg (by omega), if_neg (by omega)]
    simp [Except.map, BPlusTree.resolveOrder, max_eq_right h3]
  · intro h3
    unfold BPlusTree.construct Config.make
    rw [if_neg (by omega), if_neg (by omega)]
    simp [Except.map, BPlusTree.resolveOrder, max_eq_left (by omega : o ≤ 3)]
  · intro h3
    unfold Node.initCheck
    rw [if_pos h3]
    rfl

/-- Witness for the amended C8 at `order = 2`, `page_size = 512`,
`num_fields = 10`. -/
theorem bplustree_construct_spec_witness :
    (∀ nf : Int, nf ≤ 0 → ∀ ord ps, (BPlusTree.construct ord ps nf).isOk = false) ∧
    (3 ≤ (2 : Int) → BPlusTree.construct (some 2) 512 10 = .ok 2) ∧
    ((2 : Int) < 3 → BPlusTree.construct (some 2) 512 10 = .ok 3) ∧
    ((2 : Int) < 3 → (Node.initCheck 2).isOk = false) :=
  bplustree_construct_spec 2 512 10 (by norm_num) (by norm_num)

/-! ## Arithmetic of low-order bits -/

theorem hashK_nonneg_int (key : Int) (d : Nat) : (0 : Int) ≤ key % 2 ^ d :=
  Int.emod_nonneg key (by positivity)

theorem hashK_cast (key : Int) (d : Nat) : ((hashK key d : Nat) : Int) = key % 2 ^ d :=
  Int.toNat_of_nonneg (hashK_nonneg_int key d)

theorem hashK_lt (key : Int) (d : Nat) : hashK key d < 2 ^ d := by
  have h := Int.emod_lt_of_pos key (show (0 : Int) < 2 ^ d by positivity)
  have hc := hashK_cast key d
  have : ((hashK key d : Nat) : Int) < ((2 ^ d : Nat) : Int) := by
    rw [hc]; push_cast; exact h
  exact_mod_cast this

theorem hashK_mod (key : Int) {d g : Nat} (h : d ≤ g) :
    hashK key g % 2 ^ d = hashK key d := by
  have hdvd : ((2 : Int) ^ d) ∣ (2 : Int) ^ g := pow_dvd_pow 2 h
  have hmm : key % (2 ^ g : Int) % (2 ^ d : Int) = key % 2 ^ d :=
    Int.emod_emod_of_dvd key hdvd
  have : ((hashK key g % 2 ^ d : Nat) : Int) = ((hashK key d : Nat) : Int) := by
    rw [Int.natCast_mod, hashK_cast, hashK_cast]
    push_cast
    exact hmm
  exact_mod_cast this

/-- Splitting a modulus by one bit: `n % 2^(d+1)` is `n % 2^d` plus `2^d`
when bit `d` is set. -/
theorem mod_two_pow_succ (n d : Nat) :
    n % 2 ^ (d + 1) = n % 2 ^ d + (if n.testBit d then 2 ^ d else 0) := by
  have h1 : n % (2 ^ d * 2) = n % 2 ^ d + 2 ^ d * (n / 2 ^ d % 2) := Nat.mod_mul
  have h2 : n.testBit d = decide (n / 2 ^ d % 2 = 1) := Nat.testBit_to_div_mod
  have h3 : n / 2 ^ d % 2 = 0 ∨ n / 2 ^ d % 2 = 1 := by omega
  rw [pow_succ, h1, h2]
  rcases h3 with h | h <;> simp [h]

theorem testBit_eq_of_mod_eq {i j : Nat} (d : Nat)
    (h : i % 2 ^ (d + 1) = j % 2 ^ (d + 1)) : i.testBit d = j.testBit d := by
  have hi := mod_two_pow_succ i d
  have hj := mod_two_pow_succ j d
  have hi' : i % 2 ^ d < 2 ^ d := Nat.mod_lt _ (by positivity)
  have hj' : j % 2 ^ d < 2 ^ d := Nat.mod_lt _ (by positivity)
  by_contra hne
  rcases Bool.eq_false_or_eq_true (i.testBit d) with h1 | h1 <;>
    rcases Bool.eq_false_or_eq_true (j.testBit d) with h2 | h2 <;>
      simp [h1, h2] at hne hi hj ⊢ <;> omega

theorem mod_eq_of_mod_succ_eq {i j : Nat} {d : Nat}
    (h : i % 2 ^ (d + 1) = j % 2 ^ (d + 1)) : i % 2 ^ d = j % 2 ^ d := by
  have : i % 2 ^ (d + 1) % 2 ^ d = j % 2 ^ (d + 1) % 2 ^ d := by rw [h]
  rwa [Nat.mod_mod_of_dvd _ (pow_dvd_pow 2 (by omega)),
       Nat.mod_mod_of_dvd _ (pow_dvd_pow 2 (by omega))] at this

theorem mod_succ_eq_iff {i j : Nat} (d : Nat) :
    i % 2 ^ (d + 1) = j % 2 ^ (d + 1) ↔
      i % 2 ^ d = j % 2 ^ d ∧ i.testBit d = j.testBit d := by
  constructor
  · intro h
    exact ⟨mod_eq_of_mod_succ_eq h, testBit_eq_of_mod_eq d h⟩
  · rintro ⟨h1, h2⟩
    rw [mod_two_pow_succ, mod_two_pow_succ, h1, h2]

/-- Bit `d` of the hash slot of `key` (at any depth `g > d`) is the key's
bit `d`. -/
theorem testBit_hashK (key : Int) {d g : Nat} (h : d < g) :
    (hashK key g).testBit d = keyBit key d := by
  have h1 : hashK key g % 2 ^ (d + 1) = hashK key (d + 1) := hashK_mod key (by omega)
  have h2 : hashK key g % 2 ^ (d + 1)
      = hashK key g % 2 ^ d + (if (hashK key g).testBit d then 2 ^ d else 0) :=
    mod_two_pow_succ _ d
  have h3 : hashK key g % 2 ^ d = hashK key d := hashK_mod key (by omega)
  have h4 : hashK key d < 2 ^ d := hashK_lt key d
  have h6 : keyBit key d = decide (2 ^ d ≤ hashK key (d + 1)) := by
    unfold keyBit
    apply decide_eq_decide.mpr
    rw [← hashK_cast key (d + 1)]
    exact_mod_cast Iff.rfl
  have h7 : hashK key (d + 1) = hashK key d + (if (hashK key g).testBit d then 2 ^ d else 0) := by
    rw [← h1, h2, h3]
  rw [h6]
  cases hb : (hashK key g).testBit d
  · rw [hb] at h7
    simp only [Bool.false_eq_true, if_false, add_zero] at h7
    symm
    simp only [decide_eq_false_iff_not, not_le]
    omega
  · rw [hb] at h7
    simp only [if_true] at h7
    symm
    simp only [decide_eq_true_eq]
    omega

theorem mod_two_pow_eq_iff (a b d : Nat) :
    a % 2 ^ d = b % 2 ^ d ↔ ∀ i < d, a.testBit i = b.testBit i := by
  induction d with
  | zero => simp [Nat.mod_one]
  | succ d ih =>
    rw [mod_succ_eq_iff, ih]
    constructor
    · rintro ⟨h1, h2⟩ i hi
      rcases Nat.lt_succ_iff_lt_or_eq.mp hi with hlt | rfl
      · exact h1 i hlt
      · exact h2
    · intro h
      exact ⟨fun i hi => h i (by omega), h d (by omega)⟩

theorem xor_pow_testBit (slot p i : Nat) :
    (slot ^^^ 2 ^ p).testBit i
      = if i = p then !slot.testBit p else slot.testBit i := by
  rw [Nat.testBit_xor]
  have := @Nat.testBit_two_pow p i
  split
  case isTrue h => subst h; simp [this]
  case isFalse h =>
    rw [this]
    simp [show ¬(p = i) by omega]

theorem xor_pow_mod_eq (slot p d : Nat) (h : d ≤ p) :
    (slot ^^^ 2 ^ p) % 2 ^ d = slot % 2 ^ d := by
  rw [mod_two_pow_eq_iff]
  intro i hi
  rw [xor_pow_testBit, if_neg (by omega)]

theorem xor_pow_testBit_self (slot p : Nat) :
    (slot ^^^ 2 ^ p).testBit p = !slot.testBit p := by
  rw [xor_pow_testBit, if_pos rfl]

theorem xor_pow_mod_succ_ne (slot p : Nat) :
    (slot ^^^ 2 ^ p) % 2 ^ (p + 1) ≠ slot % 2 ^ (p + 1) := by
  intro h
  have := testBit_eq_of_mod_eq p h
  rw [xor_pow_testBit_self] at this
  cases hb : slot.testBit p <;> rw [hb] at this <;> simp at this

/-- The congruence class mod `2 ^ p` splits into the two classes mod
`2 ^ (p + 1)` of `slot` and of its buddy `slot ^^^ 2 ^ p`. -/
theorem class_union (i slot p : Nat) :
    i % 2 ^ p = slot % 2 ^ p ↔
      (i % 2 ^ (p + 1) = slot % 2 ^ (p + 1)
        ∨ i % 2 ^ (p + 1) = (slot ^^^ 2 ^ p) % 2 ^ (p + 1)) := by
  constructor
  · intro h
    by_cases hb : i.testBit p = slot.testBit p
    · exact Or.inl ((mod_succ_eq_iff p).mpr ⟨h, hb⟩)
    · refine Or.inr ((mod_succ_eq_iff p).mpr ⟨?_, ?_⟩)
      · rw [xor_pow_mod_eq slot p p le_rfl]; exact h
      · rw [xor_pow_testBit_self]
        cases h1 : i.testBit p <;> cases h2 : slot.testBit p <;>
          rw [h1, h2] at hb <;> simp_all
  · rintro (h | h)
    · exact mod_eq_of_mod_succ_eq h
    · rw [← xor_pow_mod_eq slot p p le_rfl]
      exact mod_eq_of_mod_succ_eq h

/-! ## List access lemmas for the directory model -/

theorem getD_append_lt {α : Type} (l l' : List α) (d : α) (n : Nat) (h : n < l.length) :
    (l ++ l').getD n d = l.getD n d := List.getD_append l l' d n h

theorem getD_append_ge {α : Type} (l l' : List α) (d : α) (n : Nat) (h : l.length ≤ n) :
    (l ++ l').getD n d = l'.getD (n - l.length) d := List.getD_append_right l l' d n h

theorem getD_set_ne {α : Type} (l : List α) (d : α) (i j : Nat) (v : α) (h : i ≠ j) :
    (l.set i v).getD j d = l.getD j d := by
  simp [List.getD, List.getElem?_set_ne h]

theorem getD_set_self {α : Type} (l : List α) (d : α) (i : Nat) (v : α) (h : i < l.length) :
    (l.set i v).getD i d = v := by
  simp [List.getD, List.getElem?_set_self, h]

theorem getD_take {α : Type} (l : List α) (d : α) (m j : Nat) (h : j < m) :
    (l.take m).getD j d = l.getD j d := by
  simp [List.getD, List.getElem?_take, h]

theorem repoint_length (o a b p : Nat) (i : Nat) (ds : List Nat) :
    (EHash.repoint o a b p i ds).length = ds.length := by
  induction ds generalizing i with
  | nil => rfl
  | cons d ds ih => simp [EHash.repoint, ih]

theorem repoint_getD (o a b p : Nat) (i j : Nat) (ds : List Nat)
    (h : j < ds.length) :
    (EHash.repoint o a b p i ds).getD j 0
      = (if ds.getD j 0 = o then (if (i + j).testBit p then b else a)
         else ds.getD j 0) := by
  induction ds generalizing i j with
  | nil => simp at h
  | cons d ds ih =>
    cases j with
    | zero => simp [EHash.repoint, List.getD_cons_zero]
    | succ j =>
      simp only [EHash.repoint, List.getD_cons_succ]
      rw [ih (i + 1) j (by simpa using h)]
      have : i + 1 + j = i + (j + 1) := by omega
      rw [this]

theorem firstSlot_go_spec (id : Nat) (ds : List Nat) (i j : Nat)
    (h : EHash.firstSlot.go id ds i = some j) :
    i ≤ j ∧ j - i < ds.length ∧ ds.getD (j - i) 0 = id := by
  induction ds generalizing i with
  | nil => simp [EHash.firstSlot.go] at h
  | cons d ds ih =>
    unfold EHash.firstSlot.go at h
    split at h
    case isTrue hd =>
      obtain rfl : i = j := by simpa using h
      simp [hd, List.getD_cons_zero]
    case isFalse hd =>
      obtain ⟨h1, h2, h3⟩ := ih (i + 1) h
      refine ⟨by omega, by simp; omega, ?_⟩
      have : j - i = (j - (i + 1)) + 1 := by omega
      rw [this, List.getD_cons_succ]
      exact h3

theorem firstSlot_spec (s : EHash) (id j : Nat)
    (h : s.firstSlot id = some j) :
    j < s.directory.length ∧ s.dirId j = id := by
  obtain ⟨h1, h2, h3⟩ := firstSlot_go_spec id s.directory 0 j h
  rw [Nat.sub_zero] at h2 h3
  exact ⟨h2, h3⟩

/-- The one-bit decomposition of the low bits of a key. -/
theorem hashK_succ (key : Int) (d : Nat) :
    hashK key (d + 1) = hashK key d + (if keyBit key d then 2 ^ d else 0) := by
  have h1 : hashK key (d + 1) % 2 ^ (d + 1) = hashK key (d + 1) :=
    Nat.mod_eq_of_lt (hashK_lt key (d + 1))
  have h2 := mod_two_pow_succ (hashK key (d + 1)) d
  have h3 : hashK key (d + 1) % 2 ^ d = hashK key d := hashK_mod key (by omega)
  have h4 : (hashK key (d + 1)).testBit d = keyBit key d := testBit_hashK key (by omega)
  rw [← h4, ← h3, ← h2, h1]

/-- Keys agreeing with a slot on `d` bits and on bit `d` agree on `d + 1`
bits. -/
theorem hashK_succ_of_bit {key : Int} {i d : Nat}
    (h1 : hashK key d = i % 2 ^ d) (h2 : keyBit key d = i.testBit d) :
    hashK key (d + 1) = i % 2 ^ (d + 1) := by
  rw [hashK_succ, mod_two_pow_succ, h1, h2]

/-- Two integers with equal low `d` bits and absolute value below `2 ^ (d-1)`
are equal (used for the termination of the overflow handler). -/
theorem eq_of_hashK_eq {a b : Int} {n d : Nat}
    (ha : a.natAbs < 2 ^ n) (hb : b.natAbs < 2 ^ n) (hnd : n < d)
    (h : hashK a d = hashK b d) : a = b := by
  have hda : a % (2 ^ d : Int) = b % (2 ^ d : Int) := by
    rw [← hashK_cast a d, ← hashK_cast b d, h]
  have hdvd : ((2 ^ d : Int)) ∣ (b - a) := Int.ModEq.dvd (show Int.ModEq (2 ^ d) a b from hda)
  have hpow : (2 : Int) ^ n * 2 ≤ 2 ^ d := by
    calc (2 : Int) ^ n * 2 = 2 ^ (n + 1) := by ring
    _ ≤ 2 ^ d := pow_le_pow_right₀ (by norm_num) (by omega)
  have habs : ((b - a).natAbs : Int) < (2 : Int) ^ d := by
    have h1 : (a.natAbs : Int) < (2 : Int) ^ n := by exact_mod_cast ha
    have h2 : (b.natAbs : Int) < (2 : Int) ^ n := by exact_mod_cast hb
    calc ((b - a).natAbs : Int) ≤ (b.natAbs : Int) + (a.natAbs : Int) := by
          exact_mod_cast Int.natAbs_sub_le b a
    _ < 2 ^ n * 2 := by omega
    _ ≤ 2 ^ d := hpow
  rcases hdvd with ⟨c, hc⟩
  have hz : b - a = 0 := by
    rcases eq_or_ne c 0 with rfl | hc0
    · simpa using hc
    · exfalso
      have h1 : (1 : Int) ≤ c.natAbs := by
        have := Int.natAbs_pos.mpr hc0
        omega
      have h2 : ((b - a).natAbs : Int) = (2 : Int) ^ d * (c.natAbs : Int) := by
        rw [hc]
        rw [Int.natAbs_mul]
        push_cast
        congr 1
        simp [Int.natAbs_pow]
      nlinarith [pow_pos (show (0:Int) < 2 by norm_num) d]
  omega

/-! ## Bucket operation lemmas -/

theorem bucket_search_eq_none_iff (b : Bucket) (key : Int) :
    b.search key = none ↔ ∀ p ∈ b.records, p.1 ≠ key := by
  unfold Bucket.search
  simp [List.find?_eq_none]

theorem bucket_any_eq_false_iff (b : Bucket) (key : Int) :
    (b.records.any fun p => p.1 = key) = false ↔ ∀ p ∈ b.records, p.1 ≠ key := by
  simp

theorem bucket_insert_true (b : Bucket) (key : Int) (r : Rec)
    (hdup : ∀ p ∈ b.records, p.1 ≠ key) (hfull : b.records.length < b.capacity) :
    b.insert key r = (true, { b with records := b.records ++ [(key, r)] }) := by
  have h1 : (b.records.any fun p => decide (p.1 = key)) = false := by
    simp only [List.any_eq_false, decide_eq_true_eq]
    exact hdup
  have h2 : b.isFull = false := by
    simp only [Bucket.isFull, decide_eq_false_iff_not, not_le]
    exact hfull
  unfold Bucket.insert
  simp [h1, h2]

theorem bucket_insert_dup (b : Bucket) (key : Int) (r : Rec)
    (hdup : ∃ p ∈ b.records, p.1 = key) :
    b.insert key r = (false, b) := by
  have h1 : (b.records.any fun p => decide (p.1 = key)) = true := by
    simp only [List.any_eq_true, decide_eq_true_eq]
    exact hdup
  unfold Bucket.insert
  simp [h1]

theorem bucket_insert_full (b : Bucket) (key : Int) (r : Rec)
    (hdup : ∀ p ∈ b.records, p.1 ≠ key) (hfull : b.capacity ≤ b.records.length) :
    b.insert key r = (false, b) := by
  have h1 : (b.records.any fun p => decide (p.1 = key)) = false := by
    simp only [List.any_eq_false, decide_eq_true_eq]
    exact hdup
  have h2 : b.isFull = true := by
    simp only [Bucket.isFull, decide_eq_true_eq]
    exact hfull
  unfold Bucket.insert
  simp [h1, h2]

/-! ## Invariant of the fresh hash state -/

theorem inv_stats (s : EHash) (st : HashStats) (h : EHash.Inv s) :
    EHash.Inv { s with stats := st } :=
  ⟨h.gdPos, h.capGe, h.dirLen, h.idLt, h.ldLe, h.capEq, h.sizeLe, h.classEq,
   h.sameId, h.keysIn, h.keysNodup⟩

theorem inv_addReads (s : EHash) (n : Nat) (h : EHash.Inv s) :
    EHash.Inv (s.addReads n) := inv_stats s _ h

theorem inv_addWrites (s : EHash) (n : Nat) (h : EHash.Inv s) :
    EHash.Inv (s.addWrites n) := inv_stats s _ h

theorem new_lt_two {cap i : Nat} (hi : i < (EHash.new cap).directory.length) :
    i = 0 ∨ i = 1 := by
  have : i < 2 := by simpa [EHash.new] using hi
  omega

theorem inv_new (cap : Nat) : EHash.Inv (EHash.new cap) := by
  have hcap : 2 ≤ max 2 cap := le_max_left 2 cap
  refine ⟨le_rfl, hcap, rfl, ?_, ?_, ?_, ?_, ?_, ?_, ?_, ?_⟩
  · intro i hi
    rcases new_lt_two hi with rfl | rfl <;> simp [EHash.new, EHash.dirId]
  · intro i hi
    rcases new_lt_two hi with rfl | rfl <;> simp [EHash.new, EHash.dirId, EHash.bucketAt]
  · intro i hi
    rcases new_lt_two hi with rfl | rfl <;> rfl
  · intro i hi
    rcases new_lt_two hi with rfl | rfl <;> simp [EHash.new, EHash.dirId, EHash.bucketAt]
  · intro i hi j hj hmod
    rcases new_lt_two hi with rfl | rfl <;> rcases new_lt_two hj with rfl | rfl <;>
      simp_all [EHash.new, EHash.dirId, EHash.bucketAt]
  · intro i hi j hj hid
    rcases new_lt_two hi with rfl | rfl <;> rcases new_lt_two hj with rfl | rfl <;>
      simp_all [EHash.new, EHash.dirId, EHash.bucketAt]
  · intro i hi p hp
    rcases new_lt_two hi with rfl | rfl <;> simp [EHash.new, EHash.dirId, EHash.bucketAt] at hp
  · intro i hi
    rcases new_lt_two hi with rfl | rfl <;> simp [EHash.new, EHash.dirId, EHash.bucketAt]

/-! ## Directory doubling preserves the invariant and the contents -/

theorem double_dirId (s : EHash) (h : EHash.Inv s) (j : Nat)
    (hj : j < 2 ^ (s.globalDepth + 1)) :
    s.doubleDirectory.dirId j = s.dirId (j % 2 ^ s.globalDepth) := by
  have hlen : s.directory.length = 2 ^ s.globalDepth := h.dirLen
  show (s.directory ++ s.directory).getD j 0 = s.directory.getD (j % 2 ^ s.globalDepth) 0
  rcases lt_or_le j s.directory.length with hlt | hge
  · rw [getD_append_lt _ _ _ _ hlt, Nat.mod_eq_of_lt (by omega)]
  · rw [getD_append_ge _ _ _ _ hge]
    congr 1
    rw [Nat.mod_eq_sub_mod (by omega), Nat.mod_eq_of_lt (by rw [pow_succ] at hj; omega),
      hlen]

theorem double_length (s : EHash) (h : EHash.Inv s) :
    s.doubleDirectory.directory.length = 2 ^ (s.globalDepth + 1) := by
  show (s.directory ++ s.directory).length = 2 ^ (s.globalDepth + 1)
  rw [List.length_append, h.dirLen]
  ring

theorem inv_double (s : EHash) (h : EHash.Inv s) : EHash.Inv s.doubleDirectory := by
  have hg : s.doubleDirectory.globalDepth = s.globalDepth + 1 := rfl
  have hlen := double_length s h
  have hid : ∀ j < 2 ^ (s.globalDepth + 1),
      s.doubleDirectory.dirId j = s.dirId (j % 2 ^ s.globalDepth) := double_dirId s h
  have hpos : 0 < 2 ^ s.globalDepth := Nat.pos_pow_of_pos _ (by norm_num)
  have hmodlt : ∀ j : Nat, j % 2 ^ s.globalDepth < s.directory.length := by
    intro j; rw [h.dirLen]; exact Nat.mod_lt _ hpos
  have hbAt : ∀ x, s.doubleDirectory.bucketAt x = s.bucketAt x := fun _ => rfl
  refine ⟨by omega, h.capGe, by rw [hlen, hg], ?_, ?_, ?_, ?_, ?_, ?_, ?_, ?_⟩
  · intro i hi
    rw [hid i (hlen ▸ hi)]
    exact h.idLt _ (hmodlt i)
  · intro i hi
    rw [hid i (hlen ▸ hi), hbAt, hg]
    exact Nat.le_trans (h.ldLe _ (hmodlt i)) (by omega)
  · intro i hi
    rw [hid i (hlen ▸ hi), hbAt]
    exact h.capEq _ (hmodlt i)
  · intro i hi
    rw [hid i (hlen ▸ hi), hbAt]
    exact h.sizeLe _ (hmodlt i)
  · intro i hi j hj hmod
    rw [hid i (hlen ▸ hi)] at hmod ⊢
    rw [hid j (hlen ▸ hj)]
    rw [hbAt] at hmod
    set ld := (s.bucketAt (s.dirId (i % 2 ^ s.globalDepth))).localDepth with hld
    have hldg : ld ≤ s.globalDepth := h.ldLe _ (hmodlt i)
    have hdvd : (2 : Nat) ^ ld ∣ 2 ^ s.globalDepth := pow_dvd_pow 2 hldg
    apply h.classEq _ (hmodlt i) _ (hmodlt j)
    rw [Nat.mod_mod_of_dvd _ hdvd, Nat.mod_mod_of_dvd _ hdvd]
    exact hmod
  · intro i hi j hj hdid
    rw [hid i (hlen ▸ hi)] at hdid ⊢
    rw [hid j (hlen ▸ hj)] at hdid
    rw [hbAt]
    set ld := (s.bucketAt (s.dirId (i % 2 ^ s.globalDepth))).localDepth with hld
    have hldg : ld ≤ s.globalDepth := h.ldLe _ (hmodlt i)
    have hdvd : (2 : Nat) ^ ld ∣ 2 ^ s.globalDepth := pow_dvd_pow 2 hldg
    have := h.sameId _ (hmodlt i) _ (hmodlt j) hdid
    rw [← Nat.mod_mod_of_dvd i hdvd, ← Nat.mod_mod_of_dvd j hdvd]
    exact this
  · intro i hi p hp
    rw [hid i (hlen ▸ hi), hbAt] at hp ⊢
    set ld := (s.bucketAt (s.dirId (i % 2 ^ s.globalDepth))).localDepth with hld
    have hldg : ld ≤ s.globalDepth := h.ldLe _ (hmodlt i)
    have hdvd : (2 : Nat) ^ ld ∣ 2 ^ s.globalDepth := pow_dvd_pow 2 hldg
    rw [← Nat.mod_mod_of_dvd i hdvd]
    exact h.keysIn _ (hmodlt i) p hp
  · intro i hi
    rw [hid i (hlen ▸ hi), hbAt]
    exact h.keysNodup _ (hmodlt i)

/-- After doubling, the bucket at the key's slot is the key's old bucket. -/
theorem double_bucket_of_key (s : EHash) (h : EHash.Inv s) (key : Int) :
    s.doubleDirectory.bucketAt (s.doubleDirectory.dirId (s.doubleDirectory.hashIdx key))
      = s.bucketAt (s.dirId (s.hashIdx key)) := by
  have h1 : s.doubleDirectory.hashIdx key = hashK key (s.globalDepth + 1) := rfl
  rw [h1, double_dirId s h _ (hashK_lt key _), hashK_mod key (by omega)]
  rfl

theorem lookup_double (s : EHash) (h : EHash.Inv s) (key : Int) :
    s.doubleDirectory.lookup key = s.lookup key := by
  unfold EHash.lookup
  rw [double_bucket_of_key s h key]

/-! ## Bucket split preserves the invariant and the contents -/

theorem find?_filter_of_imp {α : Type} (l : List α) (pred f : α → Bool)
    (h : ∀ x ∈ l, pred x = true → f x = true) :
    (l.filter f).find? pred = l.find? pred := by
  induction l with
  | nil => rfl
  | cons a l ih =>
    by_cases hp : pred a = true
    · have hf : f a = true := h a (List.mem_cons_self a l) hp
      rw [List.filter_cons_of_pos hf, List.find?_cons_of_pos _ hp,
        List.find?_cons_of_pos _ hp]
    · have hrest : (l.filter f).find? pred = l.find? pred :=
        ih fun x hx => h x (List.mem_cons_of_mem a hx)
      by_cases hf : f a = true
      · rw [List.filter_cons_of_pos hf, List.find?_cons_of_neg _ (by simpa using hp),
          List.find?_cons_of_neg _ (by simpa using hp)]
        exact hrest
      · rw [List.filter_cons_of_neg (by simpa using hf),
          List.find?_cons_of_neg _ (by simpa using hp)]
        exact hrest

/-- The characterization of a successful bucket insert. -/
theorem bucket_insert_inv (b : Bucket) (key : Int) (r : Rec)
    (h : (b.insert key r).1 = true) :
    (∀ p ∈ b.records, p.1 ≠ key) ∧ b.records.length < b.capacity ∧
      (b.insert key r).2 = { b with records := b.records ++ [(key, r)] } := by
  by_cases hany : (b.records.any fun p => decide (p.1 = key)) = true
  · exfalso
    unfold Bucket.insert at h
    rw [if_pos hany] at h
    simp at h
  · by_cases hfull : b.isFull = true
    · exfalso
      unfold Bucket.insert at h
      rw [if_neg hany, if_pos hfull] at h
      simp at h
    · refine ⟨?_, ?_, ?_⟩
      · intro p hp hk
        apply hany
        simp only [List.any_eq_true, decide_eq_true_eq]
        exact ⟨p, hp, hk⟩
      · simp only [Bucket.isFull, decide_eq_true_eq] at hfull
        omega
      · unfold Bucket.insert
        rw [if_neg hany, if_neg hfull]

theorem splitBucket_spec (s : EHash) (idx : Nat) (h : EHash.Inv s)
    (hidx : idx < s.directory.length)
    (hp : (s.bucketAt (s.dirId idx)).localDepth < s.globalDepth) :
    EHash.Inv (s.splitBucket idx) ∧
    (∀ k : Int, (s.splitBucket idx).lookup k = s.lookup k) ∧
    (∀ j, j < s.directory.length → s.dirId j = s.dirId idx →
      ((s.splitBucket idx).bucketAt ((s.splitBucket idx).dirId j)).localDepth
        = (s.bucketAt (s.dirId idx)).localDepth + 1 ∧
      ∀ q ∈ ((s.splitBucket idx).bucketAt ((s.splitBucket idx).dirId j)).records,
        q ∈ (s.bucketAt (s.dirId idx)).records) := by
  set g := s.globalDepth with hgdef
  set oldId := s.dirId idx with holdid
  set old := s.bucketAt oldId with holddef
  set p := old.localDepth with hpdef
  set b0 : Bucket := ⟨p + 1, old.capacity, old.records.filter fun q => !keyBit q.1 p⟩
    with hb0def
  set b1 : Bucket := ⟨p + 1, old.capacity, old.records.filter fun q => keyBit q.1 p⟩
    with hb1def
  have hsplit : old.split = (b0, b1) := by
    unfold Bucket.split
    simp only [Nat.add_sub_cancel]
  set s' := s.splitBucket idx with hs'
  have hg' : s'.globalDepth = g := rfl
  have hcap' : s'.bucketCapacity = s.bucketCapacity := rfl
  have hstore : s'.store = s.store ++ [b0, b1] := by
    show (s.splitBucket idx).store = _
    unfold EHash.splitBucket
    simp only [← holdid, ← holddef, hsplit]
  have hdirfull : s'.directory
      = EHash.repoint oldId s.store.length (s.store.length + 1) p 0 s.directory := by
    show (s.splitBucket idx).directory = _
    unfold EHash.splitBucket
    simp only [← holdid, ← holddef, hsplit]
    have : b0.localDepth - 1 = p := by simp [hb0def]
    rw [this]
  have hlen' : s'.directory.length = s.directory.length := by
    rw [hdirfull, repoint_length]
  have hdir : ∀ j, j < s.directory.length →
      s'.dirId j = if s.dirId j = oldId
        then (if j.testBit p then s.store.length + 1 else s.store.length)
        else s.dirId j := by
    intro j hj
    show s'.directory.getD j 0 = _
    rw [hdirfull, repoint_getD _ _ _ _ _ _ _ hj]
    simp only [Nat.zero_add]
    rfl
  have hb0at : s'.bucketAt s.store.length = b0 := by
    show s'.store.getD s.store.length _ = b0
    rw [hstore, getD_append_ge _ _ _ _ le_rfl, Nat.sub_self]
    rfl
  have hb1at : s'.bucketAt (s.store.length + 1) = b1 := by
    show s'.store.getD (s.store.length + 1) _ = b1
    rw [hstore, getD_append_ge _ _ _ _ (by omega)]
    have : s.store.length + 1 - s.store.length = 1 := by omega
    rw [this]
    rfl
  have hbOld : ∀ x, x < s.store.length → s'.bucketAt x = s.bucketAt x := by
    intro x hx
    show s'.store.getD x _ = s.bucketAt x
    rw [hstore, getD_append_lt _ _ _ _ hx]
    rfl
  have hstlen : s'.store.length = s.store.length + 2 := by
    rw [hstore]
    simp
  -- class facts for slots referencing the split bucket
  have htouched : ∀ j, j < s.directory.length → s.dirId j = oldId →
      s'.dirId j = (if j.testBit p then s.store.length + 1 else s.store.length) ∧
      s'.bucketAt (s'.dirId j) = (if j.testBit p then b1 else b0) := by
    intro j hj hjid
    have h1 := hdir j hj
    rw [if_pos hjid] at h1
    refine ⟨h1, ?_⟩
    rw [h1]
    cases hb : j.testBit p
    · rw [if_neg (by simp), if_neg (by simp)]
      exact hb0at
    · rw [if_pos rfl, if_pos rfl]
      exact hb1at
  have huntouched : ∀ j, j < s.directory.length → s.dirId j ≠ oldId →
      s'.dirId j = s.dirId j ∧ s'.bucketAt (s'.dirId j) = s.bucketAt (s.dirId j) := by
    intro j hj hjid
    have h1 := hdir j hj
    rw [if_neg hjid] at h1
    exact ⟨h1, by rw [h1]; exact hbOld _ (h.idLt j hj)⟩
  -- local depth of every slot's bucket after the split
  have hldslot : ∀ j, j < s.directory.length →
      (s'.bucketAt (s'.dirId j)).localDepth
        = if s.dirId j = oldId then p + 1 else (s.bucketAt (s.dirId j)).localDepth := by
    intro j hj
    by_cases hjid : s.dirId j = oldId
    · rw [if_pos hjid, (htouched j hj hjid).2]
      cases hb : j.testBit p <;> simp [hb0def, hb1def]
    · rw [if_neg hjid, (huntouched j hj hjid).2]
  -- the split slots classes
  have hclass_old : ∀ j, j < s.directory.length → s.dirId j = oldId →
      j % 2 ^ p = idx % 2 ^ p := by
    intro j hj hjid
    have := h.sameId j hj idx hidx (by rw [hjid])
    rw [hjid] at this
    exact this
  refine ⟨⟨h.gdPos, h.capGe, by rw [hlen', h.dirLen, hg'], ?_, ?_, ?_, ?_, ?_, ?_, ?_, ?_⟩,
    ?_, ?_⟩
  · -- idLt
    intro j hj
    rw [hlen'] at hj
    by_cases hjid : s.dirId j = oldId
    · rw [(htouched j hj hjid).1, hstlen]
      cases hb : j.testBit p
      · rw [if_neg (by simp)]
        omega
      · rw [if_pos rfl]
        omega
    · rw [(huntouched j hj hjid).1, hstlen]
      have := h.idLt j hj
      omega
  · -- ldLe
    intro j hj
    rw [hlen'] at hj
    rw [hldslot j hj, hg']
    by_cases hjid : s.dirId j = oldId
    · rw [if_pos hjid]
      omega
    · rw [if_neg hjid]
      exact h.ldLe j hj
  · -- capEq
    intro j hj
    rw [hlen'] at hj
    rw [hcap']
    by_cases hjid : s.dirId j = oldId
    · rw [(htouched j hj hjid).2]
      have hold := h.capEq idx hidx
      rw [← holddef] at hold
      cases hb : j.testBit p
      · rw [if_neg (by simp)]
        exact hold
      · rw [if_pos rfl]
        exact hold
    · rw [(huntouched j hj hjid).2]
      exact h.capEq j hj
  · -- sizeLe
    intro j hj
    rw [hlen'] at hj
    rw [hcap']
    by_cases hjid : s.dirId j = oldId
    · rw [(htouched j hj hjid).2]
      have hold := h.sizeLe idx hidx
      rw [← holddef] at hold
      have hf0 : (old.records.filter fun q => !keyBit q.1 p).length ≤ old.records.length :=
        List.length_filter_le _ _
      have hf1 : (old.records.filter fun q => keyBit q.1 p).length ≤ old.records.length :=
        List.length_filter_le _ _
      cases hb : j.testBit p
      · rw [if_neg (by simp)]
        exact le_trans hf0 hold
      · rw [if_pos rfl]
        exact le_trans hf1 hold
    · rw [(huntouched j hj hjid).2]
      exact h.sizeLe j hj
  · -- classEq
    intro i hi j hj hmod
    rw [hlen'] at hi hj
    by_cases hiid : s.dirId i = oldId
    · rw [hldslot i hi, if_pos hiid] at hmod
      have hij : i % 2 ^ p = j % 2 ^ p := mod_eq_of_mod_succ_eq hmod
      have hbit : i.testBit p = j.testBit p := testBit_eq_of_mod_eq p hmod
      have hjid : s.dirId j = oldId := by
        rw [← hiid]
        symm
        apply h.classEq i hi j hj
        rw [hiid, ← holddef, ← hpdef]
        exact hij
      rw [(htouched i hi hiid).1, (htouched j hj hjid).1, hbit]
    · rw [hldslot i hi, if_neg hiid] at hmod
      have hjid : s.dirId j = s.dirId i := (h.classEq i hi j hj hmod).symm
      have hjne : s.dirId j ≠ oldId := by rw [hjid]; exact hiid
      rw [(huntouched i hi hiid).1, (huntouched j hj hjne).1, hjid]
  · -- sameId
    intro i hi j hj hdid
    rw [hlen'] at hi hj
    by_cases hiid : s.dirId i = oldId
    · have h1 := (htouched i hi hiid).1
      -- identify j as touched too, with the same bit
      by_cases hjid : s.dirId j = oldId
      · have h2 := (htouched j hj hjid).1
        rw [h1, h2] at hdid
        have hbit : i.testBit p = j.testBit p := by
          by_contra hne
          cases hbi : i.testBit p <;> cases hbj : j.testBit p <;>
            rw [hbi, hbj] at hdid hne <;> simp at hdid hne
        have hmodp : i % 2 ^ p = j % 2 ^ p := by
          have := h.sameId i hi j hj (by rw [hiid, hjid])
          rw [hiid, ← holddef, ← hpdef] at this
          exact this
        rw [hldslot i hi, if_pos hiid]
        exact (mod_succ_eq_iff p).mpr ⟨hmodp, hbit⟩
      · exfalso
        have h2 := (huntouched j hj hjid).1
        rw [h1, h2] at hdid
        have := h.idLt j hj
        cases hbi : i.testBit p <;> rw [hbi] at hdid <;> simp at hdid <;> omega
    · by_cases hjid : s.dirId j = oldId
      · exfalso
        have h1 := (huntouched i hi hiid).1
        have h2 := (htouched j hj hjid).1
        rw [h1, h2] at hdid
        have := h.idLt i hi
        cases hbj : j.testBit p <;> rw [hbj] at hdid <;> simp at hdid <;> omega
      · have h1 := (huntouched i hi hiid).1
        have h2 := (huntouched j hj hjid).1
        rw [h1, h2] at hdid
        rw [hldslot i hi, if_neg hiid]
        exact h.sameId i hi j hj hdid
  · -- keysIn
    intro j hj q hq
    rw [hlen'] at hj
    by_cases hjid : s.dirId j = oldId
    · rw [(htouched j hj hjid).2] at hq
      rw [hldslot j hj, if_pos hjid]
      have hmodp : hashK q.1 p = j % 2 ^ p := by
        have hin := h.keysIn j hj
        rw [hjid, ← holddef, ← hpdef] at hin
        cases hb : j.testBit p
        · rw [hb, if_neg (by simp)] at hq
          exact hin q (List.mem_of_mem_filter hq)
        · rw [hb, if_pos rfl] at hq
          exact hin q (List.mem_of_mem_filter hq)
      have hbit : keyBit q.1 p = j.testBit p := by
        cases hb : j.testBit p
        · rw [hb, if_neg (by simp)] at hq
          have := List.of_mem_filter hq
          simpa using this
        · rw [hb, if_pos rfl] at hq
          have := List.of_mem_filter hq
          simpa using this
      exact hashK_succ_of_bit hmodp hbit
    · rw [(huntouched j hj hjid).2] at hq ⊢
      exact h.keysIn j hj q hq
  · -- keysNodup
    intro j hj
    rw [hlen'] at hj
    by_cases hjid : s.dirId j = oldId
    · rw [(htouched j hj hjid).2]
      have hnd := h.keysNodup idx hidx
      rw [← holddef] at hnd
      cases hb : j.testBit p
      · rw [if_neg (by simp)]
        exact List.Nodup.sublist (List.Sublist.map _ (List.filter_sublist _)) hnd
      · rw [if_pos rfl]
        exact List.Nodup.sublist (List.Sublist.map _ (List.filter_sublist _)) hnd
    · rw [(huntouched j hj hjid).2]
      exact h.keysNodup j hj
  · -- lookup unchanged
    intro k
    unfold EHash.lookup
    have hslot : s'.hashIdx k = s.hashIdx k := rfl
    have hsloti : s.hashIdx k < s.directory.length := by
      rw [h.dirLen]
      exact hashK_lt k g
    rw [hslot]
    by_cases hkid : s.dirId (s.hashIdx k) = oldId
    · rw [(htouched _ hsloti hkid).2]
      have hbitk : (s.hashIdx k).testBit p = keyBit k p := testBit_hashK k (by omega)
      cases hb : (s.hashIdx k).testBit p
      · -- bucket b0 : filter on !keyBit
        rw [if_neg (by simp), hkid, ← holddef]
        unfold Bucket.search
        congr 1
        apply find?_filter_of_imp
        intro x hx hpx
        have hxk : x.1 = k := by simpa using hpx
        rw [hb] at hbitk
        simp [hxk, ← hbitk]
      · rw [if_pos rfl, hkid, ← holddef]
        unfold Bucket.search
        congr 1
        apply find?_filter_of_imp
        intro x hx hpx
        have hxk : x.1 = k := by simpa using hpx
        rw [hb] at hbitk
        simp [hxk, ← hbitk]
    · rw [(huntouched _ hsloti hkid).2]
  · -- the split slots: depth increased, records shrunk
    intro j hj hjid
    refine ⟨?_, ?_⟩
    · rw [hldslot j hj, if_pos hjid]
    · intro q hq
      rw [(htouched j hj hjid).2] at hq
      cases hb : j.testBit p
      · rw [hb, if_neg (by simp)] at hq
        exact List.mem_of_mem_filter hq
      · rw [hb, if_pos rfl] at hq
        exact List.mem_of_mem_filter hq

/-! ## A successful direct bucket insert preserves the invariant -/

theorem insert_direct_spec (s : EHash) (key : Int) (r : Rec) (h : EHash.Inv s)
    (hflag : ((s.bucketAt (s.dirId (s.hashIdx key))).insert key r).1 = true) :
    EHash.Inv ((s.writeBucket (s.dirId (s.hashIdx key))
        ((s.bucketAt (s.dirId (s.hashIdx key))).insert key r).2).addWrites 1) ∧
    (∀ k, ((s.writeBucket (s.dirId (s.hashIdx key))
        ((s.bucketAt (s.dirId (s.hashIdx key))).insert key r).2).addWrites 1).lookup k
      = if k = key then some r else s.lookup k) := by
  set slot := s.hashIdx key with hslotdef
  have hsl : slot < s.directory.length := by
    rw [h.dirLen]
    exact hashK_lt key _
  set id := s.dirId slot with hiddef
  set b := s.bucketAt id with hbdef
  obtain ⟨hdup, hlt, hb2⟩ := bucket_insert_inv b key r hflag
  set b' : Bucket := { b with records := b.records ++ [(key, r)] } with hbPdef
  rw [hb2]
  set s1 := (s.writeBucket id b').addWrites 1 with hs1def
  have hid : id < s.store.length := h.idLt slot hsl
  have hdir1 : s1.directory = s.directory := rfl
  have hdid1 : ∀ j, s1.dirId j = s.dirId j := fun _ => rfl
  have hg1 : s1.globalDepth = s.globalDepth := rfl
  have hcap1 : s1.bucketCapacity = s.bucketCapacity := rfl
  have hstore1 : s1.store = s.store.set id b' := rfl
  have hbat : ∀ x, s1.bucketAt x = if x = id then b' else s.bucketAt x := by
    intro x
    show (s.store.set id b').getD x _ = _
    by_cases hx : x = id
    · subst hx
      rw [if_pos rfl, getD_set_self _ _ _ _ hid]
    · rw [if_neg hx, getD_set_ne _ _ _ _ _ (Ne.symm hx)]
      rfl
  have hld1 : ∀ x, (s1.bucketAt x).localDepth = (s.bucketAt x).localDepth := by
    intro x
    rw [hbat]
    by_cases hx : x = id
    · rw [if_pos hx, hx, ← hbdef]
    · rw [if_neg hx]
  have hcap1' : ∀ x, (s1.bucketAt x).capacity = (s.bucketAt x).capacity := by
    intro x
    rw [hbat]
    by_cases hx : x = id
    · rw [if_pos hx, hx, ← hbdef]
    · rw [if_neg hx]
  have hldb : b.localDepth ≤ s.globalDepth := h.ldLe slot hsl
  constructor
  · refine ⟨h.gdPos, h.capGe, h.dirLen, ?_, ?_, ?_, ?_, ?_, ?_, ?_, ?_⟩
    · intro j hj
      rw [hdid1, hstore1, List.length_set]
      exact h.idLt j hj
    · intro j hj
      rw [hdid1, hld1, hg1]
      exact h.ldLe j hj
    · intro j hj
      rw [hdid1, hcap1', hcap1]
      exact h.capEq j hj
    · intro j hj
      rw [hdid1, hcap1, hbat]
      by_cases hx : s.dirId j = id
      · rw [if_pos hx]
        have hcapb : b.capacity = s.bucketCapacity := by
          rw [hbdef, hiddef]
          exact h.capEq slot hsl
        rw [hbPdef]
        simp only [List.length_append, List.length_cons, List.length_nil]
        omega
      · rw [if_neg hx]
        exact h.sizeLe j hj
    · intro i hi j hj hmod
      rw [hdid1] at hmod ⊢
      rw [hld1] at hmod
      exact h.classEq i hi j hj hmod
    · intro i hi j hj hdid
      rw [hdid1] at hdid ⊢
      rw [hld1]
      exact h.sameId i hi j hj hdid
    · intro j hj q hq
      rw [hdid1] at hq ⊢
      rw [hld1]
      rw [hbat] at hq
      by_cases hx : s.dirId j = id
      · rw [if_pos hx] at hq
        rw [hbPdef] at hq
        simp only [List.mem_append, List.mem_singleton] at hq
        rcases hq with hq | hq
        · have := h.keysIn j hj
          rw [hx, ← hbdef] at this ⊢
          exact this q hq
        · subst hq
          rw [hx, ← hbdef]
          have hjslot : j % 2 ^ b.localDepth = slot % 2 ^ b.localDepth := by
            have := h.sameId j hj slot hsl (by rw [← hiddef, hx])
            rw [hx, ← hbdef] at this
            exact this
          have hslotk : slot % 2 ^ b.localDepth = hashK key b.localDepth := by
            rw [hslotdef]
            exact hashK_mod key hldb
          rw [hjslot, hslotk]
          rfl
      · rw [if_neg hx] at hq
        exact h.keysIn j hj q hq
    · intro j hj
      rw [hdid1, hbat]
      by_cases hx : s.dirId j = id
      · rw [if_pos hx, hbPdef]
        simp only [List.map_append]
        have hnd : (b.records.map Prod.fst).Nodup := by
          have := h.keysNodup j hj
          rw [hx, ← hbdef] at this
          exact this
        refine List.Nodup.append hnd (by simp) ?_
        intro a ha ha'
        simp only [List.map_cons, List.map_nil, List.mem_singleton] at ha'
        subst ha'
        simp only [List.mem_map] at ha
        obtain ⟨q, hq, hqk⟩ := ha
        exact hdup q hq hqk
      · rw [if_neg hx]
        exact h.keysNodup j hj
  · intro k
    unfold EHash.lookup
    have hhk : s1.hashIdx k = s.hashIdx k := rfl
    rw [hhk, hdid1, hbat]
    by_cases hkid : s.dirId (s.hashIdx k) = id
    · rw [if_pos hkid]
      by_cases hk : k = key
      · subst hk
        rw [if_pos rfl, hbPdef]
        unfold Bucket.search
        rw [List.find?_append]
        have hnone : b.records.find? (fun p => decide (p.1 = k)) = none := by
          rw [List.find?_eq_none]
          intro q hq
          simpa using hdup q hq
        rw [hnone]
        simp
      · rw [if_neg hk, hbPdef]
        unfold Bucket.search
        rw [List.find?_append]
        have hnone : ([(key, r)].find? fun p => decide (p.1 = k)) = none := by
          simp [Ne.symm hk]
        rw [hnone]
        rw [hkid, ← hbdef]
        simp
    · rw [if_neg hkid]
      by_cases hk : k = key
      · exfalso
        subst hk
        exact hkid rfl
      · rw [if_neg hk]

/-! ## The overflow handler: one step, then termination -/

theorem overflowStep_eq (s : EHash) (key : Int) :
    s.overflowStep key
      = if (s.bucketAt (s.dirId (s.hashIdx key))).localDepth < s.globalDepth
        then s.splitBucket (s.hashIdx key)
        else s.doubleDirectory.splitBucket (s.doubleDirectory.hashIdx key) := rfl

theorem overflowStep_spec (s : EHash) (key : Int) (h : EHash.Inv s) :
    EHash.Inv (s.overflowStep key) ∧
    (s.overflowStep key).bucketCapacity = s.bucketCapacity ∧
    (∀ k, (s.overflowStep key).lookup k = s.lookup k) ∧
    ((s.overflowStep key).bucketAt
        ((s.overflowStep key).dirId ((s.overflowStep key).hashIdx key))).localDepth
      = (s.bucketAt (s.dirId (s.hashIdx key))).localDepth + 1 ∧
    (∀ q ∈ ((s.overflowStep key).bucketAt
        ((s.overflowStep key).dirId ((s.overflowStep key).hashIdx key))).records,
      q ∈ (s.bucketAt (s.dirId (s.hashIdx key))).records) := by
  rw [overflowStep_eq]
  have hsl : s.hashIdx key < s.directory.length := by
    rw [h.dirLen]
    exact hashK_lt key _
  by_cases hlt : (s.bucketAt (s.dirId (s.hashIdx key))).localDepth < s.globalDepth
  · rw [if_pos hlt]
    obtain ⟨hinv, hlup, hslots⟩ := splitBucket_spec s (s.hashIdx key) h hsl hlt
    have hsame : (s.splitBucket (s.hashIdx key)).hashIdx key = s.hashIdx key := rfl
    obtain ⟨hld, hsub⟩ := hslots (s.hashIdx key) hsl rfl
    exact ⟨hinv, rfl, hlup, by rw [hsame]; exact hld, by rw [hsame]; exact hsub⟩
  · rw [if_neg hlt]
    have hinvd := inv_double s h
    have hbkey := double_bucket_of_key s h key
    have hsl2 : s.doubleDirectory.hashIdx key < s.doubleDirectory.directory.length := by
      rw [hinvd.dirLen]
      exact hashK_lt key _
    have hlt2 : (s.doubleDirectory.bucketAt
        (s.doubleDirectory.dirId (s.doubleDirectory.hashIdx key))).localDepth
        < s.doubleDirectory.globalDepth := by
      rw [hbkey]
      have := h.ldLe _ hsl
      show _ < s.globalDepth + 1
      omega
    obtain ⟨hinv, hlup, hslots⟩ :=
      splitBucket_spec s.doubleDirectory (s.doubleDirectory.hashIdx key) hinvd hsl2 hlt2
    obtain ⟨hld, hsub⟩ := hslots (s.doubleDirectory.hashIdx key) hsl2 rfl
    have hsame : (s.doubleDirectory.splitBucket (s.doubleDirectory.hashIdx key)).hashIdx key
        = s.doubleDirectory.hashIdx key := rfl
    refine ⟨hinv, rfl, ?_, ?_, ?_⟩
    · intro k
      rw [hlup k, lookup_double s h k]
    · rw [hsame, hld, hbkey]
    · intro q hq
      rw [hsame] at hq
      have := hsub q hq
      rw [hbkey] at this
      exact this

/-- Termination and correctness of `_handle_overflow`: from an invariant
state where `key` is absent, with all keys (stored and new) of absolute value
below `2 ^ n`, fuel `n + 1 - local_depth` suffices, and the handler inserts
exactly `key ↦ r`. -/
theorem handleOverflow_spec (fuel : Nat) (s : EHash) (key : Int) (r : Rec) (n : Nat)
    (h : EHash.Inv s)
    (habs : ∀ q ∈ (s.bucketAt (s.dirId (s.hashIdx key))).records, q.1 ≠ key)
    (hkey : key.natAbs < 2 ^ n)
    (hbound : ∀ q ∈ (s.bucketAt (s.dirId (s.hashIdx key))).records, q.1.natAbs < 2 ^ n)
    (hfuel : n + 1 ≤ fuel + (s.bucketAt (s.dirId (s.hashIdx key))).localDepth)
    (hfuel1 : 1 ≤ fuel) :
    ∃ s', EHash.handleOverflow fuel s key r = some s' ∧ EHash.Inv s' ∧
      s'.bucketCapacity = s.bucketCapacity ∧
      (∀ k, s'.lookup k = if k = key then some r else s.lookup k) := by
  induction fuel generalizing s with
  | zero => omega
  | succ f ih =>
    obtain ⟨hinv1, hcap1, hlup1, hld1, hsub1⟩ := overflowStep_spec s key h
    set s1 := s.overflowStep key with hs1def
    set s2 := s1.addReads 1 with hs2def
    have hinv2 : EHash.Inv s2 := inv_addReads s1 1 hinv1
    have hb2 : ∀ x, s2.bucketAt x = s1.bucketAt x := fun _ => rfl
    have hd2 : ∀ x, s2.dirId x = s1.dirId x := fun _ => rfl
    have hh2 : s2.hashIdx key = s1.hashIdx key := rfl
    have hlup2 : ∀ k, s2.lookup k = s1.lookup k := fun _ => rfl
    show ∃ s', (if ((s2.bucketAt (s2.dirId (s2.hashIdx key))).insert key r).1
        then some ((s2.writeBucket (s2.dirId (s2.hashIdx key))
          ((s2.bucketAt (s2.dirId (s2.hashIdx key))).insert key r).2).addWrites 1)
        else EHash.handleOverflow f s2 key r) = some s' ∧ _
    by_cases hins : ((s2.bucketAt (s2.dirId (s2.hashIdx key))).insert key r).1 = true
    · rw [if_pos hins]
      obtain ⟨hinvf, hlupf⟩ := insert_direct_spec s2 key r hinv2 hins
      refine ⟨_, rfl, hinvf, ?_, ?_⟩
      · show s2.bucketCapacity = s.bucketCapacity
        exact hcap1
      · intro k
        rw [hlupf k]
        by_cases hk : k = key
        · rw [if_pos hk, if_pos hk]
        · rw [if_neg hk, if_neg hk, hlup2, hlup1]
    · rw [if_neg hins]
      -- the retried insert failed: the bucket is still full, recurse
      have habs2 : ∀ q ∈ (s2.bucketAt (s2.dirId (s2.hashIdx key))).records, q.1 ≠ key := by
        intro q hq
        exact habs q (hsub1 q hq)
      have hbound2 : ∀ q ∈ (s2.bucketAt (s2.dirId (s2.hashIdx key))).records,
          q.1.natAbs < 2 ^ n := by
        intro q hq
        exact hbound q (hsub1 q hq)
      -- the bucket cannot still be full once its depth exceeds the key width
      have hsl2 : s2.hashIdx key < s2.directory.length := by
        rw [hinv2.dirLen]
        exact hashK_lt key _
      have hldlt : (s2.bucketAt (s2.dirId (s2.hashIdx key))).localDepth ≤ n := by
        by_contra hgt
        push_neg at hgt
        -- depth > n: every record's key would equal `key`, so the bucket is empty
        have hempty : (s2.bucketAt (s2.dirId (s2.hashIdx key))).records = [] := by
          rcases hrec : (s2.bucketAt (s2.dirId (s2.hashIdx key))).records with _ | ⟨q, rest⟩
          · rfl
          · exfalso
            have hqmem : q ∈ (s2.bucketAt (s2.dirId (s2.hashIdx key))).records := by
              rw [hrec]
              exact List.mem_cons_self _ _
            have hkin := hinv2.keysIn _ hsl2 q hqmem
            have hkslot : (s2.hashIdx key)
                  % 2 ^ (s2.bucketAt (s2.dirId (s2.hashIdx key))).localDepth
                = hashK key (s2.bucketAt (s2.dirId (s2.hashIdx key))).localDepth := by
              show hashK key s2.globalDepth % _ = _
              exact hashK_mod key (hinv2.ldLe _ hsl2)
            rw [hkslot] at hkin
            have : q.1 = key :=
              eq_of_hashK_eq (hbound2 q hqmem) hkey hgt hkin
            exact habs2 q hqmem this
        have hcappos : 0 < (s2.bucketAt (s2.dirId (s2.hashIdx key))).capacity := by
          have h1 := hinv2.capEq _ hsl2
          have h2 := hinv2.capGe
          omega
        have htrue : ((s2.bucketAt (s2.dirId (s2.hashIdx key))).insert key r).1 = true := by
          rw [bucket_insert_true _ key r habs2 (by rw [hempty]; simpa using hcappos)]
        exact hins htrue
      have hld2 : (s2.bucketAt (s2.dirId (s2.hashIdx key))).localDepth
          = (s.bucketAt (s.dirId (s.hashIdx key))).localDepth + 1 := hld1
      obtain ⟨s', hrun, hinv', hcap', hlup'⟩ := ih s2 hinv2 habs2 hbound2
        (by rw [hld2]; omega) (by rw [hld2] at hldlt; omega)
      refine ⟨s', hrun, hinv', ?_, ?_⟩
      · rw [hcap']
        exact hcap1
      · intro k
        rw [hlup' k]
        by_cases hk : k = key
        · rw [if_pos hk, if_pos hk]
        · rw [if_neg hk, if_neg hk, hlup2, hlup1]

/-! ## The engine-level hash insert -/

theorem le_foldr_max (l : List Nat) (a : Nat) : ∀ x ∈ l, x ≤ l.foldr max a := by
  induction l with
  | nil => simp
  | cons y l ih =>
    intro x hx
    rcases List.mem_cons.mp hx with rfl | hx
    · exact le_max_left _ _
    · exact le_trans (ih x hx) (le_max_right _ _)

theorem bucketAt_mem (s : EHash) (id : Nat) (h : id < s.store.length) :
    s.bucketAt id ∈ s.store := by
  show s.store.getD id _ ∈ s.store
  rw [List.getD_eq_getElem?_getD, List.getElem?_eq_getElem h]
  exact List.getElem_mem h

/-- Every key relevant to an insert is below `2 ^ (size of allKeyBound)`. -/
theorem allKeyBound_spec (s : EHash) (key : Int) :
    key.natAbs < 2 ^ Nat.size (EHash.allKeyBound s key) ∧
    ∀ b ∈ s.store, ∀ q ∈ b.records,
      q.1.natAbs < 2 ^ Nat.size (EHash.allKeyBound s key) := by
  have hsz : EHash.allKeyBound s key < 2 ^ Nat.size (EHash.allKeyBound s key) :=
    Nat.lt_size_self _
  constructor
  · have : key.natAbs ≤ EHash.allKeyBound s key :=
      le_foldr_max _ 0 _ (List.mem_cons_self _ _)
    omega
  · intro b hb q hq
    have h1 : q.1.natAbs ≤ (b.records.map fun p => p.1.natAbs).foldr max 0 :=
      le_foldr_max _ 0 _ (List.mem_map_of_mem _ hq)
    have h2 : (b.records.map fun p => p.1.natAbs).foldr max 0
        ≤ EHash.allKeyBound s key := by
      apply le_foldr_max _ 0
      apply List.mem_cons_of_mem
      exact List.mem_map_of_mem _ hb
    omega

theorem bucket_insert_false (b : Bucket) (key : Int) (r : Rec)
    (h : (b.insert key r).1 = false) :
    (∃ p ∈ b.records, p.1 = key) ∨
      ((∀ p ∈ b.records, p.1 ≠ key) ∧ b.capacity ≤ b.records.length) := by
  by_cases hdup : ∃ p ∈ b.records, p.1 = key
  · exact Or.inl hdup
  · push_neg at hdup
    right
    refine ⟨hdup, ?_⟩
    by_contra hfull
    push_neg at hfull
    rw [bucket_insert_true b key r hdup hfull] at h
    simp at h

theorem insert_spec (s : EHash) (key : Int) (r : Rec) (h : EHash.Inv s) :
    EHash.Inv (s.insert key r).2 ∧
    (s.insert key r).2.bucketCapacity = s.bucketCapacity ∧
    ((s.insert key r).1 = !(s.lookup key).isSome) ∧
    ((s.lookup key).isSome → (s.insert key r).2 = s.addReads 1) ∧
    (∀ k, (s.insert key r).2.lookup k
      = if (s.lookup key).isSome then s.lookup k
        else if k = key then some r else s.lookup k) := by
  set s0 := s.addReads 1 with hs0def
  have hinv0 : EHash.Inv s0 := inv_addReads s 1 h
  have hlup0 : ∀ k, s0.lookup k = s.lookup k := fun _ => rfl
  have hcap0 : s0.bucketCapacity = s.bucketCapacity := rfl
  set id := s0.dirId (s0.hashIdx key) with hiddef
  set b := s0.bucketAt id with hbdef
  have hbsearch : s.lookup key = b.search key := rfl
  have hieq : s.insert key r
      = (if (b.insert key r).1
          then (true, (s0.writeBucket id (b.insert key r).2).addWrites 1)
          else if (b.search key).isSome then (false, s0)
          else match EHash.handleOverflow (EHash.overflowFuel s0 key) s0 key r with
            | some s' => (true, s')
            | none => (true, s0)) := rfl
  by_cases hflag : (b.insert key r).1 = true
  · rw [hieq, if_pos hflag]
    obtain ⟨hdup, hlt, _⟩ := bucket_insert_inv b key r hflag
    have hlupnone : s.lookup key = none := by
      rw [hbsearch, bucket_search_eq_none_iff]
      exact hdup
    obtain ⟨hinv', hlup'⟩ := insert_direct_spec s0 key r hinv0 hflag
    refine ⟨hinv', rfl, ?_, ?_, ?_⟩
    · rw [hlupnone]
      rfl
    · intro hsome
      rw [hlupnone] at hsome
      simp at hsome
    · intro k
      rw [hlupnone]
      simp only [Option.isSome_none, Bool.false_eq_true, if_false]
      rw [hlup' k]
      by_cases hk : k = key
      · rw [if_pos hk, if_pos hk]
      · rw [if_neg hk, if_neg hk, hlup0]
  · rw [hieq, if_neg hflag]
    rcases bucket_insert_false b key r (by simpa using hflag) with hdup | ⟨habs, hfull⟩
    · -- duplicate key
      have hsome : (b.search key).isSome = true := by
        rcases hfind : b.records.find? (fun p => decide (p.1 = key)) with _ | q
        · exfalso
          rw [List.find?_eq_none] at hfind
          obtain ⟨p, hp, hpk⟩ := hdup
          exact absurd (by simpa using hpk) (by simpa using hfind p hp)
        · unfold Bucket.search
          rw [hfind]
          rfl
      rw [if_pos hsome]
      have hlups : (s.lookup key).isSome = true := by
        rw [hbsearch]
        exact hsome
      refine ⟨hinv0, hcap0, ?_, ?_, ?_⟩
      · rw [hlups]
        rfl
      · intro _
        rfl
      · intro k
        rw [if_pos hlups]
        exact hlup0 k
    · -- full bucket: overflow handling
      have hnone : (b.search key).isSome = false := by
        have : b.search key = none := (bucket_search_eq_none_iff b key).mpr habs
        rw [this]
        rfl
      rw [if_neg (by simp [hnone])]
      obtain ⟨hkeyb, hstoreb⟩ := allKeyBound_spec s0 key
      have hsl0 : s0.hashIdx key < s0.directory.length := by
        rw [hinv0.dirLen]
        exact hashK_lt key _
      have hmem : s0.bucketAt id ∈ s0.store :=
        bucketAt_mem s0 id (hinv0.idLt _ hsl0)
      obtain ⟨s', hrun, hinv', hcap', hlup'⟩ :=
        handleOverflow_spec (EHash.overflowFuel s0 key) s0 key r
          (Nat.size (EHash.allKeyBound s0 key)) hinv0 habs hkeyb
          (fun q hq => hstoreb _ hmem q hq)
          (by unfold EHash.overflowFuel; omega)
          (by unfold EHash.overflowFuel; omega)
      rw [hrun]
      have hlupsn : (s.lookup key).isSome = false := by
        rw [hbsearch]
        exact hnone
      refine ⟨hinv', by rw [hcap', hcap0], ?_, ?_, ?_⟩
      · rw [hlupsn]
        rfl
      · intro hsome
        rw [hsome] at hlupsn
        simp at hlupsn
      · intro k
        rw [if_neg (by simp [hlupsn]), hlup' k]
        by_cases hk : k = key
        · rw [if_pos hk, if_pos hk]
        · rw [if_neg hk, if_neg hk, hlup0]

/-! ## The delete path: bucket removal, buddy merge, directory shrink -/

theorem find?_eraseP_of_disj {α : Type} (l : List α) (p q : α → Bool)
    (hdisj : ∀ x ∈ l, p x = true → q x = false) :
    (l.eraseP q).find? p = l.find? p := by
  induction l with
  | nil => rfl
  | cons a l ih =>
    by_cases hqa : q a = true
    · rw [List.eraseP_cons_of_pos hqa]
      have hpa : p a = false := by
        by_contra hpa
        rw [hdisj a (List.mem_cons_self a l) (by simpa using hpa)] at hqa
        simp at hqa
      rw [List.find?_cons_of_neg _ (by simp [hpa])]
    · rw [List.eraseP_cons_of_neg (by simpa using hqa)]
      by_cases hpa : p a = true
      · rw [List.find?_cons_of_pos _ hpa, List.find?_cons_of_pos _ hpa]
      · rw [List.find?_cons_of_neg _ (by simpa using hpa),
          List.find?_cons_of_neg _ (by simpa using hpa)]
        exact ih fun x hx => hdisj x (List.mem_cons_of_mem a hx)

theorem find?_eraseP_self_of_nodup (l : List (Int × Rec)) (key : Int)
    (hnd : (l.map Prod.fst).Nodup) :
    (l.eraseP fun p => decide (p.1 = key)).find? (fun p => decide (p.1 = key)) = none := by
  induction l with
  | nil => rfl
  | cons a l ih =>
    rw [List.map_cons, List.nodup_cons] at hnd
    by_cases hak : a.1 = key
    · rw [List.eraseP_cons_of_pos (by simpa using hak)]
      rw [List.find?_eq_none]
      intro q hq
      simp only [decide_eq_true_eq]
      intro hqk
      apply hnd.1
      rw [hak, ← hqk]
      exact List.mem_map_of_mem _ hq
    · rw [List.eraseP_cons_of_neg (by simpa using hak),
        List.find?_cons_of_neg _ (by simpa using hak)]
      exact ih hnd.2

/-- Characterization of `Bucket.delete`. -/
theorem bucket_delete_eq (b : Bucket) (key : Int) :
    b.delete key = (b.search key,
      if (b.search key).isSome
        then { b with records := b.records.eraseP fun q => decide (q.1 = key) }
        else b) := by
  unfold Bucket.delete Bucket.search
  rcases hfind : b.records.find? fun p => decide (p.1 = key) with _ | q
  · rw [hfind]
    simp
  · rw [hfind]
    simp

/-- The state after a successful bucket-level removal (the write-back half of
`ExtendibleHash.delete`, before compaction): the invariant is preserved and
exactly the key disappears. -/
theorem delete_write_spec (s : EHash) (key : Int) (h : EHash.Inv s)
    (b' : Bucket)
    (hb' : b' = { s.bucketAt (s.dirId (s.hashIdx key)) with
      records := (s.bucketAt (s.dirId (s.hashIdx key))).records.eraseP
        fun q => decide (q.1 = key) }) :
    EHash.Inv ((s.writeBucket (s.dirId (s.hashIdx key)) b').addWrites 1) ∧
    (∀ k, ((s.writeBucket (s.dirId (s.hashIdx key)) b').addWrites 1).lookup k
      = if k = key then none else s.lookup k) := by
  set slot := s.hashIdx key with hslotdef
  have hsl : slot < s.directory.length := by
    rw [h.dirLen]
    exact hashK_lt key _
  set id := s.dirId slot with hiddef
  set b := s.bucketAt id with hbdef
  set s1 := (s.writeBucket id b').addWrites 1 with hs1def
  have hid : id < s.store.length := h.idLt slot hsl
  have hdid1 : ∀ j, s1.dirId j = s.dirId j := fun _ => rfl
  have hg1 : s1.globalDepth = s.globalDepth := rfl
  have hcap1 : s1.bucketCapacity = s.bucketCapacity := rfl
  have hstore1 : s1.store = s.store.set id b' := rfl
  have hbat : ∀ x, s1.bucketAt x = if x = id then b' else s.bucketAt x := by
    intro x
    show (s.store.set id b').getD x _ = _
    by_cases hx : x = id
    · subst hx
      rw [if_pos rfl, getD_set_self _ _ _ _ hid]
    · rw [if_neg hx, getD_set_ne _ _ _ _ _ (Ne.symm hx)]
      rfl
  have hld1 : ∀ x, (s1.bucketAt x).localDepth = (s.bucketAt x).localDepth := by
    intro x
    rw [hbat]
    by_cases hx : x = id
    · rw [if_pos hx, hx, ← hbdef, hb']
    · rw [if_neg hx]
  have hcap1' : ∀ x, (s1.bucketAt x).capacity = (s.bucketAt x).capacity := by
    intro x
    rw [hbat]
    by_cases hx : x = id
    · rw [if_pos hx, hx, ← hbdef, hb']
    · rw [if_neg hx]
  have hsub : ∀ q ∈ b'.records, q ∈ b.records := by
    intro q hq
    rw [hb'] at hq
    exact (List.eraseP_sublist _).mem hq
  constructor
  · refine ⟨h.gdPos, h.capGe, h.dirLen, ?_, ?_, ?_, ?_, ?_, ?_, ?_, ?_⟩
    · intro j hj
      rw [hdid1, hstore1, List.length_set]
      exact h.idLt j hj
    · intro j hj
      rw [hdid1, hld1, hg1]
      exact h.ldLe j hj
    · intro j hj
      rw [hdid1, hcap1', hcap1]
      exact h.capEq j hj
    · intro j hj
      rw [hdid1, hcap1, hbat]
      by_cases hx : s.dirId j = id
      · rw [if_pos hx]
        have h1 : b'.records.length ≤ b.records.length := by
          rw [hb']
          exact (List.eraseP_sublist _).length_le
        have h2 := h.sizeLe j hj
        rw [hx, ← hbdef] at h2
        omega
      · rw [if_neg hx]
        exact h.sizeLe j hj
    · intro i hi j hj hmod
      rw [hdid1] at hmod ⊢
      rw [hld1] at hmod
      exact h.classEq i hi j hj hmod
    · intro i hi j hj hdid
      rw [hdid1] at hdid ⊢
      rw [hld1]
      exact h.sameId i hi j hj hdid
    · intro j hj q hq
      rw [hdid1] at hq ⊢
      rw [hld1]
      rw [hbat] at hq
      by_cases hx : s.dirId j = id
      · rw [if_pos hx] at hq
        have := h.keysIn j hj
        rw [hx, ← hbdef] at this ⊢
        exact this q (hsub q hq)
      · rw [if_neg hx] at hq
        exact h.keysIn j hj q hq
    · intro j hj
      rw [hdid1, hbat]
      by_cases hx : s.dirId j = id
      · rw [if_pos hx, hb']
        have hnd := h.keysNodup j hj
        rw [hx, ← hbdef] at hnd
        exact hnd.sublist (List.Sublist.map _ (List.eraseP_sublist _))
      · rw [if_neg hx]
        exact h.keysNodup j hj
  · intro k
    unfold EHash.lookup
    have hhk : s1.hashIdx k = s.hashIdx k := rfl
    rw [hhk, hdid1, hbat]
    by_cases hkid : s.dirId (s.hashIdx k) = id
    · rw [if_pos hkid]
      by_cases hk : k = key
      · subst hk
        rw [if_pos rfl, hb']
        unfold Bucket.search
        have hnd := h.keysNodup slot hsl
        rw [← hiddef, ← hbdef] at hnd
        rw [find?_eraseP_self_of_nodup _ _ hnd]
        rfl
      · rw [if_neg hk, hb']
        unfold Bucket.search
        rw [hkid, ← hbdef]
        congr 1
        apply find?_eraseP_of_disj
        intro x hx hpx
        have hxk : x.1 = k := by simpa using hpx
        simp [hxk, hk]
    · rw [if_neg hkid]
      by_cases hk : k = key
      · exfalso
        subst hk
        exact hkid rfl
      · rw [if_neg hk]

theorem getD_map_lt (l : List Nat) (f : Nat → Nat) (i : Nat) (h : i < l.length) :
    (l.map f).getD i 0 = f (l.getD i 0) := by
  simp [List.getD, List.getElem?_map, List.getElem?_eq_getElem h]

theorem findBuddy_eq_some (s : EHash) (id slot buddyId buddySlot : Nat)
    (h : s.findBuddy id slot = some (buddyId, buddySlot)) :
    buddySlot = slot ^^^ 2 ^ ((s.bucketAt id).localDepth - 1) ∧
    buddySlot < s.directory.length ∧
    buddyId = s.dirId buddySlot ∧
    (s.bucketAt buddyId).localDepth = (s.bucketAt id).localDepth ∧
    buddyId ≠ id := by
  unfold EHash.findBuddy at h
  dsimp only at h
  split at h
  case isTrue => exact absurd h (by simp)
  case isFalse hld0 =>
    rw [Nat.shiftLeft_eq, one_mul] at h
    split at h
    case isTrue => exact absurd h (by simp)
    case isFalse hlen =>
      split at h
      case isTrue hcond =>
        simp only [Option.some.injEq, Prod.mk.injEq] at h
        obtain ⟨h1, h2⟩ := h
        push_neg at hlen
        exact ⟨h2.symm, by omega, by rw [← h1, ← h2], by rw [← h1]; exact hcond.1, by rw [← h1]; exact hcond.2⟩
      case isFalse => exact absurd h (by simp)

theorem merge_state_spec (s : EHash) (id slot buddyId : Nat) (h : EHash.Inv s)
    (hslot : slot < s.directory.length) (hslotid : s.dirId slot = id)
    (hld2 : 2 ≤ (s.bucketAt id).localDepth)
    (hbuddySlotLt : slot ^^^ 2 ^ ((s.bucketAt id).localDepth - 1) < s.directory.length)
    (hbuddyId : buddyId = s.dirId (slot ^^^ 2 ^ ((s.bucketAt id).localDepth - 1)))
    (hbud_ld : (s.bucketAt buddyId).localDepth = (s.bucketAt id).localDepth)
    (hne : buddyId ≠ id)
    (hfit : (s.bucketAt id).records.length + (s.bucketAt buddyId).records.length
      ≤ (s.bucketAt id).capacity)
    (sM : EHash)
    (hsM : sM = { s with
      store := s.store ++ [⟨(s.bucketAt id).localDepth - 1, (s.bucketAt id).capacity,
        (s.bucketAt id).records ++ (s.bucketAt buddyId).records⟩]
      directory := s.directory.map fun d => if d = id ∨ d = buddyId then s.store.length else d
      stats := { s.stats with bucketWrites := s.stats.bucketWrites + 1 } }) :
    EHash.Inv sM ∧ sM.globalDepth = s.globalDepth ∧
    sM.bucketCapacity = s.bucketCapacity ∧
    (∀ k, sM.lookup k = s.lookup k) := by
  set ld := (s.bucketAt id).localDepth with hlddef
  set p := ld - 1 with hpdef
  have hldp : ld = p + 1 := by omega
  set buddySlot := slot ^^^ 2 ^ p with hbsdef
  set b := s.bucketAt id with hbdef
  set bb := s.bucketAt buddyId with hbbdef
  set merged : Bucket := ⟨p, b.capacity, b.records ++ bb.records⟩ with hmdef
  set mid := s.store.length with hmiddef
  have hg : sM.globalDepth = s.globalDepth := by rw [hsM]
  have hcap : sM.bucketCapacity = s.bucketCapacity := by rw [hsM]
  have hlen : sM.directory.length = s.directory.length := by rw [hsM]; simp
  have hdid : ∀ i, i < s.directory.length →
      sM.dirId i = if s.dirId i = id ∨ s.dirId i = buddyId then mid else s.dirId i := by
    intro i hi
    show sM.directory.getD i 0 = _
    rw [hsM]
    exact getD_map_lt _ _ i hi
  have hbmid : sM.bucketAt mid = merged := by
    show sM.store.getD mid _ = merged
    rw [hsM]
    show (s.store ++ [merged]).getD mid _ = merged
    rw [getD_append_ge _ _ _ _ le_rfl, Nat.sub_self]
    rfl
  have hbold : ∀ x, x < s.store.length → sM.bucketAt x = s.bucketAt x := by
    intro x hx
    show sM.store.getD x _ = s.bucketAt x
    rw [hsM]
    show (s.store ++ [merged]).getD x _ = s.bucketAt x
    rw [getD_append_lt _ _ _ _ hx]
    rfl
  have hstlen : sM.store.length = s.store.length + 1 := by
    rw [hsM]
    simp
  -- the two classes
  have hclass_id : ∀ i, i < s.directory.length →
      (s.dirId i = id ↔ i % 2 ^ ld = slot % 2 ^ ld) := by
    intro i hi
    constructor
    · intro hdi
      have := h.sameId i hi slot hslot (by rw [hdi, hslotid])
      rw [hdi, ← hbdef, ← hlddef] at this
      exact this
    · intro hmod
      have := h.classEq slot hslot i hi (by rw [hslotid, ← hbdef, ← hlddef]; exact hmod.symm)
      rw [hslotid] at this
      exact this.symm
  have hclass_buddy : ∀ i, i < s.directory.length →
      (s.dirId i = buddyId ↔ i % 2 ^ ld = buddySlot % 2 ^ ld) := by
    intro i hi
    constructor
    · intro hdi
      have := h.sameId i hi buddySlot hbuddySlotLt (by rw [hdi, hbuddyId])
      rw [hdi, ← hbbdef, hbud_ld] at this
      exact this
    · intro hmod
      have := h.classEq buddySlot hbuddySlotLt i hi
        (by rw [← hbuddyId, ← hbbdef, hbud_ld]; exact hmod.symm)
      rw [← hbuddyId] at this
      exact this.symm
  have hslotbuddy_ne : slot % 2 ^ ld ≠ buddySlot % 2 ^ ld := by
    rw [hldp, hbsdef]
    exact fun hx => xor_pow_mod_succ_ne slot p hx.symm
  have hbs_modp : buddySlot % 2 ^ p = slot % 2 ^ p := by
    rw [hbsdef]
    exact xor_pow_mod_eq slot p p le_rfl
  -- the touched class mod 2^p
  have htouched_modp : ∀ i, i < s.directory.length →
      (s.dirId i = id ∨ s.dirId i = buddyId) → i % 2 ^ p = slot % 2 ^ p := by
    intro i hi hdi
    rcases hdi with hdi | hdi
    · have := (hclass_id i hi).mp hdi
      have hdvd : (2:Nat) ^ p ∣ 2 ^ ld := pow_dvd_pow 2 (by omega)
      calc i % 2 ^ p = i % 2 ^ ld % 2 ^ p := (Nat.mod_mod_of_dvd i hdvd).symm
      _ = slot % 2 ^ ld % 2 ^ p := by rw [this]
      _ = slot % 2 ^ p := Nat.mod_mod_of_dvd slot hdvd
    · have := (hclass_buddy i hi).mp hdi
      have hdvd : (2:Nat) ^ p ∣ 2 ^ ld := pow_dvd_pow 2 (by omega)
      calc i % 2 ^ p = i % 2 ^ ld % 2 ^ p := (Nat.mod_mod_of_dvd i hdvd).symm
      _ = buddySlot % 2 ^ ld % 2 ^ p := by rw [this]
      _ = buddySlot % 2 ^ p := Nat.mod_mod_of_dvd buddySlot hdvd
      _ = slot % 2 ^ p := hbs_modp
  have hmodp_touched : ∀ i, i < s.directory.length → i % 2 ^ p = slot % 2 ^ p →
      (s.dirId i = id ∨ s.dirId i = buddyId) := by
    intro i hi hmod
    have := (class_union i slot p).mp hmod
    rcases this with hmod' | hmod'
    · left
      rw [hclass_id i hi, hldp]
      exact hmod'
    · right
      rw [hclass_buddy i hi, hldp, hbsdef]
      exact hmod'
  -- disjointness of the two record sets by keys
  have hkeys_id : ∀ q ∈ b.records, hashK q.1 ld = slot % 2 ^ ld := by
    intro q hq
    have := h.keysIn slot hslot
    rw [hslotid, ← hbdef, ← hlddef] at this
    exact this q hq
  have hkeys_buddy : ∀ q ∈ bb.records, hashK q.1 ld = buddySlot % 2 ^ ld := by
    intro q hq
    have := h.keysIn buddySlot hbuddySlotLt
    rw [← hbuddyId, ← hbbdef, hbud_ld] at this
    exact this q hq
  have hldle : ld ≤ s.globalDepth := by
    have := h.ldLe slot hslot
    rw [hslotid, ← hbdef, ← hlddef] at this
    exact this
  have hldM : ∀ i, i < s.directory.length →
      (sM.bucketAt (sM.dirId i)).localDepth
        = if s.dirId i = id ∨ s.dirId i = buddyId then p
          else (s.bucketAt (s.dirId i)).localDepth := by
    intro i hi
    rw [hdid i hi]
    by_cases hx : s.dirId i = id ∨ s.dirId i = buddyId
    · rw [if_pos hx, if_pos hx, hbmid]
    · rw [if_neg hx, if_neg hx, hbold _ (h.idLt i hi)]
  refine ⟨⟨by rw [hg]; exact h.gdPos, by rw [hcap]; exact h.capGe,
    by rw [hlen, hg]; exact h.dirLen, ?_, ?_, ?_, ?_, ?_, ?_, ?_, ?_⟩, hg, hcap, ?_⟩
  · -- idLt
    intro i hi
    rw [hlen] at hi
    rw [hdid i hi, hstlen]
    by_cases hx : s.dirId i = id ∨ s.dirId i = buddyId
    · rw [if_pos hx]
      omega
    · rw [if_neg hx]
      have := h.idLt i hi
      omega
  · -- ldLe
    intro i hi
    rw [hlen] at hi
    rw [hldM i hi, hg]
    by_cases hx : s.dirId i = id ∨ s.dirId i = buddyId
    · rw [if_pos hx]
      omega
    · rw [if_neg hx]
      exact h.ldLe i hi
  · -- capEq
    intro i hi
    rw [hlen] at hi
    rw [hdid i hi, hcap]
    by_cases hx : s.dirId i = id ∨ s.dirId i = buddyId
    · rw [if_pos hx, hbmid]
      show b.capacity = s.bucketCapacity
      rw [hbdef, ← hslotid]
      exact h.capEq slot hslot
    · rw [if_neg hx, hbold _ (h.idLt i hi)]
      exact h.capEq i hi
  · -- sizeLe
    intro i hi
    rw [hlen] at hi
    rw [hdid i hi, hcap]
    by_cases hx : s.dirId i = id ∨ s.dirId i = buddyId
    · rw [if_pos hx, hbmid]
      show (b.records ++ bb.records).length ≤ s.bucketCapacity
      rw [List.length_append]
      have hcapb : b.capacity = s.bucketCapacity := by
        rw [hbdef, ← hslotid]
        exact h.capEq slot hslot
      omega
    · rw [if_neg hx, hbold _ (h.idLt i hi)]
      exact h.sizeLe i hi
  · -- classEq
    intro i hi j hj hmod
    rw [hlen] at hi hj
    rw [hldM i hi] at hmod
    by_cases hx : s.dirId i = id ∨ s.dirId i = buddyId
    · rw [if_pos hx] at hmod
      have hi_modp : i % 2 ^ p = slot % 2 ^ p := htouched_modp i hi hx
      have hj_modp : j % 2 ^ p = slot % 2 ^ p := by rw [← hmod]; exact hi_modp
      have hjx := hmodp_touched j hj hj_modp
      rw [hdid i hi, hdid j hj, if_pos hx, if_pos hjx]
    · rw [if_neg hx] at hmod
      have hdij := h.classEq i hi j hj hmod
      have hjx : ¬(s.dirId j = id ∨ s.dirId j = buddyId) := by
        rw [← hdij]
        exact hx
      rw [hdid i hi, hdid j hj, if_neg hx, if_neg hjx, hdij]
  · -- sameId
    intro i hi j hj hdij
    rw [hlen] at hi hj
    rw [hdid i hi, hdid j hj] at hdij
    rw [hldM i hi]
    by_cases hx : s.dirId i = id ∨ s.dirId i = buddyId
    · rw [if_pos hx] at hdij ⊢
      by_cases hjx : s.dirId j = id ∨ s.dirId j = buddyId
      · have hi_modp := htouched_modp i hi hx
        have hj_modp := htouched_modp j hj hjx
        rw [hi_modp, hj_modp]
      · exfalso
        rw [if_neg hjx] at hdij
        have := h.idLt j hj
        omega
    · rw [if_neg hx] at hdij ⊢
      by_cases hjx : s.dirId j = id ∨ s.dirId j = buddyId
      · exfalso
        rw [if_pos hjx] at hdij
        have := h.idLt i hi
        omega
      · rw [if_neg hjx] at hdij
        exact h.sameId i hi j hj hdij
  · -- keysIn
    intro i hi q hq
    rw [hlen] at hi
    rw [hldM i hi]
    rw [hdid i hi] at hq
    by_cases hx : s.dirId i = id ∨ s.dirId i = buddyId
    · rw [if_pos hx] at hq ⊢
      rw [hbmid] at hq
      have hi_modp := htouched_modp i hi hx
      show hashK q.1 p = i % 2 ^ p
      have hdvd : (2:Nat) ^ p ∣ 2 ^ ld := pow_dvd_pow 2 (by omega)
      rcases List.mem_append.mp hq with hq' | hq'
      · have h1 := hkeys_id q hq'
        have h2 : hashK q.1 ld % 2 ^ p = hashK q.1 p := hashK_mod q.1 (by omega)
        rw [← h2, h1, Nat.mod_mod_of_dvd slot hdvd, ← hi_modp]
      · have h1 := hkeys_buddy q hq'
        have h2 : hashK q.1 ld % 2 ^ p = hashK q.1 p := hashK_mod q.1 (by omega)
        rw [← h2, h1, Nat.mod_mod_of_dvd buddySlot hdvd, hbs_modp, ← hi_modp]
    · rw [if_neg hx] at hq ⊢
      rw [hbold _ (h.idLt i hi)] at hq
      exact h.keysIn i hi q hq
  · -- keysNodup
    intro i hi
    rw [hlen] at hi
    rw [hdid i hi]
    by_cases hx : s.dirId i = id ∨ s.dirId i = buddyId
    · rw [if_pos hx, hbmid]
      show ((b.records ++ bb.records).map Prod.fst).Nodup
      rw [List.map_append]
      have hnd1 : (b.records.map Prod.fst).Nodup := by
        have := h.keysNodup slot hslot
        rw [hslotid, ← hbdef] at this
        exact this
      have hnd2 : (bb.records.map Prod.fst).Nodup := by
        have := h.keysNodup buddySlot hbuddySlotLt
        rw [← hbuddyId, ← hbbdef] at this
        exact this
      refine List.Nodup.append hnd1 hnd2 ?_
      intro a ha1 ha2
      simp only [List.mem_map] at ha1 ha2
      obtain ⟨q1, hq1, hk1⟩ := ha1
      obtain ⟨q2, hq2, hk2⟩ := ha2
      have h1 := hkeys_id q1 hq1
      have h2 := hkeys_buddy q2 hq2
      rw [hk1] at h1
      rw [hk2] at h2
      exact hslotbuddy_ne (h1 ▸ h2 ▸ rfl)
    · rw [if_neg hx, hbold _ (h.idLt i hi)]
      exact h.keysNodup i hi
  · -- lookup preserved
    intro k
    unfold EHash.lookup
    have hhk : sM.hashIdx k = s.hashIdx k := by
      unfold EHash.hashIdx
      rw [hg]
    have hkslot : s.hashIdx k < s.directory.length := by
      rw [h.dirLen]
      exact hashK_lt k _
    rw [hhk, hdid _ hkslot]
    by_cases hx : s.dirId (s.hashIdx k) = id ∨ s.dirId (s.hashIdx k) = buddyId
    · rw [if_pos hx, hbmid]
      have hkmod : hashK k ld = (s.hashIdx k) % 2 ^ ld := by
        show hashK k ld = hashK k s.globalDepth % 2 ^ ld
        rw [hashK_mod k hldle]
      rcases hx with hx | hx
      · -- the key hashes into the id class: the buddy half cannot contain it
        have hkc : (s.hashIdx k) % 2 ^ ld = slot % 2 ^ ld :=
          (hclass_id _ hkslot).mp hx
        have hnone : bb.records.find? (fun q => decide (q.1 = k)) = none := by
          rw [List.find?_eq_none]
          intro q hq
          simp only [decide_eq_true_eq]
          intro hqk
          have := hkeys_buddy q hq
          rw [hqk] at this
          rw [hkmod, hkc] at this
          exact hslotbuddy_ne this
        show Option.map Prod.snd ((b.records ++ bb.records).find? _) = _
        rw [List.find?_append, hnone, Option.or_none]
        rw [hx, ← hbdef]
        rfl
      · have hkc : (s.hashIdx k) % 2 ^ ld = buddySlot % 2 ^ ld :=
          (hclass_buddy _ hkslot).mp hx
        have hnone : b.records.find? (fun q => decide (q.1 = k)) = none := by
          rw [List.find?_eq_none]
          intro q hq
          simp only [decide_eq_true_eq]
          intro hqk
          have := hkeys_id q hq
          rw [hqk] at this
          rw [hkmod, hkc] at this
          exact hslotbuddy_ne (this ▸ rfl)
        show Option.map Prod.snd ((b.records ++ bb.records).find? _) = _
        rw [List.find?_append, hnone, Option.none_or]
        rw [hx, ← hbbdef]
        rfl
    · rw [if_neg hx, hbold _ (h.idLt _ hkslot)]

theorem tryMergeBuckets_spec (s : EHash) (id : Nat) (h : EHash.Inv s) :
    EHash.Inv (s.tryMergeBuckets id) ∧
    (s.tryMergeBuckets id).globalDepth = s.globalDepth ∧
    (s.tryMergeBuckets id).bucketCapacity = s.bucketCapacity ∧
    (∀ k, (s.tryMergeBuckets id).lookup k = s.lookup k) := by
  unfold EHash.tryMergeBuckets
  dsimp only
  split
  case isTrue => exact ⟨h, rfl, rfl, fun _ => rfl⟩
  case isFalse hgt =>
    rcases hfs : s.firstSlot id with _ | slot
    · exact ⟨h, rfl, rfl, fun _ => rfl⟩
    · dsimp only
      rcases hfb : s.findBuddy id slot with _ | ⟨buddyId, buddySlot⟩
      · exact ⟨h, rfl, rfl, fun _ => rfl⟩
      · dsimp only
        obtain ⟨hbs, hbsLt, hbid, hbld, hbne⟩ :=
            findBuddy_eq_some s id slot buddyId buddySlot hfb
        obtain ⟨hslotlt, hslotid⟩ := firstSlot_spec s id slot hfs
        by_cases hfit : (s.bucketAt id).capacity
            < (s.bucketAt id).records.length + (s.bucketAt buddyId).records.length
        · rw [if_pos hfit]
          exact ⟨h, rfl, rfl, fun _ => rfl⟩
        · rw [if_neg hfit]
          push_neg at hgt hfit
          exact merge_state_spec s id slot buddyId h hslotlt hslotid (by omega)
            (hbs ▸ hbsLt) (hbs ▸ hbid) hbld hbne hfit _ rfl

theorem dirId_mem (s : EHash) (i : Nat) (h : i < s.directory.length) :
    s.dirId i ∈ s.directory := by
  show s.directory.getD i 0 ∈ s.directory
  rw [List.getD_eq_getElem?_getD, List.getElem?_eq_getElem h]
  exact List.getElem_mem h

theorem tryShrinkDirectory_spec (s : EHash) (h : EHash.Inv s) :
    EHash.Inv s.tryShrinkDirectory ∧
    s.tryShrinkDirectory.bucketCapacity = s.bucketCapacity ∧
    (∀ k, s.tryShrinkDirectory.lookup k = s.lookup k) := by
  unfold EHash.tryShrinkDirectory
  split
  case isTrue => exact ⟨h, rfl, fun _ => rfl⟩
  case isFalse hg1 =>
    split
    case isFalse => exact ⟨h, rfl, fun _ => rfl⟩
    case isTrue hall =>
      push_neg at hg1
      have hg2 : 2 ≤ s.globalDepth := hg1
      set g := s.globalDepth with hgdef
      set sS : EHash := { s with
        globalDepth := g - 1
        directory := s.directory.take (2 ^ (g - 1)) } with hsSdef
      have hldlt : ∀ i, i < s.directory.length →
          (s.bucketAt (s.dirId i)).localDepth < g := by
        intro i hi
        have := List.all_eq_true.mp hall _ (dirId_mem s i hi)
        simpa using this
      have hpowlt : 2 ^ (g - 1) < 2 ^ g :=
        Nat.pow_lt_pow_right (by norm_num) (by omega)
      have hlen : sS.directory.length = 2 ^ (g - 1) := by
        rw [hsSdef]
        show (s.directory.take (2 ^ (g - 1))).length = 2 ^ (g - 1)
        rw [List.length_take, h.dirLen, ← hgdef]
        omega
      have hlift : ∀ i, i < 2 ^ (g - 1) → i < s.directory.length := by
        intro i hi
        rw [h.dirLen, ← hgdef]
        omega
      have hdid : ∀ i, i < 2 ^ (g - 1) → sS.dirId i = s.dirId i := by
        intro i hi
        show (s.directory.take (2 ^ (g - 1))).getD i 0 = s.directory.getD i 0
        exact getD_take _ _ _ _ hi
      have hbat : ∀ x, sS.bucketAt x = s.bucketAt x := fun _ => rfl
      have hcapS : sS.bucketCapacity = s.bucketCapacity := rfl
      refine ⟨⟨by show 1 ≤ g - 1; omega, h.capGe, by rw [hlen], ?_, ?_, ?_, ?_, ?_,
        ?_, ?_, ?_⟩, hcapS, ?_⟩
      · intro i hi
        rw [hlen] at hi
        rw [hdid i hi]
        exact h.idLt i (hlift i hi)
      · intro i hi
        rw [hlen] at hi
        rw [hdid i hi, hbat]
        show (s.bucketAt (s.dirId i)).localDepth ≤ g - 1
        have := hldlt i (hlift i hi)
        omega
      · intro i hi
        rw [hlen] at hi
        rw [hdid i hi, hbat, hcapS]
        exact h.capEq i (hlift i hi)
      · intro i hi
        rw [hlen] at hi
        rw [hdid i hi, hbat, hcapS]
        exact h.sizeLe i (hlift i hi)
      · intro i hi j hj hmod
        rw [hlen] at hi hj
        rw [hdid i hi] at hmod ⊢
        rw [hdid j hj]
        rw [hbat] at hmod
        exact h.classEq i (hlift i hi) j (hlift j hj) hmod
      · intro i hi j hj hdij
        rw [hlen] at hi hj
        rw [hdid i hi] at hdij ⊢
        rw [hdid j hj] at hdij
        rw [hbat]
        exact h.sameId i (hlift i hi) j (hlift j hj) hdij
      · intro i hi q hq
        rw [hlen] at hi
        rw [hdid i hi, hbat] at hq ⊢
        exact h.keysIn i (hlift i hi) q hq
      · intro i hi
        rw [hlen] at hi
        rw [hdid i hi, hbat]
        exact h.keysNodup i (hlift i hi)
      · intro k
        unfold EHash.lookup
        have hkS : sS.hashIdx k = hashK k (g - 1) := rfl
        have hkslt : hashK k (g - 1) < 2 ^ (g - 1) := hashK_lt k _
        have hjlt : s.hashIdx k < s.directory.length := by
          rw [h.dirLen, ← hgdef]
          exact hashK_lt k _
        rw [hkS, hdid _ hkslt, hbat]
        have hldg : (s.bucketAt (s.dirId (s.hashIdx k))).localDepth ≤ g - 1 := by
          have := hldlt _ hjlt
          omega
        have hcond : s.hashIdx k % 2 ^ (s.bucketAt (s.dirId (s.hashIdx k))).localDepth
            = hashK k (g - 1) % 2 ^ (s.bucketAt (s.dirId (s.hashIdx k))).localDepth := by
          show hashK k g % _ = _
          rw [hashK_mod k (by omega : (s.bucketAt (s.dirId (s.hashIdx k))).localDepth ≤ g),
            hashK_mod k hldg]
        have hsame := h.classEq _ hjlt _ (hlift _ hkslt) hcond
        rw [← hsame]

theorem delete_spec (s : EHash) (key : Int) (h : EHash.Inv s) :
    EHash.Inv (s.delete key).2 ∧
    (s.delete key).2.bucketCapacity = s.bucketCapacity ∧
    ((s.delete key).1 = s.lookup key) ∧
    (s.lookup key = none → (s.delete key).2 = s.addReads 1) ∧
    (∀ k, (s.delete key).2.lookup k = if k = key then none else s.lookup k) := by
  set s0 := s.addReads 1 with hs0def
  have hinv0 : EHash.Inv s0 := inv_addReads s 1 h
  have hlup0 : ∀ k, s0.lookup k = s.lookup k := fun _ => rfl
  set id := s0.dirId (s0.hashIdx key) with hiddef
  set b := s0.bucketAt id with hbdef
  have hbsearch : s.lookup key = b.search key := rfl
  have hdeq := bucket_delete_eq b key
  have hmatch : s.delete key
      = (match (b.delete key).1 with
        | none => (none, s0)
        | some r => (some r,
            ((s0.writeBucket id (b.delete key).2).addWrites 1).tryMergeBuckets id
              |>.tryShrinkDirectory)) := rfl
  rcases hfound : b.search key with _ | r
  · have hres1 : (b.delete key).1 = none := by rw [hdeq, hfound]
    rw [hmatch, hres1]
    refine ⟨hinv0, rfl, ?_, fun _ => rfl, ?_⟩
    · rw [hbsearch, hfound]
    · intro k
      by_cases hk : k = key
      · rw [if_pos hk, hk, hlup0, hbsearch, hfound]
      · rw [if_neg hk, hlup0]
  · have hres1 : (b.delete key).1 = some r := by rw [hdeq, hfound]
    have hres2 : (b.delete key).2
        = { b with records := b.records.eraseP fun q => decide (q.1 = key) } := by
      rw [hdeq, hfound]
      rfl
    rw [hmatch, hres1]
    obtain ⟨hinv1, hlup1⟩ := delete_write_spec s0 key hinv0 (b.delete key).2 (by rw [hres2])
    set s1 := (s0.writeBucket id (b.delete key).2).addWrites 1 with hs1def
    obtain ⟨hinv2, hg2, hcap2, hlup2⟩ := tryMergeBuckets_spec s1 id hinv1
    set s2 := s1.tryMergeBuckets id with hs2def
    obtain ⟨hinv3, hcap3, hlup3⟩ := tryShrinkDirectory_spec s2 hinv2
    refine ⟨hinv3, by rw [hcap3, hcap2]; rfl, ?_, ?_, ?_⟩
    · rw [hbsearch, hfound]
    · intro habs
      rw [hbsearch, hfound] at habs
      simp at habs
    · intro k
      rw [hlup3 k, hlup2 k, hlup1 k]
      by_cases hk : k = key
      · rw [if_pos hk, if_pos hk]
      · rw [if_neg hk, if_neg hk, hlup0]

theorem search_spec (s : EHash) (key : Int) (h : EHash.Inv s) :
    (s.search key).1 = s.lookup key ∧
    EHash.Inv (s.search key).2 ∧
    (s.search key).2.bucketCapacity = s.bucketCapacity ∧
    (∀ k, (s.search key).2.lookup k = s.lookup k) :=
  ⟨rfl, inv_addReads s 1 h, rfl, fun _ => rfl⟩

/-- Every reachable hash state satisfies the structural invariant. -/
theorem reach_inv {cap : Nat} {s : EHash} (h : EHash.Reach cap s) :
    EHash.Inv s ∧ s.bucketCapacity = max 2 cap := by
  induction h with
  | init => exact ⟨inv_new cap, rfl⟩
  | ins key r _ ih =>
    obtain ⟨h1, h2, _⟩ := insert_spec _ key r ih.1
    exact ⟨h1, by rw [h2, ih.2]⟩
  | del key _ ih =>
    obtain ⟨h1, h2, _⟩ := delete_spec _ key ih.1
    exact ⟨h1, by rw [h2, ih.2]⟩
  | srch key _ ih =>
    obtain ⟨_, h1, h2, _⟩ := search_spec _ key ih.1
    exact ⟨h1, by rw [h2, ih.2]⟩

/-! ## Claims about the extendible hash engine -/

/-- **C3.** In every state of the extensible hash engine reachable by any
sequence of inserts and deletes (and searches), the directory has size
`2 ^ global_depth`, every bucket referenced by the directory has
`local_depth ≤ global_depth`, and any two directory indices congruent modulo
`2 ^ (local depth of the bucket at i)` reference the same bucket instance
(the same arena index, i.e. Python object identity). -/
theorem hash_directory_invariant (cap : Nat) (s : EHash) (h : EHash.Reach cap s) :
    s.directory.length = 2 ^ s.globalDepth ∧
    (∀ i, i < s.directory.length →
      (s.bucketAt (s.dirId i)).localDepth ≤ s.globalDepth) ∧
    (∀ i, i < s.directory.length → ∀ j, j < s.directory.length →
      i % 2 ^ (s.bucketAt (s.dirId i)).localDepth
        = j % 2 ^ (s.bucketAt (s.dirId i)).localDepth →
      s.dirId i = s.dirId j) := by
  obtain ⟨hinv, -⟩ := reach_inv h
  exact ⟨hinv.dirLen, hinv.ldLe, hinv.classEq⟩

/-- Witness for C3 at the initial state of a capacity-4 engine. -/
theorem hash_directory_invariant_witness :
    (EHash.new 4).directory.length = 2 ^ (EHash.new 4).globalDepth ∧
    (∀ i, i < (EHash.new 4).directory.length →
      ((EHash.new 4).bucketAt ((EHash.new 4).dirId i)).localDepth
        ≤ (EHash.new 4).globalDepth) ∧
    (∀ i, i < (EHash.new 4).directory.length →
      ∀ j, j < (EHash.new 4).directory.length →
      i % 2 ^ ((EHash.new 4).bucketAt ((EHash.new 4).dirId i)).localDepth
        = j % 2 ^ ((EHash.new 4).bucketAt ((EHash.new 4).dirId i)).localDepth →
      (EHash.new 4).dirId i = (EHash.new 4).dirId j) :=
  hash_directory_invariant 4 (EHash.new 4) EHash.Reach.init

/-- **C7.** The overflow handling of the hash insert always terminates: from
any reachable state, for a key that is not present, `_handle_overflow` with
the computed fuel returns a result (the Python recursion bottoms out), and
each recursion step either splits the key's bucket alone (when its local
depth is below the global depth, leaving the global depth unchanged) or
doubles the directory first; in either case the local depth of the key's
bucket grows by exactly one and stays bounded by the global depth. -/
theorem hash_overflow_terminates (cap : Nat) (s : EHash) (key : Int) (r : Rec)
    (h : EHash.Reach cap s) (habs : s.lookup key = none) :
    (∃ s', EHash.handleOverflow (EHash.overflowFuel s key) s key r = some s' ∧
      EHash.Inv s') ∧
    (s.overflowStep key).globalDepth
      = (if (s.bucketAt (s.dirId (s.hashIdx key))).localDepth < s.globalDepth
        then s.globalDepth else s.globalDepth + 1) ∧
    ((s.overflowStep key).bucketAt
        ((s.overflowStep key).dirId ((s.overflowStep key).hashIdx key))).localDepth
      = (s.bucketAt (s.dirId (s.hashIdx key))).localDepth + 1 ∧
    ((s.overflowStep key).bucketAt
        ((s.overflowStep key).dirId ((s.overflowStep key).hashIdx key))).localDepth
      ≤ (s.overflowStep key).globalDepth := by
  obtain ⟨hinv, -⟩ := reach_inv h
  have habs' : ∀ q ∈ (s.bucketAt (s.dirId (s.hashIdx key))).records, q.1 ≠ key :=
    (bucket_search_eq_none_iff _ key).mp habs
  obtain ⟨hkeyb, hstoreb⟩ := allKeyBound_spec s key
  have hsl : s.hashIdx key < s.directory.length := by
    rw [hinv.dirLen]
    exact hashK_lt key _
  have hmem : s.bucketAt (s.dirId (s.hashIdx key)) ∈ s.store :=
    bucketAt_mem s _ (hinv.idLt _ hsl)
  obtain ⟨s', hrun, hinv', -⟩ :=
    handleOverflow_spec (EHash.overflowFuel s key) s key r
      (Nat.size (EHash.allKeyBound s key)) hinv habs' hkeyb
      (fun q hq => hstoreb _ hmem q hq)
      (by unfold EHash.overflowFuel; omega)
      (by unfold EHash.overflowFuel; omega)
  obtain ⟨hinv1, -, -, hld1, -⟩ := overflowStep_spec s key hinv
  refine ⟨⟨s', hrun, hinv'⟩, ?_, hld1, ?_⟩
  · rw [overflowStep_eq]
    by_cases hlt : (s.bucketAt (s.dirId (s.hashIdx key))).localDepth < s.globalDepth
    · rw [if_pos hlt, if_pos hlt]
      rfl
    · rw [if_neg hlt, if_neg hlt]
      rfl
  · have hslA : (s.overflowStep key).hashIdx key < (s.overflowStep key).directory.length := by
      rw [hinv1.dirLen]
      exact hashK_lt key _
    exact hinv1.ldLe _ hslA

/-- Witness for C7: insert key 0 into the fresh capacity-2 engine. -/
theorem hash_overflow_terminates_witness :
    ((∃ s', EHash.handleOverflow (EHash.overflowFuel (EHash.new 2) 0) (EHash.new 2) 0 [0]
        = some s' ∧ EHash.Inv s') ∧
    ((EHash.new 2).overflowStep 0).globalDepth
      = (if ((EHash.new 2).bucketAt
            ((EHash.new 2).dirId ((EHash.new 2).hashIdx 0))).localDepth
            < (EHash.new 2).globalDepth
        then (EHash.new 2).globalDepth else (EHash.new 2).globalDepth + 1) ∧
    (((EHash.new 2).overflowStep 0).bucketAt
        (((EHash.new 2).overflowStep 0).dirId (((EHash.new 2).overflowStep 0).hashIdx 0))).localDepth
      = ((EHash.new 2).bucketAt
          ((EHash.new 2).dirId ((EHash.new 2).hashIdx 0))).localDepth + 1 ∧
    (((EHash.new 2).overflowStep 0).bucketAt
        (((EHash.new 2).overflowStep 0).dirId (((EHash.new 2).overflowStep 0).hashIdx 0))).localDepth
      ≤ ((EHash.new 2).overflowStep 0).globalDepth) :=
  hash_overflow_terminates 2 (EHash.new 2) 0 [0] EHash.Reach.init rfl

/-! ### The binary search loop computes the lower-bound position -/

theorem bsLoop_isLB (keys : List Int) (key : Int)
    (hs : ∀ i j, i ≤ j → j < keys.length → keys.getD i 0 ≤ keys.getD j 0) :
    ∀ fuel left right, right - left ≤ fuel → left ≤ right → right ≤ keys.length →
      (∀ i, i < left → keys.getD i 0 < key) →
      (∀ i, right ≤ i → i < keys.length → ¬ keys.getD i 0 < key) →
      IsLB keys key (bsLoop keys key fuel left right) := by
  intro fuel
  induction fuel with
  | zero =>
    intro left right hfl hlr hrlen hl hr
    have heq : left = right := by omega
    subst heq
    simp only [bsLoop]
    exact ⟨by omega, hl, hr⟩
  | succ fuel ih =>
    intro left right hfl hlr hrlen hl hr
    simp only [bsLoop]
    by_cases hlt : left < right
    · rw [if_pos hlt]
      by_cases hmid : keys.getD ((left + right) / 2) 0 < key
      · rw [if_pos hmid]
        refine ih ((left + right) / 2 + 1) right (by omega) (by omega) hrlen ?_ hr
        intro i hi
        rcases Nat.lt_or_ge i left with h1 | h1
        · exact hl i h1
        · exact lt_of_le_of_lt (hs i ((left + right) / 2) (by omega) (by omega)) hmid
      · rw [if_neg hmid]
        refine ih left ((left + right) / 2) (by omega) (by omega) (by omega) hl ?_
        intro i hi hilen hcon
        exact hmid (lt_of_le_of_lt (hs _ i hi hilen) hcon)
    · rw [if_neg hlt]
      have heq : left = right := by omega
      subst heq
      exact ⟨by omega, hl, hr⟩

theorem pairwise_getD_le {keys : List Int} (hsort : List.Pairwise (· < ·) keys) :
    ∀ i j, i ≤ j → j < keys.length → keys.getD i 0 ≤ keys.getD j 0 := by
  intro i j hij hj
  rcases Nat.eq_or_lt_of_le hij with heq | hlt
  · subst heq
    exact le_refl _
  · have hi : i < keys.length := by omega
    have := List.pairwise_iff_getElem.mp hsort i j hi hj hlt
    rw [List.getD_eq_getElem?_getD, List.getD_eq_getElem?_getD,
      List.getElem?_eq_getElem hi, List.getElem?_eq_getElem hj]
    exact le_of_lt this

theorem binSearch_isLB (keys : List Int) (key : Int)
    (hsort : List.Pairwise (· < ·) keys) : IsLB keys key (binSearch keys key) :=
  bsLoop_isLB keys key (pairwise_getD_le hsort) keys.length 0 keys.length
    (by omega) (by omega) (le_refl _) (fun i hi => absurd hi (Nat.not_lt_zero i))
    (fun i hi hilen => absurd hilen (by omega))

theorem isLB_unique {keys : List Int} {key : Int} {r1 r2 : Nat}
    (h1 : IsLB keys key r1) (h2 : IsLB keys key r2) : r1 = r2 := by
  rcases h1 with ⟨h1len, h1lt, h1ge⟩
  rcases h2 with ⟨h2len, h2lt, h2ge⟩
  by_contra hne
  rcases Nat.lt_or_ge r1 r2 with hlt | hge
  · exact h1ge r1 (le_refl r1) (by omega) (h2lt r1 hlt)
  · have hlt : r2 < r1 := by omega
    exact h2ge r2 (le_refl r2) (by omega) (h1lt r2 hlt)

theorem isLB_cons_of_lt {k key : Int} {t : List Int} {pos : Nat}
    (hk : k < key) (h : IsLB (k :: t) key pos) :
    ∃ p, pos = p + 1 ∧ IsLB t key p := by
  cases pos with
  | zero =>
    exact absurd hk (by simpa using h.2.2 0 (by omega) (by simp))
  | succ p =>
    refine ⟨p, rfl, by simpa using h.1, ?_, ?_⟩
    · intro i hi
      have := h.2.1 (i + 1) (by omega)
      simpa using this
    · intro i hpi hilen
      have := h.2.2 (i + 1) (by omega) (by simpa using hilen)
      simpa using this

theorem isLB_cons_of_ge {k key : Int} {t : List Int} {pos : Nat}
    (hk : ¬ k < key) (h : IsLB (k :: t) key pos) : pos = 0 := by
  cases pos with
  | zero => rfl
  | succ p =>
    exact absurd (by simpa using h.2.1 0 (by omega)) hk

/-! ### Association-list lookups -/

theorem lookupE_nil (key : Int) : lookupE [] key = none := rfl

theorem lookupE_cons (a : Int) (b : Rec) (l : List (Int × Rec)) (key : Int) :
    lookupE ((a, b) :: l) key = if a = key then some b else lookupE l key := by
  by_cases h : a = key
  · simp [lookupE, List.find?_cons_of_pos, h]
  · rw [if_neg h]
    simp only [lookupE]
    rw [List.find?_cons_of_neg]
    simp [h]

theorem lookupE_eq_none_iff (l : List (Int × Rec)) (key : Int) :
    lookupE l key = none ↔ ∀ p ∈ l, p.1 ≠ key := by
  simp [lookupE, List.find?_eq_none]

theorem lookupE_append_left {l2 : List (Int × Rec)} {key : Int}
    (h : ∀ p ∈ l2, p.1 ≠ key) (l1 : List (Int × Rec)) :
    lookupE (l1 ++ l2) key = lookupE l1 key := by
  induction l1 with
  | nil =>
    simpa using (lookupE_eq_none_iff l2 key).mpr h
  | cons p t ih =>
    rcases p with ⟨a, b⟩
    rw [List.cons_append, lookupE_cons, lookupE_cons, ih]

theorem lookupE_append_right {l1 : List (Int × Rec)} {key : Int}
    (h : ∀ p ∈ l1, p.1 ≠ key) (l2 : List (Int × Rec)) :
    lookupE (l1 ++ l2) key = lookupE l2 key := by
  induction l1 with
  | nil => rfl
  | cons p t ih =>
    rcases p with ⟨a, b⟩
    rw [List.cons_append, lookupE_cons, if_neg (h (a, b) (by simp))]
    exact ih fun q hq => h q (by simp [hq])

theorem lookupE_sortedIns {l : List (Int × Rec)} {key : Int} (r : Rec)
    (hnot : ∀ p ∈ l, p.1 ≠ key) :
    ∀ k, lookupE (sortedIns key r l) k = if k = key then some r else lookupE l k := by
  induction l with
  | nil =>
    intro k
    show lookupE [(key, r)] k = _
    rw [lookupE_cons]
    by_cases hk : k = key
    · rw [if_pos hk.symm, if_pos hk]
    · rw [if_neg (fun h : key = k => hk h.symm), if_neg hk]
  | cons p t ih =>
    intro k
    rcases p with ⟨a, b⟩
    simp only [sortedIns]
    by_cases hlt : key < a
    · rw [if_pos hlt, lookupE_cons]
      by_cases hk : k = key
      · rw [if_pos hk.symm, if_pos hk]
      · rw [if_neg (fun h : key = k => hk h.symm), if_neg hk]
    · rw [if_neg hlt, lookupE_cons, lookupE_cons,
        ih fun q hq => hnot q (List.mem_cons_of_mem _ hq)]
      by_cases ha : a = k
      · subst ha
        have hak : ¬ a = key := hnot (a, b) (List.mem_cons_self _ _)
        rw [if_pos rfl, if_neg (fun h : a = key => hak h), if_pos rfl]
      · rw [if_neg ha, if_neg ha]

theorem eraseKey_cons_of_eq {a : Int} {key : Int} (b : Rec) (t : List (Int × Rec))
    (ha : a = key) : eraseKey key ((a, b) :: t) = t := by
  simp [eraseKey, List.eraseP_cons_of_pos, ha]

theorem eraseKey_cons_of_ne {a : Int} {key : Int} (b : Rec) (t : List (Int × Rec))
    (ha : ¬ a = key) : eraseKey key ((a, b) :: t) = (a, b) :: eraseKey key t := by
  simp only [eraseKey]
  rw [List.eraseP_cons_of_neg (by simp [ha])]

theorem eraseKey_of_not_mem {l : List (Int × Rec)} {key : Int}
    (h : ∀ p ∈ l, p.1 ≠ key) : eraseKey key l = l := by
  induction l with
  | nil => rfl
  | cons p t ih =>
    rcases p with ⟨a, b⟩
    rw [eraseKey_cons_of_ne b t (h (a, b) (List.mem_cons_self _ _)),
      ih fun q hq => h q (List.mem_cons_of_mem _ hq)]

theorem lookupE_eraseKey {l : List (Int × Rec)} {key : Int}
    (hnd : (l.map Prod.fst).Nodup) :
    ∀ k, lookupE (eraseKey key l) k = if k = key then none else lookupE l k := by
  induction l with
  | nil =>
    intro k
    by_cases hk : k = key
    · rw [if_pos hk]
      rfl
    · rw [if_neg hk]
      rfl
  | cons p t ih =>
    intro k
    rcases p with ⟨a, b⟩
    rw [List.map_cons, List.nodup_cons] at hnd
    by_cases ha : a = key
    · rw [eraseKey_cons_of_eq b t ha]
      by_cases hk : k = key
      · subst hk
        rw [if_pos rfl, lookupE_eq_none_iff]
        intro q hq hqk
        have hq1 : q.1 ∈ List.map Prod.fst t := List.mem_map_of_mem Prod.fst hq
        rw [hqk, ← ha] at hq1
        exact hnd.1 hq1
      · rw [if_neg hk, lookupE_cons, if_neg (by rw [ha]; exact fun h => hk h.symm)]
    · rw [eraseKey_cons_of_ne b t ha]
      have hih := ih hnd.2
      by_cases hk : k = key
      · rw [if_pos hk, lookupE_cons, if_neg (fun h : a = k => ha (by rw [h, hk])),
          hih k, if_pos hk]
      · rw [if_neg hk, lookupE_cons, lookupE_cons, hih k, if_neg hk]

theorem nodup_fst_of_pairwise {l : List (Int × Rec)}
    (h : List.Pairwise (fun p q => p.1 < q.1) l) : (l.map Prod.fst).Nodup := by
  rw [List.Nodup, List.pairwise_map]
  exact h.imp fun hlt => ne_of_lt hlt

/-! ### Leaf operations against the association-list view -/

theorem length_insertIdx_of_le {α : Type} (x : α) :
    ∀ (l : List α) (pos : Nat), pos ≤ l.length →
      (l.insertIdx pos x).length = l.length + 1 := by
  intro l
  induction l with
  | nil =>
    intro pos hpos
    have : pos = 0 := by simpa using hpos
    subst this
    rfl
  | cons a t ih =>
    intro pos hpos
    cases pos with
    | zero => rfl
    | succ p =>
      rw [List.insertIdx_succ_cons, List.length_cons, List.length_cons,
        ih p (by simpa using hpos)]

theorem leafSearch_pos {key : Int} : ∀ (keys : List Int) (recs : List Rec) (pos : Nat),
    List.Pairwise (· < ·) keys → recs.length = keys.length → IsLB keys key pos →
    (if pos < keys.length ∧ keys.getD pos 0 = key then recs[pos]? else none)
      = lookupE (keys.zip recs) key := by
  intro keys
  induction keys with
  | nil =>
    intro recs pos hsort hlen hpos
    rw [if_neg (by simp)]
    simp [lookupE]
  | cons k t ih =>
    intro recs pos hsort hlen hpos
    rcases recs with _ | ⟨r0, rs⟩
    · exact absurd hlen (by simp)
    rw [List.length_cons, List.length_cons] at hlen
    have hlen' : rs.length = t.length := by omega
    rcases List.pairwise_cons.mp hsort with ⟨hk_all, hsort'⟩
    by_cases hk : k < key
    · obtain ⟨p, rfl, hp⟩ := isLB_cons_of_lt hk hpos
      have hkne : ¬ k = key := ne_of_lt hk
      rw [List.zip_cons_cons, lookupE_cons, if_neg hkne, ← ih rs p hsort' hlen' hp]
      simp only [List.length_cons, List.getD_cons_succ, Nat.add_lt_add_iff_right,
        List.getElem?_cons_succ]
    · have hpos0 := isLB_cons_of_ge hk hpos
      subst hpos0
      rw [List.zip_cons_cons, lookupE_cons]
      by_cases hkey : k = key
      · rw [if_pos ⟨by simp, by simpa using hkey⟩, if_pos hkey]
        simp
      · rw [if_neg (by simp [hkey]), if_neg hkey]
        symm
        rw [lookupE_eq_none_iff]
        intro q hq
        rcases q with ⟨x, y⟩
        have hx : x ∈ t := (List.of_mem_zip hq).1
        have hkeyk : key < k := lt_of_le_of_ne (not_lt.mp hk) fun h => hkey h.symm
        exact ne_of_gt (lt_trans hkeyk (hk_all x hx))

theorem leafSearch_eq {keys : List Int} {recs : List Rec} {key : Int}
    (hsort : List.Pairwise (· < ·) keys) (hlen : recs.length = keys.length) :
    leafSearch keys recs key = lookupE (keys.zip recs) key :=
  leafSearch_pos keys recs (binSearch keys key) hsort hlen (binSearch_isLB keys key hsort)

theorem lookupE_zip_isSome_iff {keys : List Int} {recs : List Rec} {key : Int}
    (hlen : recs.length = keys.length) :
    (lookupE (keys.zip recs) key).isSome = true ↔ key ∈ keys := by
  rw [Option.isSome_iff_ne_none, Ne, lookupE_eq_none_iff]
  push_neg
  constructor
  · rintro ⟨p, hp, hpk⟩
    exact hpk ▸ (List.of_mem_zip hp).1
  · intro hm
    rcases List.mem_iff_getElem.mp hm with ⟨i, hi, hik⟩
    have hi2 : i < (keys.zip recs).length := by
      rw [List.length_zip]
      omega
    refine ⟨(keys.zip recs)[i], List.getElem_mem hi2, ?_⟩
    rw [List.getElem_zip]
    simpa using hik

theorem dupCond_iff_mem' {key : Int} : ∀ (keys : List Int) (pos : Nat),
    List.Pairwise (· < ·) keys → IsLB keys key pos →
    ((pos < keys.length ∧ keys.getD pos 0 = key) ↔ key ∈ keys) := by
  intro keys
  induction keys with
  | nil =>
    intro pos hsort hpos
    simp
  | cons k t ih =>
    intro pos hsort hpos
    rcases List.pairwise_cons.mp hsort with ⟨hk_all, hsort'⟩
    by_cases hk : k < key
    · obtain ⟨p, rfl, hp⟩ := isLB_cons_of_lt hk hpos
      rw [show ((p + 1 < (k :: t).length ∧ (k :: t).getD (p + 1) 0 = key)
          ↔ (p < t.length ∧ t.getD p 0 = key)) from by
        simp [List.getD_cons_succ]]
      rw [ih p hsort' hp, List.mem_cons]
      constructor
      · exact Or.inr
      · rintro (h1 | h1)
        · exact absurd h1.symm (ne_of_lt hk)
        · exact h1
    · have hpos0 := isLB_cons_of_ge hk hpos
      subst hpos0
      constructor
      · rintro ⟨-, h2⟩
        rw [List.getD_cons_zero] at h2
        exact h2 ▸ List.mem_cons_self _ _
      · intro hmem
        rcases List.mem_cons.mp hmem with h1 | h1
        · exact ⟨by simp, by simpa using h1.symm⟩
        · exact absurd (hk_all key h1) hk

theorem dupCond_iff_mem {keys : List Int} {key : Int} {pos : Nat}
    (hsort : List.Pairwise (· < ·) keys) (hpos : IsLB keys key pos) :
    (pos < keys.length ∧ keys.getD pos 0 = key) ↔ key ∈ keys :=
  dupCond_iff_mem' keys pos hsort hpos

theorem zip_insertIdx_sortedIns {key : Int} (r : Rec) :
    ∀ (keys : List Int) (recs : List Rec) (pos : Nat),
      List.Pairwise (· < ·) keys → recs.length = keys.length → IsLB keys key pos →
      key ∉ keys →
      (keys.insertIdx pos key).zip (recs.insertIdx pos r)
        = sortedIns key r (keys.zip recs) := by
  intro keys
  induction keys with
  | nil =>
    intro recs pos hsort hlen hpos hmem
    have hp0 : pos = 0 := by
      have := hpos.1
      simpa using this
    subst hp0
    rcases recs with _ | ⟨r0, rs⟩
    · rfl
    · exact absurd hlen (by simp)
  | cons k t ih =>
    intro recs pos hsort hlen hpos hmem
    rcases recs with _ | ⟨r0, rs⟩
    · exact absurd hlen (by simp)
    rw [List.length_cons, List.length_cons] at hlen
    have hlen' : rs.length = t.length := by omega
    rcases List.pairwise_cons.mp hsort with ⟨hk_all, hsort'⟩
    by_cases hk : k < key
    · obtain ⟨p, rfl, hp⟩ := isLB_cons_of_lt hk hpos
      rw [List.insertIdx_succ_cons, List.insertIdx_succ_cons, List.zip_cons_cons,
        List.zip_cons_cons]
      show _ = sortedIns key r ((k, r0) :: t.zip rs)
      rw [show sortedIns key r ((k, r0) :: t.zip rs)
          = (k, r0) :: sortedIns key r (t.zip rs) from by
        simp [sortedIns, not_lt.mpr (le_of_lt hk), if_neg]]
      rw [ih rs p hsort' hlen' hp fun h => hmem (List.mem_cons_of_mem _ h)]
    · have hpos0 := isLB_cons_of_ge hk hpos
      subst hpos0
      have hkgt : key < k :=
        lt_of_le_of_ne (not_lt.mp hk) fun h => hmem (h ▸ List.mem_cons_self _ _)
      rw [List.insertIdx_zero, List.insertIdx_zero, List.zip_cons_cons,
        List.zip_cons_cons]
      show _ = sortedIns key r ((k, r0) :: t.zip rs)
      rw [show sortedIns key r ((k, r0) :: t.zip rs)
          = (key, r) :: (k, r0) :: t.zip rs from by simp [sortedIns, hkgt]]

theorem insertIdx_sorted {key : Int} :
    ∀ (keys : List Int) (pos : Nat),
      List.Pairwise (· < ·) keys → IsLB keys key pos → key ∉ keys →
      List.Pairwise (· < ·) (keys.insertIdx pos key)
      ∧ (∀ x ∈ keys.insertIdx pos key, x = key ∨ x ∈ keys)
      ∧ (keys.insertIdx pos key).length = keys.length + 1 := by
  intro keys
  induction keys with
  | nil =>
    intro pos hsort hpos hmem
    have hp0 : pos = 0 := by
      have := hpos.1
      simpa using this
    subst hp0
    refine ⟨by simp, ?_, rfl⟩
    intro x hx
    left
    simpa using hx
  | cons k t ih =>
    intro pos hsort hpos hmem
    rcases List.pairwise_cons.mp hsort with ⟨hk_all, hsort'⟩
    by_cases hk : k < key
    · obtain ⟨p, rfl, hp⟩ := isLB_cons_of_lt hk hpos
      obtain ⟨ihs, ihm, ihl⟩ := ih p hsort' hp fun h => hmem (List.mem_cons_of_mem _ h)
      rw [List.insertIdx_succ_cons]
      refine ⟨?_, ?_, by simp [ihl]⟩
      · rw [List.pairwise_cons]
        refine ⟨?_, ihs⟩
        intro x hx
        rcases ihm x hx with h1 | h1
        · rw [h1]; exact hk
        · exact hk_all x h1
      · intro x hx
        rcases List.mem_cons.mp hx with h1 | h1
        · right; rw [h1]; exact List.mem_cons_self _ _
        · rcases ihm x h1 with h2 | h2
          · left; exact h2
          · right; exact List.mem_cons_of_mem _ h2
    · have hpos0 := isLB_cons_of_ge hk hpos
      subst hpos0
      have hkgt : key < k :=
        lt_of_le_of_ne (not_lt.mp hk) fun h => hmem (h ▸ List.mem_cons_self _ _)
      rw [List.insertIdx_zero]
      refine ⟨?_, ?_, rfl⟩
      · rw [List.pairwise_cons]
        refine ⟨?_, hsort⟩
        intro x hx
        rcases List.mem_cons.mp hx with h1 | h1
        · rw [h1]; exact hkgt
        · exact lt_trans hkgt (hk_all x h1)
      · intro x hx
        rcases List.mem_cons.mp hx with h1 | h1
        · left; exact h1
        · right; exact h1

theorem leafInsert_none_iff {keys : List Int} {recs : List Rec} {key : Int} (r : Rec)
    (hsort : List.Pairwise (· < ·) keys) (hlen : recs.length = keys.length) :
    (leafInsert keys recs key r = none ↔ key ∈ keys) := by
  have hcond := dupCond_iff_mem hsort (binSearch_isLB keys key hsort)
  show (if binSearch keys key < keys.length ∧ keys.getD (binSearch keys key) 0 = key
      then (none : Option (List Int × List Rec))
      else some (keys.insertIdx (binSearch keys key) key,
        recs.insertIdx (binSearch keys key) r)) = none ↔ _
  by_cases hc : binSearch keys key < keys.length
      ∧ keys.getD (binSearch keys key) 0 = key
  · rw [if_pos hc]
    simp [hcond.mp hc]
  · rw [if_neg hc]
    simp only [reduceCtorEq, false_iff]
    exact fun h => hc (hcond.mpr h)

theorem leafInsert_some {keys : List Int} {recs : List Rec} {key : Int} {r : Rec}
    {ks : List Int} {rs : List Rec}
    (hsort : List.Pairwise (· < ·) keys) (hlen : recs.length = keys.length)
    (hres : leafInsert keys recs key r = some (ks, rs)) :
    ks.zip rs = sortedIns key r (keys.zip recs)
    ∧ List.Pairwise (· < ·) ks
    ∧ (∀ x ∈ ks, x = key ∨ x ∈ keys)
    ∧ ks.length = keys.length + 1
    ∧ rs.length = ks.length := by
  have hmem : key ∉ keys := by
    intro hmem
    rw [(leafInsert_none_iff r hsort hlen).mpr hmem] at hres
    exact Option.noConfusion hres
  have hpos := binSearch_isLB keys key hsort
  have hcond := dupCond_iff_mem hsort hpos
  have hc : ¬ (binSearch keys key < keys.length
      ∧ keys.getD (binSearch keys key) 0 = key) := fun h => hmem (hcond.mp h)
  have hres' : leafInsert keys recs key r
      = some (keys.insertIdx (binSearch keys key) key,
        recs.insertIdx (binSearch keys key) r) := by
    show (if _ ∧ _ then _ else _) = _
    rw [if_neg hc]
  rw [hres'] at hres
  rcases Option.some.inj hres with heq
  rcases Prod.mk.injEq .. ▸ heq with ⟨hks, hrs⟩
  obtain ⟨hs1, hs2, hs3⟩ := insertIdx_sorted keys (binSearch keys key) hsort hpos hmem
  subst hks
  subst hrs
  refine ⟨zip_insertIdx_sortedIns r keys recs _ hsort hlen hpos hmem, hs1, hs2, hs3, ?_⟩
  rw [hs3, length_insertIdx_of_le r recs (binSearch keys key)
    (by have := hpos.1; omega)]
  omega

theorem zip_eraseIdx_eraseKey {key : Int} :
    ∀ (keys : List Int) (recs : List Rec) (pos : Nat),
      recs.length = keys.length →
      (∀ i, i < pos → keys.getD i 0 ≠ key) →
      pos < keys.length → keys.getD pos 0 = key →
      (keys.eraseIdx pos).zip (recs.eraseIdx pos) = eraseKey key (keys.zip recs) := by
  intro keys
  induction keys with
  | nil =>
    intro recs pos hlen hbefore hplen hpk
    simp at hplen
  | cons k t ih =>
    intro recs pos hlen hbefore hplen hpk
    rcases recs with _ | ⟨r0, rs⟩
    · exact absurd hlen (by simp)
    rw [List.length_cons, List.length_cons] at hlen
    cases pos with
    | zero =>
      rw [List.getD_cons_zero] at hpk
      rw [List.zip_cons_cons, eraseKey_cons_of_eq r0 (t.zip rs) hpk]
      rfl
    | succ p =>
      have hkne : ¬ k = key := by simpa using hbefore 0 (by omega)
      rw [List.zip_cons_cons, eraseKey_cons_of_ne r0 (t.zip rs) hkne,
        List.eraseIdx_cons_succ, List.eraseIdx_cons_succ, List.zip_cons_cons,
        ih rs p (by omega) (fun i hi => by simpa using hbefore (i + 1) (by omega))
          (by simpa using hplen) (by simpa using hpk)]

theorem leafDelete_spec {keys : List Int} {recs : List Rec} (key : Int)
    (hsort : List.Pairwise (· < ·) keys) (hlen : recs.length = keys.length) :
    (leafDelete keys recs key).1.zip (leafDelete keys recs key).2.1
        = eraseKey key (keys.zip recs)
    ∧ (leafDelete keys recs key).2.2 = lookupE (keys.zip recs) key
    ∧ List.Pairwise (· < ·) (leafDelete keys recs key).1
    ∧ (∀ x ∈ (leafDelete keys recs key).1, x ∈ keys)
    ∧ (leafDelete keys recs key).2.1.length = (leafDelete keys recs key).1.length := by
  have hpos := binSearch_isLB keys key hsort
  have hcond := dupCond_iff_mem hsort hpos
  have hsearch := leafSearch_pos keys recs (binSearch keys key) hsort hlen hpos
  by_cases hc : binSearch keys key < keys.length
      ∧ keys.getD (binSearch keys key) 0 = key
  · have hres : leafDelete keys recs key
        = (keys.eraseIdx (binSearch keys key), recs.eraseIdx (binSearch keys key),
          recs[binSearch keys key]?) := by
      show (if _ ∧ _ then _ else _) = _
      rw [if_pos hc]
    rw [hres]
    have hsub : List.Sublist (keys.eraseIdx (binSearch keys key)) keys :=
      List.eraseIdx_sublist _ _
    refine ⟨?_, ?_, hsort.sublist hsub, fun x hx => hsub.subset hx, ?_⟩
    · exact zip_eraseIdx_eraseKey keys recs _ hlen
        (fun i hi => ne_of_lt (hpos.2.1 i hi)) hc.1 hc.2
    · rw [← hsearch, if_pos hc]
    · rw [List.length_eraseIdx, List.length_eraseIdx]
      have h1 : binSearch keys key < recs.length := by omega
      simp [hc.1, h1, hlen]
  · have hres : leafDelete keys recs key = (keys, recs, none) := by
      show (if _ ∧ _ then _ else _) = _
      rw [if_neg hc]
    rw [hres]
    have hnm : ∀ p ∈ keys.zip recs, p.1 ≠ key := by
      intro p hp hpk
      exact hc (hcond.mpr (hpk ▸ (List.of_mem_zip hp).1))
    refine ⟨by rw [eraseKey_of_not_mem hnm], ?_, hsort, fun x hx => hx, hlen⟩
    rw [← hsearch, if_neg hc]

/-! ### Structural facts about well-formed trees -/

theorem lbO_of_slbO_le {lo : Option Int} {k x : Int} (h1 : slbO lo k) (h2 : k ≤ x) :
    lbO lo x := by
  cases lo with
  | none => trivial
  | some a => exact le_trans (le_of_lt h1) h2

theorem ubO_of_lt {hi : Option Int} {k x : Int} (h1 : x < k) (h2 : ubO hi k) :
    ubO hi x := by
  cases hi with
  | none => trivial
  | some b => exact lt_trans h1 h2

theorem wf_pos {order h : Nat} {lo hi : Option Int} {n : BNode}
    (hwf : WF order h lo hi n) : 1 ≤ h := by
  cases hwf with
  | leaf hsort hbnd hlen => exact le_refl 1
  | internal hseq => omega

theorem wfseq_length {order h : Nat} :
    ∀ {ks : List Int} {cs : List BNode} {lo hi : Option Int},
      WFSeq order h lo ks cs hi → cs.length = ks.length + 1 := by
  intro ks
  induction ks with
  | nil =>
    intro cs lo hi hseq
    cases hseq with
    | single hc => rfl
  | cons k t ih =>
    intro cs lo hi hseq
    cases hseq with
    | cons hc hslb hub htail =>
      rw [List.length_cons, List.length_cons, ih htail]

theorem wfseq_head {order h : Nat} {ks : List Int} {cs : List BNode}
    {lo hi : Option Int} (hseq : WFSeq order h lo ks cs hi) :
    ∃ c cs' hi', cs = c :: cs' ∧ WF order h lo hi' c := by
  cases hseq with
  | single hc => exact ⟨_, _, _, rfl, hc⟩
  | cons hc hslb hub htail => exact ⟨_, _, _, rfl, hc⟩

theorem entries_leaf (keys : List Int) (recs : List Rec) :
    entries (.leaf keys recs) = keys.zip recs := by
  simp [entries]

theorem entries_internal (keys : List Int) (children : List BNode) :
    entries (.internal keys children) = entriesL children := by
  simp [entries]

theorem entriesL_nil : entriesL [] = [] := by
  simp [entriesL]

theorem entriesL_cons (c : BNode) (cs : List BNode) :
    entriesL (c :: cs) = entries c ++ entriesL cs := by
  simp [entriesL]

theorem entriesL_append : ∀ (l1 l2 : List BNode),
    entriesL (l1 ++ l2) = entriesL l1 ++ entriesL l2 := by
  intro l1 l2
  induction l1 with
  | nil => rw [List.nil_append, entriesL_nil, List.nil_append]
  | cons c cs ih =>
    rw [List.cons_append, entriesL_cons, entriesL_cons, ih, List.append_assoc]

theorem pairwise_zip {keys : List Int} {recs : List Rec}
    (hsort : List.Pairwise (· < ·) keys) :
    List.Pairwise (fun p q : Int × Rec => p.1 < q.1) (keys.zip recs) := by
  induction keys generalizing recs with
  | nil => simp
  | cons k t ih =>
    rcases recs with _ | ⟨r0, rs⟩
    · simp
    rcases List.pairwise_cons.mp hsort with ⟨hk_all, hsort'⟩
    rw [List.zip_cons_cons, List.pairwise_cons]
    refine ⟨?_, ih hsort'⟩
    intro q hq
    exact hk_all q.1 ((List.of_mem_zip hq).1)

theorem wfseq_entries_facts_aux {order h : Nat}
    (ih : ∀ {n : BNode} {lo hi : Option Int}, WF order h lo hi n →
      (∀ p ∈ entries n, lbO lo p.1 ∧ ubO hi p.1)
      ∧ List.Pairwise (fun p q : Int × Rec => p.1 < q.1) (entries n)) :
    ∀ {ks : List Int} {cs : List BNode} {lo hi : Option Int},
      WFSeq order h lo ks cs hi →
      (∀ p ∈ entriesL cs, lbO lo p.1 ∧ ubO hi p.1)
      ∧ List.Pairwise (fun p q : Int × Rec => p.1 < q.1) (entriesL cs) := by
  intro ks
  induction ks with
  | nil =>
    intro cs lo hi hseq
    cases hseq with
    | single hc =>
      rw [entriesL_cons, entriesL_nil, List.append_nil]
      exact ih hc
  | cons k t iht =>
    intro cs lo hi hseq
    cases hseq with
    | cons hc hslb hub htail =>
      obtain ⟨hcb, hcs⟩ := ih hc
      obtain ⟨htb, hts⟩ := iht htail
      rw [entriesL_cons]
      constructor
      · intro p hp
        rcases List.mem_append.mp hp with h1 | h1
        · obtain ⟨hb1, hb2⟩ := hcb p h1
          exact ⟨hb1, ubO_of_lt hb2 hub⟩
        · obtain ⟨hb1, hb2⟩ := htb p h1
          exact ⟨lbO_of_slbO_le hslb hb1, hb2⟩
      · rw [List.pairwise_append]
        refine ⟨hcs, hts, ?_⟩
        intro p hp q hq
        have h1 : p.1 < k := (hcb p hp).2
        have h2 : k ≤ q.1 := (htb q hq).1
        omega

theorem wf_entries_facts {order : Nat} :
    ∀ (h : Nat) {n : BNode} {lo hi : Option Int}, WF order h lo hi n →
      (∀ p ∈ entries n, lbO lo p.1 ∧ ubO hi p.1)
      ∧ List.Pairwise (fun p q : Int × Rec => p.1 < q.1) (entries n) := by
  intro h
  induction h with
  | zero =>
    intro n lo hi hwf
    exact absurd (wf_pos hwf) (by omega)
  | succ h ih =>
    intro n lo hi hwf
    cases hwf with
    | leaf hsort hbnd hlen =>
      rw [entries_leaf]
      exact ⟨fun p hp => hbnd p.1 ((List.of_mem_zip hp).1), pairwise_zip hsort⟩
    | internal hseq =>
      rw [entries_internal]
      exact wfseq_entries_facts_aux ih hseq

theorem wfseq_entries_facts {order h : Nat} {ks : List Int} {cs : List BNode}
    {lo hi : Option Int} (hseq : WFSeq order h lo ks cs hi) :
    (∀ p ∈ entriesL cs, lbO lo p.1 ∧ ubO hi p.1)
    ∧ List.Pairwise (fun p q : Int × Rec => p.1 < q.1) (entriesL cs) :=
  wfseq_entries_facts_aux (wf_entries_facts h) hseq

theorem treeDepth_eq {order : Nat} :
    ∀ (h : Nat) {n : BNode} {lo hi : Option Int}, WF order h lo hi n →
      treeDepth n = h := by
  intro h
  induction h with
  | zero =>
    intro n lo hi hwf
    exact absurd (wf_pos hwf) (by omega)
  | succ h ih =>
    intro n lo hi hwf
    cases hwf with
    | leaf hsort hbnd hlen => rfl
    | internal hseq =>
      obtain ⟨c, cs', hi', hcs, hc⟩ := wfseq_head hseq
      subst hcs
      rw [show treeDepth (.internal _ (c :: cs')) = 1 + treeDepth c from rfl, ih hc]
      omega

theorem depthOKL_nil (d : Nat) : depthOKL [] d = true := by
  simp [depthOKL]

theorem depthOKL_cons (c : BNode) (cs : List BNode) (d : Nat) :
    depthOKL (c :: cs) d = (depthOK c d && depthOKL cs d) := by
  simp [depthOKL]

theorem depthOK_internal (keys : List Int) (children : List BNode) (d : Nat) :
    depthOK (.internal keys children) d
      = (decide (2 ≤ d) && depthOKL children (d - 1)) := by
  simp [depthOK]

theorem depthOKL_aux {order h : Nat}
    (ih : ∀ {n : BNode} {lo hi : Option Int}, WF order h lo hi n → depthOK n h = true) :
    ∀ {ks : List Int} {cs : List BNode} {lo hi : Option Int},
      WFSeq order h lo ks cs hi → depthOKL cs h = true := by
  intro ks
  induction ks with
  | nil =>
    intro cs lo hi hseq
    cases hseq with
    | single hc =>
      rw [depthOKL_cons, ih hc, depthOKL_nil]
      rfl
  | cons k t iht =>
    intro cs lo hi hseq
    cases hseq with
    | cons hc hslb hub htail =>
      rw [depthOKL_cons, ih hc, iht htail]
      rfl

theorem depthOK_of_wf {order : Nat} :
    ∀ (h : Nat) {n : BNode} {lo hi : Option Int}, WF order h lo hi n →
      depthOK n h = true := by
  intro h
  induction h with
  | zero =>
    intro n lo hi hwf
    exact absurd (wf_pos hwf) (by omega)
  | succ h ih =>
    intro n lo hi hwf
    cases hwf with
    | leaf hsort hbnd hlen => rfl
    | internal hseq =>
      obtain ⟨c, cs', hi', hcs, hc⟩ := wfseq_head hseq
      have hh1 : 1 ≤ h := wf_pos hc
      rw [depthOK_internal]
      simp only [Nat.add_sub_cancel]
      rw [depthOKL_aux ih hseq]
      have h2 : 2 ≤ h + 1 := by omega
      simp [h2]

theorem allLeaves_leaf (keys : List Int) (recs : List Rec) :
    allLeaves (.leaf keys recs) = [(keys, recs)] := by
  simp [allLeaves]

theorem allLeaves_internal (keys : List Int) (children : List BNode) :
    allLeaves (.internal keys children) = allLeavesL children := by
  simp [allLeaves]

theorem allLeavesL_nil : allLeavesL [] = [] := by
  simp [allLeavesL]

theorem allLeavesL_cons (c : BNode) (cs : List BNode) :
    allLeavesL (c :: cs) = allLeaves c ++ allLeavesL cs := by
  simp [allLeavesL]

theorem allLeavesL_append : ∀ (l1 l2 : List BNode),
    allLeavesL (l1 ++ l2) = allLeavesL l1 ++ allLeavesL l2 := by
  intro l1 l2
  induction l1 with
  | nil => rw [List.nil_append, allLeavesL_nil, List.nil_append]
  | cons c cs ih =>
    rw [List.cons_append, allLeavesL_cons, allLeavesL_cons, ih, List.append_assoc]

theorem leafChainL_aux {order h : Nat}
    (ih : ∀ {n : BNode} {lo hi : Option Int}, WF order h lo hi n →
      ((allLeaves n).flatMap fun l => l.1.zip l.2) = entries n
      ∧ ((allLeaves n).flatMap fun l => l.1) = (entries n).map Prod.fst) :
    ∀ {ks : List Int} {cs : List BNode} {lo hi : Option Int},
      WFSeq order h lo ks cs hi →
      ((allLeavesL cs).flatMap fun l => l.1.zip l.2) = entriesL cs
      ∧ ((allLeavesL cs).flatMap fun l => l.1) = (entriesL cs).map Prod.fst := by
  intro ks
  induction ks with
  | nil =>
    intro cs lo hi hseq
    cases hseq with
    | single hc =>
      rw [allLeavesL_cons, allLeavesL_nil, List.append_nil, entriesL_cons,
        entriesL_nil, List.append_nil]
      exact ih hc
  | cons k t iht =>
    intro cs lo hi hseq
    cases hseq with
    | cons hc hslb hub htail =>
      obtain ⟨ih1, ih2⟩ := ih hc
      obtain ⟨it1, it2⟩ := iht htail
      rw [allLeavesL_cons, entriesL_cons, List.flatMap_append, List.flatMap_append,
        List.map_append, ih1, ih2, it1, it2]
      exact ⟨rfl, rfl⟩

theorem wf_leaf_chain {order : Nat} :
    ∀ (h : Nat) {n : BNode} {lo hi : Option Int}, WF order h lo hi n →
      ((allLeaves n).flatMap fun l => l.1.zip l.2) = entries n
      ∧ ((allLeaves n).flatMap fun l => l.1) = (entries n).map Prod.fst := by
  intro h
  induction h with
  | zero =>
    intro n lo hi hwf
    exact absurd (wf_pos hwf) (by omega)
  | succ h ih =>
    intro n lo hi hwf
    cases hwf with
    | leaf hsort hbnd hlen =>
      rw [entries_leaf, allLeaves_leaf]
      constructor
      · simp
      · simp [List.map_fst_zip _ _ (le_of_eq hlen.symm)]
    | internal hseq =>
      rw [entries_internal, allLeaves_internal]
      exact leafChainL_aux ih hseq

/-! ### Child selection -/

theorem findChildIdx_nil (key : Int) (cc : Nat) :
    findChildIdx [] key cc = cc - 1 := rfl

theorem findChildIdx_cons_lt {k key : Int} (ks : List Int) (cc : Nat) (h : key < k) :
    findChildIdx (k :: ks) key cc = 0 := by
  simp [findChildIdx, firstGt, h]

theorem findChildIdx_cons_ge {k key : Int} (ks : List Int) {cc : Nat}
    (h : ¬ key < k) (hcc : 1 ≤ cc) :
    findChildIdx (k :: ks) key (cc + 1) = findChildIdx ks key cc + 1 := by
  simp only [findChildIdx, firstGt, if_neg h]
  cases hfg : firstGt key ks with
  | none =>
    simp
    omega
  | some j =>
    simp

theorem searchSeq_aux {order h : Nat} {key : Int}
    (ih : ∀ {n : BNode} {lo hi : Option Int}, WF order h lo hi n →
      lbO lo key → ubO hi key → searchNode key n = lookupE (entries n) key) :
    ∀ {ks : List Int} {cs : List BNode} {lo hi : Option Int},
      WFSeq order h lo ks cs hi → lbO lo key → ubO hi key →
      searchSeq key (findChildIdx ks key cs.length) cs = lookupE (entriesL cs) key := by
  intro ks
  induction ks with
  | nil =>
    intro cs lo hi hseq hlo hhi
    cases hseq with
    | single hc =>
      rw [entriesL_cons, entriesL_nil, List.append_nil,
        show findChildIdx ([] : List Int) key [_].length = 0 from rfl]
      exact ih hc hlo hhi
  | cons k t iht =>
    intro cs lo hi hseq hlo hhi
    cases hseq with
    | cons hc hslb hub htail =>
      rw [entriesL_cons]
      by_cases hk : key < k
      · rw [findChildIdx_cons_lt _ _ hk,
          lookupE_append_left fun p hp =>
            ne_of_gt (lt_of_lt_of_le hk ((wfseq_entries_facts htail).1 p hp).1)]
        exact ih hc hlo hk
      · rw [List.length_cons,
          findChildIdx_cons_ge t hk (by rw [wfseq_length htail]; omega),
          lookupE_append_right fun p hp =>
            ne_of_lt (lt_of_lt_of_le ((wf_entries_facts h hc).1 p hp).2 (not_lt.mp hk))]
        exact iht htail (not_lt.mp hk) hhi

theorem searchNode_eq {order : Nat} {key : Int} :
    ∀ (h : Nat) {n : BNode} {lo hi : Option Int}, WF order h lo hi n →
      lbO lo key → ubO hi key → searchNode key n = lookupE (entries n) key := by
  intro h
  induction h with
  | zero =>
    intro n lo hi hwf
    exact absurd (wf_pos hwf) (by omega)
  | succ h ih =>
    intro n lo hi hwf hlo hhi
    cases hwf with
    | leaf hsort hbnd hlen =>
      rw [entries_leaf]
      exact leafSearch_eq hsort hlen
    | internal hseq =>
      rw [entries_internal]
      exact searchSeq_aux ih hseq hlo hhi

/-! ### Helpers for the insert proof -/

theorem slbO_of_slbO_lt {lo : Option Int} {k x : Int} (h1 : slbO lo k) (h2 : k < x) :
    slbO lo x := by
  cases lo with
  | none => trivial
  | some a => exact lt_trans h1 h2

theorem insertSeq_zero_none {order : Nat} {key : Int} {r : Rec} {c : BNode}
    {cs : List BNode} (hres : insertNode order key r c = none) :
    insertSeq order key r 0 (c :: cs) = none := by
  simp [insertSeq, hres]

theorem insertSeq_zero_some {order : Nat} {key : Int} {r : Rec} {c c1 : BNode}
    {cs : List BNode} {prom : Option (Int × BNode)} {sc : Nat}
    (hres : insertNode order key r c = some (c1, prom, sc)) :
    insertSeq order key r 0 (c :: cs) = some (c1 :: cs, prom, sc) := by
  simp [insertSeq, hres]

theorem insertSeq_succ_none {order : Nat} {key : Int} {r : Rec} {c : BNode}
    {cs : List BNode} {i : Nat} (hres : insertSeq order key r i cs = none) :
    insertSeq order key r (i + 1) (c :: cs) = none := by
  simp [insertSeq, hres]

theorem insertSeq_succ_some {order : Nat} {key : Int} {r : Rec} {c : BNode}
    {cs cs1 : List BNode} {i : Nat} {prom : Option (Int × BNode)} {sc : Nat}
    (hres : insertSeq order key r i cs = some (cs1, prom, sc)) :
    insertSeq order key r (i + 1) (c :: cs) = some (c :: cs1, prom, sc) := by
  simp [insertSeq, hres]

theorem insertNode_leaf_none {order : Nat} {key : Int} {r : Rec}
    {keys : List Int} {recs : List Rec} (hres : leafInsert keys recs key r = none) :
    insertNode order key r (.leaf keys recs) = none := by
  simp [insertNode, hres]

theorem insertNode_leaf_full {order : Nat} {key : Int} {r : Rec}
    {keys ks : List Int} {recs rs : List Rec}
    (hres : leafInsert keys recs key r = some (ks, rs))
    (hfull : order ≤ ks.length) :
    insertNode order key r (.leaf keys recs)
      = some (.leaf (ks.take (ks.length / 2)) (rs.take (ks.length / 2)),
          some ((ks.drop (ks.length / 2)).headD 0,
            .leaf (ks.drop (ks.length / 2)) (rs.drop (ks.length / 2))), 1) := by
  simp [insertNode, hres, hfull]

theorem insertNode_leaf_small {order : Nat} {key : Int} {r : Rec}
    {keys ks : List Int} {recs rs : List Rec}
    (hres : leafInsert keys recs key r = some (ks, rs))
    (hsmall : ¬ order ≤ ks.length) :
    insertNode order key r (.leaf keys recs) = some (.leaf ks rs, none, 0) := by
  simp [insertNode, hres, hsmall]

theorem insertNode_internal_none {order : Nat} {key : Int} {r : Rec}
    {keys : List Int} {children : List BNode}
    (hres : insertSeq order key r (findChildIdx keys key children.length) children
      = none) :
    insertNode order key r (.internal keys children) = none := by
  simp [insertNode, hres]

theorem insertNode_internal_flat {order : Nat} {key : Int} {r : Rec}
    {keys : List Int} {children cs1 : List BNode} {sc : Nat}
    (hres : insertSeq order key r (findChildIdx keys key children.length) children
      = some (cs1, none, sc)) :
    insertNode order key r (.internal keys children)
      = some (.internal keys cs1, none, sc) := by
  simp [insertNode, hres]

theorem insertNode_internal_full {order : Nat} {key : Int} {r : Rec}
    {keys : List Int} {children cs1 : List BNode} {pk : Int} {nn : BNode} {sc : Nat}
    (hres : insertSeq order key r (findChildIdx keys key children.length) children
      = some (cs1, some (pk, nn), sc))
    (hfull : order ≤ (keys.insertIdx (keys.takeWhile fun k => decide (k < pk)).length
        pk).length) :
    insertNode order key r (.internal keys children)
      = some (.internal
          ((keys.insertIdx (keys.takeWhile fun k => decide (k < pk)).length pk).take
            ((keys.insertIdx (keys.takeWhile fun k => decide (k < pk)).length
              pk).length / 2))
          ((cs1.insertIdx ((keys.takeWhile fun k => decide (k < pk)).length + 1)
              nn).take
            ((keys.insertIdx (keys.takeWhile fun k => decide (k < pk)).length
              pk).length / 2 + 1)),
        some ((keys.insertIdx (keys.takeWhile fun k => decide (k < pk)).length
            pk).getD
            ((keys.insertIdx (keys.takeWhile fun k => decide (k < pk)).length
              pk).length / 2) 0,
          .internal
            ((keys.insertIdx (keys.takeWhile fun k => decide (k < pk)).length
                pk).drop
              ((keys.insertIdx (keys.takeWhile fun k => decide (k < pk)).length
                pk).length / 2 + 1))
            ((cs1.insertIdx ((keys.takeWhile fun k => decide (k < pk)).length + 1)
                nn).drop
              ((keys.insertIdx (keys.takeWhile fun k => decide (k < pk)).length
                pk).length / 2 + 1))), sc + 1) := by
  simp [insertNode, hres, hfull]

theorem insertNode_internal_small {order : Nat} {key : Int} {r : Rec}
    {keys : List Int} {children cs1 : List BNode} {pk : Int} {nn : BNode} {sc : Nat}
    (hres : insertSeq order key r (findChildIdx keys key children.length) children
      = some (cs1, some (pk, nn), sc))
    (hsmall : ¬ order ≤ (keys.insertIdx
        (keys.takeWhile fun k => decide (k < pk)).length pk).length) :
    insertNode order key r (.internal keys children)
      = some (.internal
          (keys.insertIdx (keys.takeWhile fun k => decide (k < pk)).length pk)
          (cs1.insertIdx ((keys.takeWhile fun k => decide (k < pk)).length + 1) nn),
        none, sc) := by
  simp [insertNode, hres, hsmall]

theorem sortedIns_append_left {key : Int} {r : Rec} {l2 : List (Int × Rec)}
    (h2 : ∀ p ∈ l2, key < p.1) :
    ∀ l1 : List (Int × Rec), sortedIns key r (l1 ++ l2) = sortedIns key r l1 ++ l2 := by
  intro l1
  induction l1 with
  | nil =>
    cases l2 with
    | nil => rfl
    | cons p t =>
      show sortedIns key r (p :: t) = [(key, r)] ++ (p :: t)
      rw [show sortedIns key r (p :: t)
          = if key < p.1 then (key, r) :: p :: t else p :: sortedIns key r t from rfl,
        if_pos (h2 p (List.mem_cons_self _ _))]
      rfl
  | cons a l1 ih =>
    show (if key < a.1 then (key, r) :: (a :: (l1 ++ l2))
        else a :: sortedIns key r (l1 ++ l2))
      = (if key < a.1 then (key, r) :: a :: l1 else a :: sortedIns key r l1) ++ l2
    by_cases hka : key < a.1
    · rw [if_pos hka, if_pos hka]
      rfl
    · rw [if_neg hka, if_neg hka, List.cons_append, ih]

theorem sortedIns_append_right {key : Int} {r : Rec} {l2 : List (Int × Rec)} :
    ∀ l1 : List (Int × Rec), (∀ p ∈ l1, ¬ key < p.1) →
      sortedIns key r (l1 ++ l2) = l1 ++ sortedIns key r l2 := by
  intro l1
  induction l1 with
  | nil => intro h1; rfl
  | cons a l1 ih =>
    intro h1
    show (if key < a.1 then (key, r) :: (a :: (l1 ++ l2))
        else a :: sortedIns key r (l1 ++ l2)) = a :: (l1 ++ sortedIns key r l2)
    rw [if_neg (h1 a (List.mem_cons_self _ _)),
      ih fun p hp => h1 p (List.mem_cons_of_mem _ hp)]

theorem nodeSizeOK_leaf (order : Nat) (rt : Bool) (keys : List Int) (recs : List Rec) :
    nodeSizeOK order rt (.leaf keys recs)
      = ((rt || decide (minKeys order ≤ keys.length))
          && decide (keys.length ≤ order - 1)) := by
  simp [nodeSizeOK]

theorem nodeSizeOK_internal (order : Nat) (rt : Bool) (keys : List Int)
    (children : List BNode) :
    nodeSizeOK order rt (.internal keys children)
      = ((rt || decide (minKeys order ≤ keys.length))
          && decide (keys.length ≤ order - 1) && nodeSizeOKL order children) := by
  simp [nodeSizeOK]

theorem nodeSizeOKL_nil (order : Nat) : nodeSizeOKL order [] = true := by
  simp [nodeSizeOKL]

theorem nodeSizeOKL_cons (order : Nat) (c : BNode) (cs : List BNode) :
    nodeSizeOKL order (c :: cs)
      = (nodeSizeOK order false c && nodeSizeOKL order cs) := by
  simp [nodeSizeOKL]

theorem nodeSizeOKL_append (order : Nat) : ∀ (l1 l2 : List BNode),
    nodeSizeOKL order (l1 ++ l2) = (nodeSizeOKL order l1 && nodeSizeOKL order l2) := by
  intro l1 l2
  induction l1 with
  | nil => rw [List.nil_append, nodeSizeOKL_nil, Bool.true_and]
  | cons c cs ih =>
    rw [List.cons_append, nodeSizeOKL_cons, nodeSizeOKL_cons, ih, Bool.and_assoc]

theorem insertIdx_eq_take_drop {α : Type} (x : α) :
    ∀ (l : List α) (i : Nat), i ≤ l.length →
      l.insertIdx i x = l.take i ++ x :: l.drop i := by
  intro l
  induction l with
  | nil =>
    intro i hi
    have : i = 0 := by simpa using hi
    subst this
    rfl
  | cons a t ih =>
    intro i hi
    cases i with
    | zero => rfl
    | succ j =>
      rw [List.insertIdx_succ_cons, ih j (by simpa using hi)]
      rfl

theorem headD_drop {α : Type} (d : α) :
    ∀ (l : List α) (i : Nat), (l.drop i).headD d = l.getD i d := by
  intro l
  induction l with
  | nil =>
    intro i
    rw [List.drop_nil]
    cases i <;> rfl
  | cons a t ih =>
    intro i
    cases i with
    | zero => rfl
    | succ j =>
      rw [List.drop_succ_cons, List.getD_cons_succ, ih j]

theorem zip_take_take {α β : Type} :
    ∀ (i : Nat) (l1 : List α) (l2 : List β),
      (l1.take i).zip (l2.take i) = (l1.zip l2).take i := by
  intro i
  induction i with
  | zero => intro l1 l2; rfl
  | succ j ih =>
    intro l1 l2
    cases l1 with
    | nil => simp
    | cons a t =>
      cases l2 with
      | nil => simp
      | cons b t2 => exact congrArg (List.cons (a, b)) (ih t t2)

theorem zip_drop_drop {α β : Type} :
    ∀ (i : Nat) (l1 : List α) (l2 : List β),
      (l1.drop i).zip (l2.drop i) = (l1.zip l2).drop i := by
  intro i
  induction i with
  | zero => intro l1 l2; rfl
  | succ j ih =>
    intro l1 l2
    cases l1 with
    | nil => simp
    | cons a t =>
      cases l2 with
      | nil => simp
      | cons b t2 => exact ih t t2

theorem wfseq_split {order h : Nat} :
    ∀ {ks : List Int} {cs : List BNode} {lo hi : Option Int} (mid : Nat),
      WFSeq order h lo ks cs hi → mid < ks.length →
      WFSeq order h lo (ks.take mid) (cs.take (mid + 1)) (some (ks.getD mid 0))
      ∧ slbO lo (ks.getD mid 0) ∧ ubO hi (ks.getD mid 0)
      ∧ WFSeq order h (some (ks.getD mid 0)) (ks.drop (mid + 1)) (cs.drop (mid + 1)) hi := by
  intro ks
  induction ks with
  | nil =>
    intro cs lo hi mid hseq hmid
    simp at hmid
  | cons k t ih =>
    intro cs lo hi mid hseq hmid
    cases hseq with
    | cons hc hslb hub htail =>
      cases mid with
      | zero => exact ⟨WFSeq.single hc, hslb, hub, htail⟩
      | succ mid =>
        have hmid' : mid < t.length := by simpa using hmid
        obtain ⟨h1, h2, h3, h4⟩ := ih mid htail hmid'
        refine ⟨?_, slbO_of_slbO_lt hslb h2, h3, h4⟩
        exact WFSeq.cons hc hslb h2 h1

/-! ### The sequence-level insert specification -/

theorem insertSeq_aux {order h : Nat} {key : Int} {r : Rec}
    (ihn : ∀ {n : BNode} {lo hi : Option Int}, WF order h lo hi n →
      lbO lo key → ubO hi key →
      (insertNode order key r n = none ↔ ¬ lookupE (entries n) key = none)
      ∧ (∀ n1 sc, insertNode order key r n = some (n1, none, sc) →
          WF order h lo hi n1
          ∧ entries n1 = sortedIns key r (entries n)
          ∧ ∀ rt, nodeSizeOK order rt n = true → nodeSizeOK order rt n1 = true)
      ∧ (∀ n1 pk nn sc, insertNode order key r n = some (n1, some (pk, nn), sc) →
          WF order h lo (some pk) n1 ∧ WF order h (some pk) hi nn
          ∧ slbO lo pk ∧ ubO hi pk
          ∧ entries n1 ++ entries nn = sortedIns key r (entries n)
          ∧ ∀ rt, nodeSizeOK order rt n = true →
              nodeSizeOK order false n1 = true ∧ nodeSizeOK order false nn = true)) :
    ∀ {ks : List Int} {cs : List BNode} {lo hi : Option Int},
      WFSeq order h lo ks cs hi → lbO lo key → ubO hi key →
      (insertSeq order key r (findChildIdx ks key cs.length) cs = none
        ↔ ¬ lookupE (entriesL cs) key = none)
      ∧ (∀ cs1 sc, insertSeq order key r (findChildIdx ks key cs.length) cs
            = some (cs1, none, sc) →
          WFSeq order h lo ks cs1 hi
          ∧ entriesL cs1 = sortedIns key r (entriesL cs)
          ∧ (nodeSizeOKL order cs = true → nodeSizeOKL order cs1 = true)
          ∧ cs1.length = cs.length)
      ∧ (∀ cs1 pk nn sc, insertSeq order key r (findChildIdx ks key cs.length) cs
            = some (cs1, some (pk, nn), sc) →
          slbO lo pk ∧ ubO hi pk
          ∧ WFSeq order h lo
              (ks.insertIdx (ks.takeWhile fun x => decide (x < pk)).length pk)
              (cs1.insertIdx ((ks.takeWhile fun x => decide (x < pk)).length + 1) nn) hi
          ∧ entriesL (cs1.insertIdx
                ((ks.takeWhile fun x => decide (x < pk)).length + 1) nn)
              = sortedIns key r (entriesL cs)
          ∧ (nodeSizeOKL order cs = true →
              nodeSizeOKL order cs1 = true ∧ nodeSizeOK order false nn = true)
          ∧ cs1.length = cs.length
          ∧ (ks.takeWhile fun x => decide (x < pk)).length ≤ ks.length) := by
  intro ks
  induction ks with
  | nil =>
    intro cs lo hi hseq hlo hhi
    cases hseq with
    | single hc =>
      rename_i c
      obtain ⟨hn1, hn2, hn3⟩ := ihn hc hlo hhi
      have hidx : findChildIdx ([] : List Int) key [c].length = 0 := rfl
      have hent : entriesL [c] = entries c := by
        rw [entriesL_cons, entriesL_nil, List.append_nil]
      rw [hidx]
      refine ⟨?_, ?_, ?_⟩
      · rw [hent]
        constructor
        · intro hnone
          cases hres : insertNode order key r c with
          | none => exact hn1.mp hres
          | some v =>
            rcases v with ⟨c1, prom, sc⟩
            rw [insertSeq_zero_some hres] at hnone
            exact Option.noConfusion hnone
        · intro hlook
          rw [insertSeq_zero_none (hn1.mpr hlook)]
      · intro cs1 sc hres1
        cases hres : insertNode order key r c with
        | none =>
          rw [insertSeq_zero_none hres] at hres1
          exact Option.noConfusion hres1
        | some v =>
          rcases v with ⟨c1, prom, sc'⟩
          rw [insertSeq_zero_some hres] at hres1
          injection hres1 with htup
          injection htup with h1 hrest
          injection hrest with h2 h3
          subst h1
          subst h2
          subst h3
          obtain ⟨hwf1, hent1, hsz1⟩ := hn2 c1 sc' hres
          have hent1' : entriesL [c1] = entries c1 := by
            rw [entriesL_cons, entriesL_nil, List.append_nil]
          refine ⟨WFSeq.single hwf1, ?_, ?_, rfl⟩
          · rw [hent, hent1', hent1]
          · intro hok
            rw [nodeSizeOKL_cons, nodeSizeOKL_nil, Bool.and_true] at hok ⊢
            exact hsz1 false hok
      · intro cs1 pk nn sc hres1
        cases hres : insertNode order key r c with
        | none =>
          rw [insertSeq_zero_none hres] at hres1
          exact Option.noConfusion hres1
        | some v =>
          rcases v with ⟨c1, prom, sc'⟩
          rw [insertSeq_zero_some hres] at hres1
          injection hres1 with htup
          injection htup with h1 hrest
          injection hrest with h2 h3
          subst h1
          subst h2
          subst h3
          obtain ⟨hwfL, hwfR, hslb, hub, hentE, hszE⟩ := hn3 c1 pk nn sc' hres
          have htw : (([] : List Int).takeWhile fun x => decide (x < pk)).length = 0 :=
            rfl
          rw [htw]
          have hins1 : ([] : List Int).insertIdx 0 pk = [pk] := rfl
          have hins2 : [c1].insertIdx 1 nn = [c1, nn] := rfl
          rw [hins1, hins2]
          refine ⟨hslb, hub, ?_, ?_, ?_, rfl, by omega⟩
          · exact WFSeq.cons hwfL hslb hub (WFSeq.single hwfR)
          · rw [hent, entriesL_cons, entriesL_cons, entriesL_nil, List.append_nil,
              hentE]
          · intro hok
            rw [nodeSizeOKL_cons, nodeSizeOKL_nil, Bool.and_true] at hok
            obtain ⟨hs1, hs2⟩ := hszE false hok
            constructor
            · rw [nodeSizeOKL_cons, nodeSizeOKL_nil, Bool.and_true]
              exact hs1
            · exact hs2
  | cons k t iht =>
    intro cs lo hi hseq hlo hhi
    cases hseq with
    | cons hc hslb hub htail =>
      rename_i c cs'
      have hlenseq := wfseq_length htail
      by_cases hk : key < k
      · rw [findChildIdx_cons_lt t ((c :: cs').length) hk]
        obtain ⟨hn1, hn2, hn3⟩ := ihn hc hlo hk
        have htailgt : ∀ p ∈ entriesL cs', key < p.1 := fun p hp =>
          lt_of_lt_of_le hk ((wfseq_entries_facts htail).1 p hp).1
        have htailne : ∀ p ∈ entriesL cs', ¬ p.1 = key := fun p hp =>
          ne_of_gt (htailgt p hp)
        have hlk : lookupE (entriesL (c :: cs')) key = lookupE (entries c) key := by
          rw [entriesL_cons, lookupE_append_left htailne]
        refine ⟨?_, ?_, ?_⟩
        · rw [hlk]
          constructor
          · intro hnone
            cases hres : insertNode order key r c with
            | none => exact hn1.mp hres
            | some v =>
              rcases v with ⟨c1, prom, sc⟩
              rw [insertSeq_zero_some hres] at hnone
              exact Option.noConfusion hnone
          · intro hlook
            rw [insertSeq_zero_none (hn1.mpr hlook)]
        · intro cs1 sc hres1
          cases hres : insertNode order key r c with
          | none =>
            rw [insertSeq_zero_none hres] at hres1
            exact Option.noConfusion hres1
          | some v =>
            rcases v with ⟨c1, prom, sc'⟩
            rw [insertSeq_zero_some hres] at hres1
            injection hres1 with htup
            injection htup with h1 hrest
            injection hrest with h2 h3
            subst h1
            subst h2
            subst h3
            obtain ⟨hwf1, hent1, hsz1⟩ := hn2 c1 sc' hres
            refine ⟨WFSeq.cons hwf1 hslb hub htail, ?_, ?_, rfl⟩
            · rw [entriesL_cons, entriesL_cons, hent1, sortedIns_append_left htailgt]
            · intro hok
              rw [nodeSizeOKL_cons, Bool.and_eq_true] at hok
              rw [nodeSizeOKL_cons, hsz1 false hok.1, hok.2]
              rfl
        · intro cs1 pk nn sc hres1
          cases hres : insertNode order key r c with
          | none =>
            rw [insertSeq_zero_none hres] at hres1
            exact Option.noConfusion hres1
          | some v =>
            rcases v with ⟨c1, prom, sc'⟩
            rw [insertSeq_zero_some hres] at hres1
            injection hres1 with htup
            injection htup with h1 hrest
            injection hrest with h2 h3
            subst h1
            subst h2
            subst h3
            obtain ⟨hwfL, hwfR, hslbp, hubp, hentE, hszE⟩ := hn3 c1 pk nn sc' hres
            have hpkk : pk < k := hubp
            have htw : ((k :: t).takeWhile fun x => decide (x < pk)).length = 0 := by
              rw [List.takeWhile_cons_of_neg (by simp [not_lt.mpr (le_of_lt hpkk)])]
              rfl
            rw [htw]
            have hins1 : (k :: t).insertIdx 0 pk = pk :: k :: t := rfl
            have hins2 : (c1 :: cs').insertIdx 1 nn = c1 :: nn :: cs' := rfl
            rw [hins1, hins2]
            refine ⟨hslbp, ubO_of_lt hpkk hub, ?_, ?_, ?_, rfl, by omega⟩
            · exact WFSeq.cons hwfL hslbp (ubO_of_lt hpkk hub)
                (WFSeq.cons hwfR hpkk hub htail)
            · rw [entriesL_cons, entriesL_cons, entriesL_cons, ← List.append_assoc,
                hentE, sortedIns_append_left htailgt]
            · intro hok
              rw [nodeSizeOKL_cons, Bool.and_eq_true] at hok
              obtain ⟨hs1, hs2⟩ := hszE false hok.1
              refine ⟨?_, hs2⟩
              rw [nodeSizeOKL_cons, hs1, hok.2]
              rfl
      · have hkk : lbO (some k) key := not_lt.mp hk
        obtain ⟨it1, it2, it3⟩ := iht htail hkk hhi
        have hheadlt : ∀ p ∈ entries c, ¬ key < p.1 := fun p hp =>
          not_lt.mpr (le_of_lt (lt_of_lt_of_le ((wf_entries_facts h hc).1 p hp).2
            (not_lt.mp hk)))
        have hheadne : ∀ p ∈ entries c, ¬ p.1 = key := fun p hp =>
          ne_of_lt (lt_of_lt_of_le ((wf_entries_facts h hc).1 p hp).2 (not_lt.mp hk))
        rw [List.length_cons, findChildIdx_cons_ge t hk (by omega)]
        refine ⟨?_, ?_, ?_⟩
        · rw [entriesL_cons, lookupE_append_right hheadne]
          constructor
          · intro hnone
            cases hres : insertSeq order key r (findChildIdx t key cs'.length) cs' with
            | none => exact it1.mp hres
            | some v =>
              rcases v with ⟨cs1', prom, sc⟩
              rw [insertSeq_succ_some hres] at hnone
              exact Option.noConfusion hnone
          · intro hlook
            rw [insertSeq_succ_none (it1.mpr hlook)]
        · intro cs1 sc hres1
          cases hres : insertSeq order key r (findChildIdx t key cs'.length) cs' with
          | none =>
            rw [insertSeq_succ_none hres] at hres1
            exact Option.noConfusion hres1
          | some v =>
            rcases v with ⟨cs1', prom, sc'⟩
            rw [insertSeq_succ_some hres] at hres1
            injection hres1 with htup
            injection htup with h1 hrest
            injection hrest with h2 h3
            subst h1
            subst h2
            subst h3
            obtain ⟨hwfs, hents, hszs, hlens⟩ := it2 cs1' sc' hres
            refine ⟨WFSeq.cons hc hslb hub hwfs, ?_, ?_, by simp [hlens]⟩
            · rw [entriesL_cons, entriesL_cons, hents,
                sortedIns_append_right (entries c) hheadlt]
            · intro hok
              rw [nodeSizeOKL_cons, Bool.and_eq_true] at hok
              rw [nodeSizeOKL_cons, hok.1, hszs hok.2]
              rfl
        · intro cs1 pk nn sc hres1
          cases hres : insertSeq order key r (findChildIdx t key cs'.length) cs' with
          | none =>
            rw [insertSeq_succ_none hres] at hres1
            exact Option.noConfusion hres1
          | some v =>
            rcases v with ⟨cs1', prom, sc'⟩
            rw [insertSeq_succ_some hres] at hres1
            injection hres1 with htup
            injection htup with h1 hrest
            injection hrest with h2 h3
            subst h1
            subst h2
            subst h3
            obtain ⟨islb, iub, iwf, ient, isz, ilen, ipos⟩ := it3 cs1' pk nn sc' hres
            have hkpk : k < pk := islb
            have htw : ((k :: t).takeWhile fun x => decide (x < pk)).length
                = (t.takeWhile fun x => decide (x < pk)).length + 1 := by
              rw [List.takeWhile_cons_of_pos (by simp [hkpk])]
              rfl
            rw [htw]
            have hins1 : (k :: t).insertIdx
                ((t.takeWhile fun x => decide (x < pk)).length + 1) pk
                = k :: t.insertIdx (t.takeWhile fun x => decide (x < pk)).length pk :=
              rfl
            have hins2 : (c :: cs1').insertIdx
                ((t.takeWhile fun x => decide (x < pk)).length + 1 + 1) nn
                = c :: cs1'.insertIdx
                    ((t.takeWhile fun x => decide (x < pk)).length + 1) nn := rfl
            rw [hins1, hins2]
            refine ⟨slbO_of_slbO_lt hslb hkpk, iub, ?_, ?_, ?_, by simp [ilen], ?_⟩
            · exact WFSeq.cons hc hslb hub iwf
            · rw [entriesL_cons, entriesL_cons, ient,
                sortedIns_append_right (entries c) hheadlt]
            · intro hok
              rw [nodeSizeOKL_cons, Bool.and_eq_true] at hok
              obtain ⟨hs1, hs2⟩ := isz hok.2
              refine ⟨?_, hs2⟩
              rw [nodeSizeOKL_cons, hok.1, hs1]
              rfl
            · rw [List.length_cons]
              omega

/-! ### The node-level insert specification -/

theorem insertNode_spec {order : Nat} (hord : 3 ≤ order) {key : Int} {r : Rec} :
    ∀ (h : Nat) {n : BNode} {lo hi : Option Int}, WF order h lo hi n →
      lbO lo key → ubO hi key →
      (insertNode order key r n = none ↔ ¬ lookupE (entries n) key = none)
      ∧ (∀ n1 sc, insertNode order key r n = some (n1, none, sc) →
          WF order h lo hi n1
          ∧ entries n1 = sortedIns key r (entries n)
          ∧ ∀ rt, nodeSizeOK order rt n = true → nodeSizeOK order rt n1 = true)
      ∧ (∀ n1 pk nn sc, insertNode order key r n = some (n1, some (pk, nn), sc) →
          WF order h lo (some pk) n1 ∧ WF order h (some pk) hi nn
          ∧ slbO lo pk ∧ ubO hi pk
          ∧ entries n1 ++ entries nn = sortedIns key r (entries n)
          ∧ ∀ rt, nodeSizeOK order rt n = true →
              nodeSizeOK order false n1 = true ∧ nodeSizeOK order false nn = true) := by
  intro h
  induction h with
  | zero =>
    intro n lo hi hwf
    exact absurd (wf_pos hwf) (by omega)
  | succ h ih =>
    intro n lo hi hwf hlo hhi
    cases hwf with
    | leaf hsort hbnd hlen =>
      rename_i keys recs
      cases hli : leafInsert keys recs key r with
      | none =>
        have hmem := (leafInsert_none_iff r hsort hlen).mp hli
        have hlookup_some : ¬ lookupE (keys.zip recs) key = none := by
          have := (lookupE_zip_isSome_iff hlen).mpr hmem
          rw [Option.isSome_iff_ne_none] at this
          exact this
        refine ⟨?_, ?_, ?_⟩
        · rw [insertNode_leaf_none hli, entries_leaf]
          exact ⟨fun _ => hlookup_some, fun _ => rfl⟩
        · intro n1 sc hres
          rw [insertNode_leaf_none hli] at hres
          exact Option.noConfusion hres
        · intro n1 pk nn sc hres
          rw [insertNode_leaf_none hli] at hres
          exact Option.noConfusion hres
      | some v =>
        rcases v with ⟨ks1, rs1⟩
        obtain ⟨hzip, hsort1, hmem1, hlen1, hrlen1⟩ := leafInsert_some hsort hlen hli
        have hmem : key ∉ keys := by
          intro hm
          rw [(leafInsert_none_iff r hsort hlen).mpr hm] at hli
          exact Option.noConfusion hli
        have hlooknone : lookupE (keys.zip recs) key = none := by
          rw [lookupE_eq_none_iff]
          intro p hp hpk
          exact hmem (hpk ▸ (List.of_mem_zip hp).1)
        have hbnd1 : ∀ x ∈ ks1, lbO lo x ∧ ubO hi x := by
          intro x hx
          rcases hmem1 x hx with h1 | h1
          · subst h1
            exact ⟨hlo, hhi⟩
          · exact hbnd x h1
        by_cases hfull : order ≤ ks1.length
        · have hmidlt : ks1.length / 2 < ks1.length := by omega
          have hmid1 : 1 ≤ ks1.length / 2 := by omega
          have hpk : (ks1.drop (ks1.length / 2)).headD 0
              = ks1.getD (ks1.length / 2) 0 := headD_drop 0 ks1 _
          refine ⟨?_, ?_, ?_⟩
          · rw [insertNode_leaf_full hli hfull, entries_leaf]
            constructor
            · intro hcon
              exact Option.noConfusion hcon
            · intro hlook
              exact absurd hlooknone hlook
          · intro n1 sc hres
            rw [insertNode_leaf_full hli hfull] at hres
            injection hres with htup
            injection htup with h1 hrest
            injection hrest with h2 h3
            exact Option.noConfusion h2
          · intro n1 pk nn sc hres
            rw [insertNode_leaf_full hli hfull] at hres
            injection hres with htup
            injection htup with h1 hrest
            injection hrest with h2 h3
            injection h2 with h4
            injection h4 with h5 h6
            subst h1
            subst h5
            subst h6
            rw [hpk]
            have hTD : List.Pairwise (· < ·)
                (ks1.take (ks1.length / 2) ++ ks1.drop (ks1.length / 2)) := by
              rw [List.take_append_drop]
              exact hsort1
            rw [List.pairwise_append] at hTD
            obtain ⟨hTsort, hDsort, hcross⟩ := hTD
            obtain ⟨rest, hdropeq⟩ : ∃ rest,
                ks1.drop (ks1.length / 2) = ks1.getD (ks1.length / 2) 0 :: rest := by
              cases hde : ks1.drop (ks1.length / 2) with
              | nil =>
                have h9 := congrArg List.length hde
                rw [List.length_drop, List.length_nil] at h9
                omega
              | cons a rest =>
                have ha : a = ks1.getD (ks1.length / 2) 0 := by
                  have h7 := headD_drop 0 ks1 (ks1.length / 2)
                  rw [hde] at h7
                  simpa using h7
                exact ⟨rest, by rw [ha]⟩
            have hpkmem : ks1.getD (ks1.length / 2) 0 ∈ ks1.drop (ks1.length / 2) := by
              rw [hdropeq]
              exact List.mem_cons_self _ _
            have hpkmem1 : ks1.getD (ks1.length / 2) 0 ∈ ks1 :=
              (List.drop_sublist _ _).subset hpkmem
            obtain ⟨x0, hx0mem⟩ : ∃ x0, x0 ∈ ks1.take (ks1.length / 2) := by
              cases hte : ks1.take (ks1.length / 2) with
              | nil =>
                have h9 := congrArg List.length hte
                rw [List.length_take, List.length_nil,
                  Nat.min_eq_left (le_of_lt hmidlt)] at h9
                omega
              | cons a rest => exact ⟨a, List.mem_cons_self _ _⟩
            have hx0pk : x0 < ks1.getD (ks1.length / 2) 0 := hcross x0 hx0mem _ hpkmem
            have hx0lb : lbO lo x0 := (hbnd1 x0 ((List.take_sublist _ _).subset hx0mem)).1
            have hslbpk : slbO lo (ks1.getD (ks1.length / 2) 0) := by
              cases lo with
              | none => trivial
              | some a => exact lt_of_le_of_lt hx0lb hx0pk
            have hubpk : ubO hi (ks1.getD (ks1.length / 2) 0) := (hbnd1 _ hpkmem1).2
            have hwfL : WF order 1 lo (some (ks1.getD (ks1.length / 2) 0))
                (.leaf (ks1.take (ks1.length / 2)) (rs1.take (ks1.length / 2))) := by
              refine WF.leaf hTsort ?_ ?_
              · intro x hx
                exact ⟨(hbnd1 x ((List.take_sublist _ _).subset hx)).1,
                  hcross x hx _ hpkmem⟩
              · rw [List.length_take, List.length_take, hrlen1, hlen1]
            have hwfR : WF order 1 (some (ks1.getD (ks1.length / 2) 0)) hi
                (.leaf (ks1.drop (ks1.length / 2)) (rs1.drop (ks1.length / 2))) := by
              refine WF.leaf hDsort ?_ ?_
              · intro x hx
                refine ⟨?_, (hbnd1 x ((List.drop_sublist _ _).subset hx)).2⟩
                rw [hdropeq] at hx
                rcases List.mem_cons.mp hx with h1 | h1
                · exact le_of_eq h1.symm
                · rw [hdropeq] at hDsort
                  exact le_of_lt ((List.pairwise_cons.mp hDsort).1 x h1)
              · rw [List.length_drop, List.length_drop, hrlen1, hlen1]
            refine ⟨hwfL, hwfR, hslbpk, hubpk, ?_, ?_⟩
            · rw [entries_leaf, entries_leaf, entries_leaf, zip_take_take,
                zip_drop_drop, List.take_append_drop, hzip]
            · intro rt hok
              rw [nodeSizeOK_leaf] at hok
              rw [Bool.and_eq_true, decide_eq_true_eq] at hok
              have hup : keys.length ≤ order - 1 := hok.2
              have hexact : ks1.length = order := by omega
              constructor
              · rw [nodeSizeOK_leaf]
                simp only [Bool.false_or, List.length_take, Bool.and_eq_true,
                  decide_eq_true_eq, minKeys]
                constructor
                · rw [Nat.min_eq_left (le_of_lt hmidlt)]
                  omega
                · rw [Nat.min_eq_left (le_of_lt hmidlt)]
                  omega
              · rw [nodeSizeOK_leaf]
                simp only [Bool.false_or, List.length_drop, Bool.and_eq_true,
                  decide_eq_true_eq, minKeys]
                omega
        · refine ⟨?_, ?_, ?_⟩
          · rw [insertNode_leaf_small hli hfull, entries_leaf]
            constructor
            · intro hcon
              exact Option.noConfusion hcon
            · intro hlook
              exact absurd hlooknone hlook
          · intro n1 sc hres
            rw [insertNode_leaf_small hli hfull] at hres
            injection hres with htup
            injection htup with h1 hrest
            injection hrest with h2 h3
            subst h1
            refine ⟨WF.leaf hsort1 hbnd1 (by omega), ?_, ?_⟩
            · rw [entries_leaf, entries_leaf, hzip]
            · intro rt hok
              rw [nodeSizeOK_leaf] at hok ⊢
              simp only [Bool.and_eq_true, Bool.or_eq_true, decide_eq_true_eq,
                minKeys] at hok ⊢
              obtain ⟨h1, h2⟩ := hok
              refine ⟨?_, by omega⟩
              rcases h1 with h1 | h1
              · left
                exact h1
              · right
                omega
          · intro n1 pk nn sc hres
            rw [insertNode_leaf_small hli hfull] at hres
            injection hres with htup
            injection htup with h1 hrest
            injection hrest with h2 h3
            exact Option.noConfusion h2
    | internal hseq =>
      rename_i keys children
      obtain ⟨is1, is2, is3⟩ := insertSeq_aux ih hseq hlo hhi
      cases hres : insertSeq order key r (findChildIdx keys key children.length)
          children with
      | none =>
        refine ⟨?_, ?_, ?_⟩
        · rw [insertNode_internal_none hres, entries_internal]
          exact ⟨fun _ => is1.mp hres, fun _ => rfl⟩
        · intro n1 sc hres1
          rw [insertNode_internal_none hres] at hres1
          exact Option.noConfusion hres1
        · intro n1 pk nn sc hres1
          rw [insertNode_internal_none hres] at hres1
          exact Option.noConfusion hres1
      | some v =>
        rcases v with ⟨cs1, prom, sc'⟩
        have hlooknone : lookupE (entriesL children) key = none := by
          by_contra hcon
          rw [is1.mpr hcon] at hres
          exact Option.noConfusion hres
        cases prom with
        | none =>
          obtain ⟨hwfs, hents, hszs, hlens⟩ := is2 cs1 sc' hres
          refine ⟨?_, ?_, ?_⟩
          · rw [insertNode_internal_flat hres, entries_internal]
            constructor
            · intro hcon
              exact Option.noConfusion hcon
            · intro hlook
              exact absurd hlooknone hlook
          · intro n1 sc hres1
            rw [insertNode_internal_flat hres] at hres1
            injection hres1 with htup
            injection htup with h1 hrest
            injection hrest with h2 h3
            subst h1
            refine ⟨WF.internal hwfs, ?_, ?_⟩
            · rw [entries_internal, entries_internal, hents]
            · intro rt hok
              rw [nodeSizeOK_internal] at hok ⊢
              rw [Bool.and_eq_true, Bool.and_eq_true] at hok
              obtain ⟨⟨hk1, hk2⟩, hk3⟩ := hok
              rw [hk1, hk2, hszs hk3]
              rfl
          · intro n1 pk nn sc hres1
            rw [insertNode_internal_flat hres] at hres1
            injection hres1 with htup
            injection htup with h1 hrest
            injection hrest with h2 h3
            exact Option.noConfusion h2
        | some pr =>
          rcases pr with ⟨pk, nn⟩
          obtain ⟨islb, iub, iwf, ient, isz, ilen, ipos⟩ := is3 cs1 pk nn sc' hres
          have hcslen := wfseq_length hseq
          have hklen : (keys.insertIdx
              (keys.takeWhile fun x => decide (x < pk)).length pk).length
              = keys.length + 1 :=
            length_insertIdx_of_le pk keys _ ipos
          have hc1len : (cs1.insertIdx
              ((keys.takeWhile fun x => decide (x < pk)).length + 1) nn).length
              = cs1.length + 1 :=
            length_insertIdx_of_le nn cs1 _ (by omega)
          by_cases hfull : order ≤ (keys.insertIdx
              (keys.takeWhile fun x => decide (x < pk)).length pk).length
          · refine ⟨?_, ?_, ?_⟩
            · rw [insertNode_internal_full hres hfull, entries_internal]
              constructor
              · intro hcon
                exact Option.noConfusion hcon
              · intro hlook
                exact absurd hlooknone hlook
            · intro n1 sc hres1
              rw [insertNode_internal_full hres hfull] at hres1
              injection hres1 with htup
              injection htup with h1 hrest
              injection hrest with h2 h3
              exact Option.noConfusion h2
            · intro n1 pk' nn' sc hres1
              rw [insertNode_internal_full hres hfull] at hres1
              injection hres1 with htup
              injection htup with h1 hrest
              injection hrest with h2 h3
              injection h2 with h4
              injection h4 with h5 h6
              subst h1
              subst h5
              subst h6
              set pos := (keys.takeWhile fun x => decide (x < pk)).length with hposdef
              set ks2 := keys.insertIdx pos pk with hks2def
              set cs2 := cs1.insertIdx (pos + 1) nn with hcs2def
              set mid := ks2.length / 2 with hmiddef
              have hmidlt : mid < ks2.length := by omega
              obtain ⟨hsL, hsslb, hsub, hsR⟩ := wfseq_split mid iwf hmidlt
              refine ⟨WF.internal hsL, WF.internal hsR, hsslb, hsub, ?_, ?_⟩
              · rw [entries_internal, entries_internal, entries_internal,
                  ← entriesL_append, List.take_append_drop, ient]
              · intro rt hok
                rw [nodeSizeOK_internal] at hok
                rw [Bool.and_eq_true, Bool.and_eq_true] at hok
                obtain ⟨⟨hk1, hk2⟩, hk3⟩ := hok
                rw [decide_eq_true_eq] at hk2
                obtain ⟨hcs1ok, hnnok⟩ := isz hk3
                have hexact : ks2.length = order := by omega
                have hcs2ok : nodeSizeOKL order cs2 = true := by
                  rw [hcs2def, insertIdx_eq_take_drop nn cs1 (pos + 1) (by omega),
                    nodeSizeOKL_append, nodeSizeOKL_cons]
                  have hsplit2 : nodeSizeOKL order (cs1.take (pos + 1)) = true
                      ∧ nodeSizeOKL order (cs1.drop (pos + 1)) = true := by
                    have h9 := hcs1ok
                    rw [← List.take_append_drop (pos + 1) cs1, nodeSizeOKL_append,
                      Bool.and_eq_true] at h9
                    exact h9
                  rw [hsplit2.1, hsplit2.2, hnnok]
                  rfl
                have htok : nodeSizeOKL order (cs2.take (mid + 1)) = true
                    ∧ nodeSizeOKL order (cs2.drop (mid + 1)) = true := by
                  have h9 := hcs2ok
                  rw [← List.take_append_drop (mid + 1) cs2, nodeSizeOKL_append,
                    Bool.and_eq_true] at h9
                  exact h9
                constructor
                · rw [nodeSizeOK_internal, htok.1]
                  simp only [Bool.false_or, List.length_take, Bool.and_true,
                    Bool.and_eq_true, decide_eq_true_eq, minKeys]
                  rw [Nat.min_eq_left (le_of_lt hmidlt)]
                  constructor
                  · omega
                  · omega
                · rw [nodeSizeOK_internal, htok.2]
                  simp only [Bool.false_or, List.length_drop, Bool.and_true,
                    Bool.and_eq_true, decide_eq_true_eq, minKeys]
                  constructor
                  · omega
                  · omega
          · refine ⟨?_, ?_, ?_⟩
            · rw [insertNode_internal_small hres hfull, entries_internal]
              constructor
              · intro hcon
                exact Option.noConfusion hcon
              · intro hlook
                exact absurd hlooknone hlook
            · intro n1 sc hres1
              rw [insertNode_internal_small hres hfull] at hres1
              injection hres1 with htup
              injection htup with h1 hrest
              injection hrest with h2 h3
              subst h1
              refine ⟨WF.internal iwf, ?_, ?_⟩
              · rw [entries_internal, entries_internal, ient]
              · intro rt hok
                rw [nodeSizeOK_internal] at hok
                rw [Bool.and_eq_true, Bool.and_eq_true] at hok
                obtain ⟨⟨hk1, hk2⟩, hk3⟩ := hok
                rw [decide_eq_true_eq] at hk2
                obtain ⟨hcs1ok, hnnok⟩ := isz hk3
                have hcs2ok : nodeSizeOKL order
                    (cs1.insertIdx
                      ((keys.takeWhile fun x => decide (x < pk)).length + 1) nn)
                    = true := by
                  rw [insertIdx_eq_take_drop nn cs1 _ (by omega),
                    nodeSizeOKL_append, nodeSizeOKL_cons]
                  have hsplit2 : nodeSizeOKL order (cs1.take
                        ((keys.takeWhile fun x => decide (x < pk)).length + 1)) = true
                      ∧ nodeSizeOKL order (cs1.drop
                        ((keys.takeWhile fun x => decide (x < pk)).length + 1))
                        = true := by
                    have h9 := hcs1ok
                    rw [← List.take_append_drop
                        ((keys.takeWhile fun x => decide (x < pk)).length + 1) cs1,
                      nodeSizeOKL_append, Bool.and_eq_true] at h9
                    exact h9
                  rw [hsplit2.1, hsplit2.2, hnnok]
                  rfl
                rw [nodeSizeOK_internal, hcs2ok]
                simp only [Bool.and_true, Bool.and_eq_true, Bool.or_eq_true,
                  decide_eq_true_eq, minKeys] at hk1 ⊢
                constructor
                · rcases hk1 with h1 | h1
                  · left
                    exact h1
                  · right
                    omega
                · omega
            · intro n1 pk' nn' sc hres1
              rw [insertNode_internal_small hres hfull] at hres1
              injection hres1 with htup
              injection htup with h1 hrest
              injection hrest with h2 h3
              exact Option.noConfusion h2

/-! ### The delete specification -/

theorem eraseKey_append_left {key : Int} {l2 : List (Int × Rec)}
    (h2 : ∀ p ∈ l2, p.1 ≠ key) :
    ∀ l1 : List (Int × Rec), eraseKey key (l1 ++ l2) = eraseKey key l1 ++ l2 := by
  intro l1
  induction l1 with
  | nil =>
    rw [List.nil_append, eraseKey_of_not_mem h2]
    rfl
  | cons a l1 ih =>
    rcases a with ⟨a, b⟩
    by_cases ha : a = key
    · rw [List.cons_append, eraseKey_cons_of_eq b (l1 ++ l2) ha,
        eraseKey_cons_of_eq b l1 ha]
    · rw [List.cons_append, eraseKey_cons_of_ne b (l1 ++ l2) ha,
        eraseKey_cons_of_ne b l1 ha, List.cons_append, ih]

theorem eraseKey_append_right {key : Int} {l1 l2 : List (Int × Rec)}
    (h1 : ∀ p ∈ l1, p.1 ≠ key) :
    eraseKey key (l1 ++ l2) = l1 ++ eraseKey key l2 := by
  induction l1 with
  | nil => rfl
  | cons a l1 ih =>
    rcases a with ⟨a, b⟩
    rw [List.cons_append, eraseKey_cons_of_ne b (l1 ++ l2)
        (h1 (a, b) (List.mem_cons_self _ _)), List.cons_append,
      ih fun q hq => h1 q (List.mem_cons_of_mem _ hq)]

theorem deleteSeq_aux {order h : Nat} {key : Int}
    (ihn : ∀ {n : BNode} {lo hi : Option Int}, WF order h lo hi n →
      lbO lo key → ubO hi key →
      WF order h lo hi (deleteNode key n).1
      ∧ entries (deleteNode key n).1 = eraseKey key (entries n)
      ∧ (deleteNode key n).2 = lookupE (entries n) key) :
    ∀ {ks : List Int} {cs : List BNode} {lo hi : Option Int},
      WFSeq order h lo ks cs hi → lbO lo key → ubO hi key →
      WFSeq order h lo ks (deleteSeq key (findChildIdx ks key cs.length) cs).1 hi
      ∧ entriesL (deleteSeq key (findChildIdx ks key cs.length) cs).1
          = eraseKey key (entriesL cs)
      ∧ (deleteSeq key (findChildIdx ks key cs.length) cs).2
          = lookupE (entriesL cs) key := by
  intro ks
  induction ks with
  | nil =>
    intro cs lo hi hseq hlo hhi
    cases hseq with
    | single hc =>
      rename_i c
      obtain ⟨hw, he, hl⟩ := ihn hc hlo hhi
      have hidx : findChildIdx ([] : List Int) key [c].length = 0 := rfl
      rw [hidx]
      have hd : deleteSeq key 0 [c] = ([(deleteNode key c).1], (deleteNode key c).2) :=
        rfl
      rw [hd]
      refine ⟨WFSeq.single hw, ?_, ?_⟩
      · rw [entriesL_cons, entriesL_nil, List.append_nil, entriesL_cons, entriesL_nil,
          List.append_nil, he]
      · rw [entriesL_cons, entriesL_nil, List.append_nil, hl]
  | cons k t iht =>
    intro cs lo hi hseq hlo hhi
    cases hseq with
    | cons hc hslb hub htail =>
      rename_i c cs'
      have hlenseq := wfseq_length htail
      by_cases hk : key < k
      · rw [findChildIdx_cons_lt t ((c :: cs').length) hk]
        obtain ⟨hw, he, hl⟩ := ihn hc hlo hk
        have htailne : ∀ p ∈ entriesL cs', p.1 ≠ key := fun p hp =>
          ne_of_gt (lt_of_lt_of_le hk ((wfseq_entries_facts htail).1 p hp).1)
        have hd : deleteSeq key 0 (c :: cs')
            = ((deleteNode key c).1 :: cs', (deleteNode key c).2) := rfl
        rw [hd]
        refine ⟨WFSeq.cons hw hslb hub htail, ?_, ?_⟩
        · rw [entriesL_cons, entriesL_cons, he, eraseKey_append_left htailne]
        · rw [entriesL_cons, lookupE_append_left htailne, hl]
      · have hkk : lbO (some k) key := not_lt.mp hk
        obtain ⟨hw, he, hl⟩ := iht htail hkk hhi
        have hheadne : ∀ p ∈ entries c, p.1 ≠ key := fun p hp =>
          ne_of_lt (lt_of_lt_of_le ((wf_entries_facts h hc).1 p hp).2 (not_lt.mp hk))
        rw [List.length_cons, findChildIdx_cons_ge t hk (by omega)]
        have hd : deleteSeq key (findChildIdx t key cs'.length + 1) (c :: cs')
            = (c :: (deleteSeq key (findChildIdx t key cs'.length) cs').1,
              (deleteSeq key (findChildIdx t key cs'.length) cs').2) := rfl
        rw [hd]
        refine ⟨WFSeq.cons hc hslb hub hw, ?_, ?_⟩
        · rw [entriesL_cons, entriesL_cons, he, eraseKey_append_right hheadne]
        · rw [entriesL_cons, lookupE_append_right hheadne, hl]

theorem deleteNode_spec {order : Nat} {key : Int} :
    ∀ (h : Nat) {n : BNode} {lo hi : Option Int}, WF order h lo hi n →
      lbO lo key → ubO hi key →
      WF order h lo hi (deleteNode key n).1
      ∧ entries (deleteNode key n).1 = eraseKey key (entries n)
      ∧ (deleteNode key n).2 = lookupE (entries n) key := by
  intro h
  induction h with
  | zero =>
    intro n lo hi hwf
    exact absurd (wf_pos hwf) (by omega)
  | succ h ih =>
    intro n lo hi hwf hlo hhi
    cases hwf with
    | leaf hsort hbnd hlen =>
      rename_i keys recs
      obtain ⟨hzip, hlook, hsort', hmem', hlen'⟩ := leafDelete_spec key hsort hlen
      have hd : deleteNode key (.leaf keys recs)
          = (.leaf (leafDelete keys recs key).1 (leafDelete keys recs key).2.1,
            (leafDelete keys recs key).2.2) := rfl
      rw [hd]
      refine ⟨?_, ?_, ?_⟩
      · exact WF.leaf hsort' (fun x hx => hbnd x (hmem' x hx)) hlen'
      · rw [entries_leaf, entries_leaf, hzip]
      · rw [entries_leaf, hlook]
    | internal hseq =>
      rename_i keys children
      obtain ⟨hw, he, hl⟩ := deleteSeq_aux ih hseq hlo hhi
      have hd : deleteNode key (.internal keys children)
          = (.internal keys
              (deleteSeq key (findChildIdx keys key children.length) children).1,
            (deleteSeq key (findChildIdx keys key children.length) children).2) := rfl
      rw [hd]
      exact ⟨WF.internal hw, by rw [entries_internal, entries_internal, he],
        by rw [entries_internal, hl]⟩

/-! ### The range scan -/

theorem leavesFromSeq_pre_aux {order h : Nat} {key : Int}
    (ihn : ∀ {n : BNode} {lo hi : Option Int}, WF order h lo hi n →
      lbO lo key → ubO hi key →
      ∃ pre, allLeaves n = pre ++ leavesFrom key n
        ∧ ∀ l ∈ pre, ∀ x ∈ l.1, x < key) :
    ∀ {ks : List Int} {cs : List BNode} {lo hi : Option Int},
      WFSeq order h lo ks cs hi → lbO lo key → ubO hi key →
      ∃ pre, allLeavesL cs
          = pre ++ leavesFromSeq key (findChildIdx ks key cs.length) cs
        ∧ ∀ l ∈ pre, ∀ x ∈ l.1, x < key := by
  intro ks
  induction ks with
  | nil =>
    intro cs lo hi hseq hlo hhi
    cases hseq with
    | single hc =>
      rename_i c
      obtain ⟨pre, hpre, hbound⟩ := ihn hc hlo hhi
      have hidx : findChildIdx ([] : List Int) key [c].length = 0 := rfl
      rw [hidx]
      refine ⟨pre, ?_, hbound⟩
      have hls : leavesFromSeq key 0 [c] = leavesFrom key c ++ allLeavesL [] := rfl
      rw [hls, allLeavesL_nil, List.append_nil, allLeavesL_cons, allLeavesL_nil,
        List.append_nil, hpre]
  | cons k t iht =>
    intro cs lo hi hseq hlo hhi
    cases hseq with
    | cons hc hslb hub htail =>
      rename_i c cs'
      have hlenseq := wfseq_length htail
      by_cases hk : key < k
      · rw [findChildIdx_cons_lt t ((c :: cs').length) hk]
        obtain ⟨pre, hpre, hbound⟩ := ihn hc hlo hk
        refine ⟨pre, ?_, hbound⟩
        have hls : leavesFromSeq key 0 (c :: cs')
            = leavesFrom key c ++ allLeavesL cs' := rfl
        rw [hls, allLeavesL_cons, hpre, List.append_assoc]
      · have hkk : lbO (some k) key := not_lt.mp hk
        obtain ⟨pre, hpre, hbound⟩ := iht htail hkk hhi
        rw [List.length_cons, findChildIdx_cons_ge t hk (by omega)]
        have hls : leavesFromSeq key (findChildIdx t key cs'.length + 1) (c :: cs')
            = leavesFromSeq key (findChildIdx t key cs'.length) cs' := rfl
        rw [hls]
        refine ⟨allLeaves c ++ pre, ?_, ?_⟩
        · rw [allLeavesL_cons, hpre, List.append_assoc]
        · intro l hl x hx
          rcases List.mem_append.mp hl with h1 | h1
          · have hxk : x ∈ (entries c).map Prod.fst := by
              rw [← (wf_leaf_chain h hc).2]
              exact List.mem_flatMap.mpr ⟨l, h1, hx⟩
            rcases List.mem_map.mp hxk with ⟨p, hp, hpx⟩
            have : p.1 < k := ((wf_entries_facts h hc).1 p hp).2
            rw [← hpx]
            exact lt_of_lt_of_le this hkk
          · exact hbound l h1 x hx

theorem leavesFrom_pre {order : Nat} (key : Int) :
    ∀ (h : Nat) {n : BNode} {lo hi : Option Int}, WF order h lo hi n →
      lbO lo key → ubO hi key →
      ∃ pre, allLeaves n = pre ++ leavesFrom key n
        ∧ ∀ l ∈ pre, ∀ x ∈ l.1, x < key := by
  intro h
  induction h with
  | zero =>
    intro n lo hi hwf
    exact absurd (wf_pos hwf) (by omega)
  | succ h ih =>
    intro n lo hi hwf hlo hhi
    cases hwf with
    | leaf hsort hbnd hlen =>
      exact ⟨[], by rw [List.nil_append]; rfl, by simp⟩
    | internal hseq =>
      obtain ⟨pre, hpre, hbound⟩ := leavesFromSeq_pre_aux ih hseq hlo hhi
      refine ⟨pre, ?_, hbound⟩
      rw [allLeaves_internal, hpre]
      rfl

theorem scanPairs_spec (lo hi : Int) :
    ∀ l : List (Int × Rec),
      List.Pairwise (fun p q : Int × Rec => p.1 < q.1) l →
      (scanPairs lo hi l).1
          = (l.filter fun p => decide (lo ≤ p.1) && decide (p.1 ≤ hi)).map Prod.snd
      ∧ ((scanPairs lo hi l).2 = l.any fun p => decide (hi < p.1)) := by
  intro l
  induction l with
  | nil => exact fun _ => ⟨rfl, rfl⟩
  | cons p rest ih =>
    intro hsort
    rcases p with ⟨k, r⟩
    rcases List.pairwise_cons.mp hsort with ⟨hall, hsort'⟩
    obtain ⟨ih1, ih2⟩ := ih hsort'
    by_cases hhk : hi < k
    · have hs : scanPairs lo hi ((k, r) :: rest) = ([], true) := by
        simp [scanPairs, hhk]
      rw [hs]
      constructor
      · symm
        rw [List.map_eq_nil_iff, List.filter_eq_nil_iff]
        intro p hp
        rcases List.mem_cons.mp hp with h1 | h1
        · subst h1
          simp
          intro _
          omega
        · have : k < p.1 := hall p h1
          simp
          intro _
          omega
      · symm
        rw [List.any_eq_true]
        exact ⟨(k, r), List.mem_cons_self _ _, by simpa using hhk⟩
    · have hs : scanPairs lo hi ((k, r) :: rest)
          = if lo ≤ k then (r :: (scanPairs lo hi rest).1, (scanPairs lo hi rest).2)
            else scanPairs lo hi rest := by
        simp [scanPairs, hhk]
      rw [hs]
      by_cases hlk : lo ≤ k
      · rw [if_pos hlk]
        constructor
        · rw [List.filter_cons_of_pos (by simp [hlk]; omega), List.map_cons, ih1]
        · rw [List.any_cons, ih2]
          simp [hhk]
      · rw [if_neg hlk]
        constructor
        · rw [List.filter_cons_of_neg (by simp [hlk]), ih1]
        · rw [List.any_cons, ih2]
          simp [hhk]

theorem scanLeaves_spec (lo hi : Int) :
    ∀ L : List (List Int × List Rec),
      List.Pairwise (fun p q : Int × Rec => p.1 < q.1)
        (L.flatMap fun l => l.1.zip l.2) →
      (scanLeaves lo hi L).1
        = ((L.flatMap fun l => l.1.zip l.2).filter
            fun p => decide (lo ≤ p.1) && decide (p.1 ≤ hi)).map Prod.snd := by
  intro L
  induction L with
  | nil => exact fun _ => rfl
  | cons l0 rest ih =>
    intro hsort
    rcases l0 with ⟨ks, rs⟩
    rw [List.flatMap_cons] at hsort
    rw [List.pairwise_append] at hsort
    obtain ⟨hs1, hs2, hcross⟩ := hsort
    obtain ⟨hp1, hp2⟩ := scanPairs_spec lo hi (ks.zip rs) hs1
    rw [List.flatMap_cons, List.filter_append, List.map_append, ← hp1]
    cases hflag : (scanPairs lo hi (ks.zip rs)).2 with
    | true =>
      have hsl : scanLeaves lo hi ((ks, rs) :: rest) = ((scanPairs lo hi (ks.zip rs)).1, 0) := by
        cases rest with
        | nil => simp [scanLeaves, hflag]
        | cons l2 rest2 => simp [scanLeaves, hflag]
      rw [hsl]
      rw [hflag] at hp2
      rcases List.any_eq_true.mp hp2.symm with ⟨p, hp, hphi⟩
      have hrest : (rest.flatMap fun l => l.1.zip l.2).filter
          (fun p => decide (lo ≤ p.1) && decide (p.1 ≤ hi)) = [] := by
        rw [List.filter_eq_nil_iff]
        intro q hq
        have : p.1 < q.1 := hcross p hp q hq
        simp at hphi ⊢
        intro _
        omega
      rw [hrest, List.map_nil, List.append_nil]
    | false =>
      cases rest with
      | nil =>
        have hsl : scanLeaves lo hi [(ks, rs)] = ((scanPairs lo hi (ks.zip rs)).1, 0) := by
          simp [scanLeaves, hflag]
        rw [hsl]
        rw [show (([] : List (List Int × List Rec)).flatMap fun l => l.1.zip l.2)
            = [] from rfl]
        rw [List.filter_nil, List.map_nil, List.append_nil]
      | cons l2 rest2 =>
        have hsl : scanLeaves lo hi ((ks, rs) :: l2 :: rest2)
            = ((scanPairs lo hi (ks.zip rs)).1 ++ (scanLeaves lo hi (l2 :: rest2)).1,
              (scanLeaves lo hi (l2 :: rest2)).2 + 1) := by
          simp [scanLeaves, hflag]
        rw [hsl, ih hs2]

/-! ### The tree engine: invariant and contents -/

theorem tinv_new (order : Nat) : TInv (BPlusTree.new order) :=
  ⟨le_max_left 3 order, 1, WF.leaf (by simp) (by simp) rfl, rfl⟩

theorem insertT_eq_dup {s : TState} {key : Int} {r : Rec}
    (hres : insertNode s.order key r s.root = none) :
    BPlusTree.insertT s key r = (false, { s with stats :=
      ⟨s.stats.pageReads + (internalsOnPath key s.root + 1), s.stats.pageWrites,
        s.stats.splits, s.stats.merges, s.stats.height⟩ }) := by
  simp [BPlusTree.insertT, hres]

theorem insertT_eq_flat {s : TState} {key : Int} {r : Rec} {n1 : BNode} {sc : Nat}
    (hres : insertNode s.order key r s.root = some (n1, none, sc)) :
    BPlusTree.insertT s key r = (true, { s with
      root := n1,
      stats := ⟨s.stats.pageReads + (internalsOnPath key s.root + 1),
        s.stats.pageWrites + 1 + 2 * sc, s.stats.splits + sc, s.stats.merges,
        s.stats.height⟩ }) := by
  simp [BPlusTree.insertT, hres]

theorem insertT_eq_split {s : TState} {key : Int} {r : Rec} {n1 nn : BNode}
    {pk : Int} {sc : Nat}
    (hres : insertNode s.order key r s.root = some (n1, some (pk, nn), sc)) :
    BPlusTree.insertT s key r = (true, { s with
      root := .internal [pk] [n1, nn],
      stats := ⟨s.stats.pageReads + (internalsOnPath key s.root + 1),
        s.stats.pageWrites + 1 + 2 * sc + 1, s.stats.splits + sc, s.stats.merges,
        s.stats.height + 1⟩ }) := by
  simp [BPlusTree.insertT, hres]

theorem deleteT_eq_none {s : TState} {key : Int}
    (hres : (deleteNode key s.root).2 = none) :
    BPlusTree.deleteT s key = (none, { s with
      root := (deleteNode key s.root).1,
      stats := ⟨s.stats.pageReads + (internalsOnPath key s.root + 1),
        s.stats.pageWrites, s.stats.splits, s.stats.merges, s.stats.height⟩ }) := by
  simp [BPlusTree.deleteT, hres]

theorem deleteT_eq_some {s : TState} {key : Int} {r0 : Rec}
    (hres : (deleteNode key s.root).2 = some r0) :
    BPlusTree.deleteT s key = (some r0, { s with
      root := (deleteNode key s.root).1,
      stats := ⟨s.stats.pageReads + (internalsOnPath key s.root + 1),
        s.stats.pageWrites + 1, s.stats.splits, s.stats.merges, s.stats.height⟩ }) := by
  simp [BPlusTree.deleteT, hres]

theorem rangeT_eq_pos {s : TState} {lo hi : Int} (hl : hi < lo) :
    BPlusTree.rangeT s lo hi = ([], s) := by
  simp [BPlusTree.rangeT, hl]

theorem rangeT_eq_neg {s : TState} {lo hi : Int} (hl : ¬ hi < lo) :
    BPlusTree.rangeT s lo hi = ((scanLeaves lo hi (leavesFrom lo s.root)).1,
      { s with stats := ⟨s.stats.pageReads + (internalsOnPath lo s.root + 1)
          + (scanLeaves lo hi (leavesFrom lo s.root)).2,
        s.stats.pageWrites, s.stats.splits, s.stats.merges, s.stats.height⟩ }) := by
  simp [BPlusTree.rangeT, hl]

theorem insertT_spec {s : TState} (key : Int) (r : Rec) (hinv : TInv s) :
    TInv (BPlusTree.insertT s key r).2
    ∧ (BPlusTree.insertT s key r).2.order = s.order
    ∧ ((BPlusTree.insertT s key r).1 = !(lookupE (entries s.root) key).isSome)
    ∧ ((lookupE (entries s.root) key).isSome = true →
        (BPlusTree.insertT s key r).2.root = s.root)
    ∧ (∀ k, lookupE (entries (BPlusTree.insertT s key r).2.root) k
        = if (lookupE (entries s.root) key).isSome then lookupE (entries s.root) k
          else if k = key then some r else lookupE (entries s.root) k)
    ∧ (nodeSizeOK s.order true s.root = true →
        nodeSizeOK s.order true (BPlusTree.insertT s key r).2.root = true) := by
  obtain ⟨hord, h, hwf, hh⟩ := hinv
  obtain ⟨in1, in2, in3⟩ := insertNode_spec hord h hwf trivial trivial
  cases hres : insertNode s.order key r s.root with
  | none =>
    have hlooks : ¬ lookupE (entries s.root) key = none := in1.mp hres
    have hsome : (lookupE (entries s.root) key).isSome = true := by
      rw [Option.isSome_iff_ne_none]
      exact hlooks
    rw [insertT_eq_dup hres]
    refine ⟨⟨hord, h, hwf, hh⟩, rfl, ?_, fun _ => rfl, ?_, fun hok => hok⟩
    · rw [hsome]
      rfl
    · intro k
      rw [if_pos hsome]
  | some v =>
    rcases v with ⟨n1, prom, sc⟩
    have hlooknone : lookupE (entries s.root) key = none := by
      by_contra hcon
      rw [in1.mpr hcon] at hres
      exact Option.noConfusion hres
    have hnotmem : ∀ p ∈ entries s.root, p.1 ≠ key :=
      (lookupE_eq_none_iff _ _).mp hlooknone
    have hnone : (lookupE (entries s.root) key).isSome = false := by
      rw [hlooknone]
      rfl
    cases prom with
    | none =>
      obtain ⟨hwf1, hent1, hsz1⟩ := in2 n1 sc hres
      rw [insertT_eq_flat hres]
      refine ⟨⟨hord, h, hwf1, hh⟩, rfl, ?_, ?_, ?_, ?_⟩
      · rw [hnone]
        rfl
      · intro hcon
        rw [hcon] at hnone
        exact Bool.noConfusion hnone
      · intro k
        rw [hnone, if_neg (by simp), hent1, lookupE_sortedIns r hnotmem k]
      · intro hok
        exact hsz1 true hok
    | some pr =>
      rcases pr with ⟨pk, nn⟩
      obtain ⟨hwfL, hwfR, hslb, hub, hentE, hszE⟩ := in3 n1 pk nn sc hres
      rw [insertT_eq_split hres]
      have hrooteq : entries (BNode.internal [pk] [n1, nn])
          = sortedIns key r (entries s.root) := by
        rw [entries_internal, entriesL_cons, entriesL_cons, entriesL_nil,
          List.append_nil, hentE]
      refine ⟨⟨hord, h + 1,
        WF.internal (WFSeq.cons hwfL hslb hub (WFSeq.single hwfR)), ?_⟩,
        rfl, ?_, ?_, ?_, ?_⟩
      · show s.stats.height + 1 = h + 1
        rw [hh]
      · rw [hnone]
        rfl
      · intro hcon
        rw [hcon] at hnone
        exact Bool.noConfusion hnone
      · intro k
        rw [hnone, if_neg (by simp), hrooteq, lookupE_sortedIns r hnotmem k]
      · intro hok
        obtain ⟨hs1, hs2⟩ := hszE true hok
        rw [nodeSizeOK_internal, nodeSizeOKL_cons, nodeSizeOKL_cons, nodeSizeOKL_nil,
          hs1, hs2]
        simp only [Bool.true_or, Bool.and_true, Bool.true_and, List.length_cons,
          List.length_nil, Bool.and_eq_true, decide_eq_true_eq]
        omega

theorem deleteT_spec {s : TState} (key : Int) (hinv : TInv s) :
    TInv (BPlusTree.deleteT s key).2
    ∧ (BPlusTree.deleteT s key).2.order = s.order
    ∧ (BPlusTree.deleteT s key).1 = lookupE (entries s.root) key
    ∧ (∀ k, lookupE (entries (BPlusTree.deleteT s key).2.root) k
        = if k = key then none else lookupE (entries s.root) k)
    ∧ (lookupE (entries s.root) key = none →
        entries (BPlusTree.deleteT s key).2.root = entries s.root)
    ∧ (BPlusTree.deleteT s key).2.stats.height = s.stats.height := by
  obtain ⟨hord, h, hwf, hh⟩ := hinv
  obtain ⟨hw, he, hl⟩ := deleteNode_spec h hwf trivial trivial
  have hnd := nodup_fst_of_pairwise (wf_entries_facts h hwf).2
  cases hr2 : (deleteNode key s.root).2 with
  | none =>
    rw [deleteT_eq_none hr2]
    refine ⟨⟨hord, h, hw, hh⟩, rfl, ?_, ?_, ?_, rfl⟩
    · rw [← hl, hr2]
    · intro k
      rw [he, lookupE_eraseKey hnd k]
    · intro hnone
      rw [he, eraseKey_of_not_mem ((lookupE_eq_none_iff _ _).mp hnone)]
  | some r0 =>
    rw [deleteT_eq_some hr2]
    refine ⟨⟨hord, h, hw, hh⟩, rfl, ?_, ?_, ?_, rfl⟩
    · rw [← hl, hr2]
    · intro k
      rw [he, lookupE_eraseKey hnd k]
    · intro hnone
      rw [he, eraseKey_of_not_mem ((lookupE_eq_none_iff _ _).mp hnone)]

theorem searchT_spec {s : TState} (key : Int) (hinv : TInv s) :
    TInv (BPlusTree.searchT s key).2
    ∧ (BPlusTree.searchT s key).2.order = s.order
    ∧ (BPlusTree.searchT s key).2.root = s.root
    ∧ (BPlusTree.searchT s key).1 = lookupE (entries s.root) key
    ∧ (BPlusTree.searchT s key).2.stats.height = s.stats.height := by
  obtain ⟨hord, h, hwf, hh⟩ := hinv
  exact ⟨⟨hord, h, hwf, hh⟩, rfl, rfl, searchNode_eq h hwf trivial trivial, rfl⟩

theorem rangeT_state (s : TState) (lo hi : Int) :
    (BPlusTree.rangeT s lo hi).2.root = s.root
    ∧ (BPlusTree.rangeT s lo hi).2.order = s.order
    ∧ (BPlusTree.rangeT s lo hi).2.stats.height = s.stats.height := by
  by_cases hl : hi < lo
  · rw [rangeT_eq_pos hl]
    exact ⟨rfl, rfl, rfl⟩
  · rw [rangeT_eq_neg hl]
    exact ⟨rfl, rfl, rfl⟩

theorem rangeT_inv {s : TState} (lo hi : Int) (hinv : TInv s) :
    TInv (BPlusTree.rangeT s lo hi).2 := by
  obtain ⟨h1, h2, h3⟩ := rangeT_state s lo hi
  obtain ⟨hord, h, hwf, hh⟩ := hinv
  exact ⟨by rw [h2]; exact hord, h, by rw [h2, h1]; exact hwf, by rw [h3]; exact hh⟩

theorem resetStatsT_spec (s : TState) :
    (BPlusTree.resetStatsT s).root = s.root
    ∧ (BPlusTree.resetStatsT s).order = s.order
    ∧ (BPlusTree.resetStatsT s).stats.height = s.stats.height :=
  ⟨rfl, rfl, rfl⟩

theorem treach_inv {order : Nat} {s : TState} (hr : TReach order s) : TInv s := by
  induction hr with
  | init => exact tinv_new order
  | ins key r hr ih => exact (insertT_spec key r ih).1
  | del key hr ih => exact (deleteT_spec key ih).1
  | srch key hr ih => exact (searchT_spec key ih).1
  | range lo hi hr ih => exact rangeT_inv lo hi ih
  | reset hr ih =>
    obtain ⟨hord, h, hwf, hh⟩ := ih
    exact ⟨hord, h, hwf, hh⟩

theorem runT_spec (ops : List Op) : ∀ (s : TState), TInv s →
    TInv (runT ops s)
    ∧ (runT ops s).order = s.order
    ∧ (fun k => lookupE (entries (runT ops s).root) k)
        = ops.foldl specApply (fun k => lookupE (entries s.root) k) := by
  induction ops with
  | nil =>
    intro s hinv
    exact ⟨hinv, rfl, rfl⟩
  | cons op ops ih =>
    intro s hinv
    cases op with
    | ins key r =>
      obtain ⟨hi1, hi2, hi3, hi4, hi5, hi6⟩ := insertT_spec key r hinv
      obtain ⟨ih1, ih2, ih3⟩ := ih (BPlusTree.insertT s key r).2 hi1
      have hstep : (fun k => lookupE (entries (BPlusTree.insertT s key r).2.root) k)
          = specApply (fun k => lookupE (entries s.root) k) (Op.ins key r) := by
        funext k
        show lookupE (entries (BPlusTree.insertT s key r).2.root) k
            = (if (lookupE (entries s.root) key).isSome
                then fun k => lookupE (entries s.root) k
                else fun k' => if k' = key then some r
                  else lookupE (entries s.root) k') k
        rw [hi5 k]
        by_cases hc : (lookupE (entries s.root) key).isSome = true
        · rw [if_pos hc, if_pos hc]
        · rw [if_neg hc, if_neg hc]
      refine ⟨ih1, by rw [show (runT (Op.ins key r :: ops) s)
          = runT ops (BPlusTree.insertT s key r).2 from rfl, ih2, hi2], ?_⟩
      rw [show runT (Op.ins key r :: ops) s
          = runT ops (BPlusTree.insertT s key r).2 from rfl, ih3, hstep]
      rfl
    | del key =>
      obtain ⟨hd1, hd2, hd3, hd4, hd5, hd6⟩ := deleteT_spec key hinv
      obtain ⟨ih1, ih2, ih3⟩ := ih (BPlusTree.deleteT s key).2 hd1
      have hstep : (fun k => lookupE (entries (BPlusTree.deleteT s key).2.root) k)
          = specApply (fun k => lookupE (entries s.root) k) (Op.del key) := by
        funext k
        show lookupE (entries (BPlusTree.deleteT s key).2.root) k
            = if k = key then none else lookupE (entries s.root) k
        rw [hd4 k]
      refine ⟨ih1, by rw [show (runT (Op.del key :: ops) s)
          = runT ops (BPlusTree.deleteT s key).2 from rfl, ih2, hd2], ?_⟩
      rw [show runT (Op.del key :: ops) s
          = runT ops (BPlusTree.deleteT s key).2 from rfl, ih3, hstep]
      rfl

/-! ### The hash engine: contents across runs -/

theorem lookup_new_none (cap : Nat) (k : Int) : (EHash.new cap).lookup k = none := by
  have h2 : hashK k 1 < 2 := by
    have := hashK_lt k 1
    simpa using this
  rcases (by omega : hashK k 1 = 0 ∨ hashK k 1 = 1) with h | h <;>
    simp [EHash.lookup, EHash.bucketAt, EHash.dirId, EHash.hashIdx, EHash.new, h,
      Bucket.search]

theorem runH_spec (ops : List Op) : ∀ (s : EHash), EHash.Inv s →
    EHash.Inv (runH ops s)
    ∧ (fun k => (runH ops s).lookup k) = ops.foldl specApply (fun k => s.lookup k) := by
  induction ops with
  | nil =>
    intro s hinv
    exact ⟨hinv, rfl⟩
  | cons op ops ih =>
    intro s hinv
    cases op with
    | ins key r =>
      obtain ⟨hi1, hi2, hi3, hi4, hi5⟩ := insert_spec s key r hinv
      obtain ⟨ih1, ih2⟩ := ih (s.insert key r).2 hi1
      have hstep : (fun k => (s.insert key r).2.lookup k)
          = specApply (fun k => s.lookup k) (Op.ins key r) := by
        funext k
        show (s.insert key r).2.lookup k
            = (if (s.lookup key).isSome then fun k => s.lookup k
                else fun k' => if k' = key then some r else s.lookup k') k
        rw [hi5 k]
        by_cases hc : (s.lookup key).isSome = true
        · rw [if_pos hc, if_pos hc]
        · rw [if_neg hc, if_neg hc]
      refine ⟨ih1, ?_⟩
      rw [show runH (Op.ins key r :: ops) s = runH ops (s.insert key r).2 from rfl,
        ih2, hstep]
      rfl
    | del key =>
      obtain ⟨hd1, hd2, hd3, hd4, hd5⟩ := delete_spec s key hinv
      obtain ⟨ih1, ih2⟩ := ih (s.delete key).2 hd1
      have hstep : (fun k => (s.delete key).2.lookup k)
          = specApply (fun k => s.lookup k) (Op.del key) := by
        funext k
        show (s.delete key).2.lookup k = if k = key then none else s.lookup k
        rw [hd5 k]
      refine ⟨ih1, ?_⟩
      rw [show runH (Op.del key :: ops) s = runH ops (s.delete key).2 from rfl,
        ih2, hstep]
      rfl

/-! ### Claim theorems -/

/-- C1: for every sequence of insert/delete operations applied to either
engine, `search(k)` returns the record inserted for `k` when `k` is present
(inserted and not subsequently deleted, duplicates rejected) and `none` for
every key deleted or never inserted — i.e. both engines realise the
reference map `specMap`. -/
theorem index_search_matches_spec (ops : List Op) (order cap : Nat) (key : Int) :
    (BPlusTree.searchT (runT ops (BPlusTree.new order)) key).1 = specMap ops key
    ∧ (EHash.search (runH ops (EHash.new cap)) key).1 = specMap ops key := by
  constructor
  · obtain ⟨hinv, hordeq, hcont⟩ := runT_spec ops (BPlusTree.new order) (tinv_new order)
    rw [(searchT_spec key hinv).2.2.2.1]
    have h1 := congrFun hcont key
    rw [h1]
    rfl
  · obtain ⟨hinvh, hconth⟩ := runH_spec ops (EHash.new cap) (inv_new cap)
    rw [(search_spec _ key hinvh).1]
    have h1 := congrFun hconth key
    rw [h1, show (fun k => (EHash.new cap).lookup k) = (fun _ : Int => (none : Option Rec))
      from funext (lookup_new_none cap)]
    rfl

/-- C2: on every reachable tree state, `range_search(lo, hi)` with `lo ≤ hi`
returns exactly the records of the present keys in `[lo, hi]` in strictly
ascending key order with no duplicates and no omissions, and returns the
empty list when `lo > hi`. -/
theorem bplustree_range_search_exact {order : Nat} {s : TState}
    (hs : TReach order s) (lo hi : Int) :
    (hi < lo → (BPlusTree.rangeT s lo hi).1 = [])
    ∧ (lo ≤ hi →
        (BPlusTree.rangeT s lo hi).1
          = ((entries s.root).filter
              fun p => decide (lo ≤ p.1) && decide (p.1 ≤ hi)).map Prod.snd
        ∧ List.Pairwise (· < ·)
            (((entries s.root).filter
              fun p => decide (lo ≤ p.1) && decide (p.1 ≤ hi)).map Prod.fst)
        ∧ ∀ k, k ∈ ((entries s.root).filter
              fun p => decide (lo ≤ p.1) && decide (p.1 ≤ hi)).map Prod.fst
            ↔ (lo ≤ k ∧ k ≤ hi ∧ (BPlusTree.searchT s k).1.isSome = true)) := by
  obtain ⟨hord, h, hwf, hh⟩ := treach_inv hs
  constructor
  · intro hl
    rw [rangeT_eq_pos hl]
  · intro hle
    have hl : ¬ hi < lo := by omega
    obtain ⟨pre, hpre, hprelt⟩ := leavesFrom_pre lo h hwf trivial trivial
    have hchain := (wf_leaf_chain h hwf).1
    have hsorted := (wf_entries_facts h hwf).2
    have hflat : entries s.root
        = (pre.flatMap fun l => l.1.zip l.2)
          ++ ((leavesFrom lo s.root).flatMap fun l => l.1.zip l.2) := by
      rw [← List.flatMap_append, ← hpre, hchain]
    have hsortLF : List.Pairwise (fun p q : Int × Rec => p.1 < q.1)
        ((leavesFrom lo s.root).flatMap fun l => l.1.zip l.2) := by
      rw [hflat, List.pairwise_append] at hsorted
      exact hsorted.2.1
    have hsorted2 := (wf_entries_facts h hwf).2
    have hscan := scanLeaves_spec lo hi (leavesFrom lo s.root) hsortLF
    have hprefilter : ((pre.flatMap fun l => l.1.zip l.2).filter
        fun p => decide (lo ≤ p.1) && decide (p.1 ≤ hi)) = [] := by
      rw [List.filter_eq_nil_iff]
      intro p hp
      rcases List.mem_flatMap.mp hp with ⟨l, hl2, hpz⟩
      have hplt : p.1 < lo := hprelt l hl2 p.1 ((List.of_mem_zip hpz).1)
      simp only [Bool.and_eq_true, decide_eq_true_eq, not_and]
      intro hcon
      omega
    have hmain : (BPlusTree.rangeT s lo hi).1
        = ((entries s.root).filter
            fun p => decide (lo ≤ p.1) && decide (p.1 ≤ hi)).map Prod.snd := by
      rw [rangeT_eq_neg hl]
      show (scanLeaves lo hi (leavesFrom lo s.root)).1 = _
      rw [hscan]
      conv_rhs => rw [hflat]
      rw [List.filter_append, hprefilter, List.nil_append]
    refine ⟨hmain, ?_, ?_⟩
    · rw [List.pairwise_map]
      exact hsorted2.sublist (List.filter_sublist _)
    · intro k
      constructor
      · intro hk
        rcases List.mem_map.mp hk with ⟨p, hpmem, hpk⟩
        rw [List.mem_filter] at hpmem
        obtain ⟨hpm, hcond⟩ := hpmem
        rw [Bool.and_eq_true, decide_eq_true_eq, decide_eq_true_eq] at hcond
        subst hpk
        refine ⟨hcond.1, hcond.2, ?_⟩
        rw [(searchT_spec p.1 ⟨hord, h, hwf, hh⟩).2.2.2.1, Option.isSome_iff_ne_none]
        intro hnone
        exact (lookupE_eq_none_iff _ _).mp hnone p hpm rfl
      · rintro ⟨hk1, hk2, hk3⟩
        rw [(searchT_spec k ⟨hord, h, hwf, hh⟩).2.2.2.1,
          Option.isSome_iff_ne_none] at hk3
        have hnall : ¬ ∀ p ∈ entries s.root, p.1 ≠ k := fun hall =>
          hk3 ((lookupE_eq_none_iff _ _).mpr hall)
        push_neg at hnall
        rcases hnall with ⟨p, hpm, hpk⟩
        refine List.mem_map.mpr ⟨p, ?_, hpk⟩
        rw [List.mem_filter]
        refine ⟨hpm, ?_⟩
        rw [Bool.and_eq_true, decide_eq_true_eq, decide_eq_true_eq]
        constructor
        · rw [hpk]
          exact hk1
        · rw [hpk]
          exact hk2

/-- C2 witness: the fresh order-4 tree, range `[0, 1]`. -/
theorem bplustree_range_search_exact_witness :
    ((1 : Int) < 0 → (BPlusTree.rangeT (BPlusTree.new 4) 0 1).1 = [])
    ∧ ((0 : Int) ≤ 1 →
        (BPlusTree.rangeT (BPlusTree.new 4) 0 1).1
          = ((entries (BPlusTree.new 4).root).filter
              fun p => decide ((0 : Int) ≤ p.1) && decide (p.1 ≤ 1)).map Prod.snd
        ∧ List.Pairwise (· < ·)
            (((entries (BPlusTree.new 4).root).filter
              fun p => decide ((0 : Int) ≤ p.1) && decide (p.1 ≤ 1)).map Prod.fst)
        ∧ ∀ k, k ∈ ((entries (BPlusTree.new 4).root).filter
              fun p => decide ((0 : Int) ≤ p.1) && decide (p.1 ≤ 1)).map Prod.fst
            ↔ ((0 : Int) ≤ k ∧ k ≤ 1
                ∧ (BPlusTree.searchT (BPlusTree.new 4) k).1.isSome = true)) :=
  bplustree_range_search_exact TReach.init 0 1

/-- C4: on both engines, insert returns false exactly when the key is
already present, a failed insert leaves the contents unchanged, and deleting
an absent key returns `none` leaving the contents unchanged; each case is an
ordinary return value, not an error. -/
theorem index_duplicate_and_missing_semantics {order cap : Nat} {st : TState}
    {sh : EHash} (ht : TReach order st) (hh : EHash.Reach cap sh)
    (key : Int) (r : Rec) :
    ((BPlusTree.insertT st key r).1 = false
      ↔ (BPlusTree.searchT st key).1.isSome = true)
    ∧ ((BPlusTree.searchT st key).1.isSome = true →
        (BPlusTree.insertT st key r).2.root = st.root)
    ∧ ((BPlusTree.searchT st key).1 = none →
        (BPlusTree.deleteT st key).1 = none
        ∧ entries (BPlusTree.deleteT st key).2.root = entries st.root)
    ∧ ((EHash.insert sh key r).1 = false
      ↔ (EHash.search sh key).1.isSome = true)
    ∧ ((EHash.search sh key).1.isSome = true →
        ∀ k, EHash.lookup (EHash.insert sh key r).2 k = EHash.lookup sh k)
    ∧ ((EHash.search sh key).1 = none →
        (EHash.delete sh key).1 = none
        ∧ ∀ k, EHash.lookup (EHash.delete sh key).2 k = EHash.lookup sh k) := by
  have htinv := treach_inv ht
  have hhinv := (reach_inv hh).1
  obtain ⟨hi1, hi2, hi3, hi4, hi5, hi6⟩ := insertT_spec key r htinv
  obtain ⟨hd1, hd2, hd3, hd4, hd5, hd6⟩ := deleteT_spec key htinv
  have hse := (searchT_spec key htinv).2.2.2.1
  obtain ⟨gi1, gi2, gi3, gi4, gi5⟩ := insert_spec sh key r hhinv
  obtain ⟨gd1, gd2, gd3, gd4, gd5⟩ := delete_spec sh key hhinv
  have gse := (search_spec sh key hhinv).1
  refine ⟨?_, ?_, ?_, ?_, ?_, ?_⟩
  · rw [hi3, hse]
    cases (lookupE (entries st.root) key).isSome <;> simp
  · intro hs
    rw [hse] at hs
    exact hi4 hs
  · intro hs
    rw [hse] at hs
    constructor
    · rw [hd3, hs]
    · exact hd5 hs
  · rw [gi3, gse]
    cases (sh.lookup key).isSome <;> simp
  · intro hs
    rw [gse] at hs
    intro k
    rw [gi5 k, if_pos hs]
  · intro hs
    rw [gse] at hs
    constructor
    · rw [gd3, hs]
    · intro k
      rw [gd5 k]
      by_cases hk : k = key
      · rw [if_pos hk, hk, hs]
      · rw [if_neg hk]

/-- C4 witness: the fresh trees/hashes with key 0. -/
theorem index_duplicate_and_missing_semantics_witness :
    ((BPlusTree.insertT (BPlusTree.new 3) 0 [7]).1 = false
      ↔ (BPlusTree.searchT (BPlusTree.new 3) 0).1.isSome = true)
    ∧ ((BPlusTree.searchT (BPlusTree.new 3) 0).1.isSome = true →
        (BPlusTree.insertT (BPlusTree.new 3) 0 [7]).2.root = (BPlusTree.new 3).root)
    ∧ ((BPlusTree.searchT (BPlusTree.new 3) 0).1 = none →
        (BPlusTree.deleteT (BPlusTree.new 3) 0).1 = none
        ∧ entries (BPlusTree.deleteT (BPlusTree.new 3) 0).2.root
            = entries (BPlusTree.new 3).root)
    ∧ ((EHash.insert (EHash.new 2) 0 [7]).1 = false
      ↔ (EHash.search (EHash.new 2) 0).1.isSome = true)
    ∧ ((EHash.search (EHash.new 2) 0).1.isSome = true →
        ∀ k, EHash.lookup (EHash.insert (EHash.new 2) 0 [7]).2 k
          = EHash.lookup (EHash.new 2) k)
    ∧ ((EHash.search (EHash.new 2) 0).1 = none →
        (EHash.delete (EHash.new 2) 0).1 = none
        ∧ ∀ k, EHash.lookup (EHash.delete (EHash.new 2) 0).2 k
            = EHash.lookup (EHash.new 2) k) :=
  index_duplicate_and_missing_semantics TReach.init EHash.Reach.init 0 [7]

/-- C5: after any sequence of insertions into a fresh tree, every leaf sits
at the same depth, and the leaf linked list read left to right yields all
present keys in strictly ascending order with no duplicates. -/
theorem bplustree_leaves_balanced_and_sorted (order : Nat) (ops : List Op)
    (hins : ops.all Op.isIns = true) :
    equalLeafDepth (runT ops (BPlusTree.new order)).root = true
    ∧ List.Pairwise (· < ·) (leafKeys (runT ops (BPlusTree.new order)).root)
    ∧ ∀ k, k ∈ leafKeys (runT ops (BPlusTree.new order)).root
        ↔ (BPlusTree.searchT (runT ops (BPlusTree.new order)) k).1.isSome = true := by
  obtain ⟨hinv, hordeq, hcont⟩ := runT_spec ops (BPlusTree.new order) (tinv_new order)
  obtain ⟨hord, h, hwf, hh⟩ := hinv
  refine ⟨?_, ?_, ?_⟩
  · show depthOK _ (treeDepth _) = true
    rw [treeDepth_eq h hwf]
    exact depthOK_of_wf h hwf
  · show List.Pairwise (· < ·)
      ((allLeaves (runT ops (BPlusTree.new order)).root).flatMap fun l => l.1)
    rw [(wf_leaf_chain h hwf).2, List.pairwise_map]
    exact (wf_entries_facts h hwf).2
  · intro k
    show k ∈ ((allLeaves (runT ops (BPlusTree.new order)).root).flatMap fun l => l.1)
      ↔ _
    rw [(wf_leaf_chain h hwf).2,
      (searchT_spec k ⟨hord, h, hwf, hh⟩).2.2.2.1, Option.isSome_iff_ne_none]
    constructor
    · intro hk hnone
      rcases List.mem_map.mp hk with ⟨p, hpm, hpk⟩
      exact (lookupE_eq_none_iff _ _).mp hnone p hpm hpk
    · intro hk
      have hnall : ¬ ∀ p ∈ entries (runT ops (BPlusTree.new order)).root, p.1 ≠ k :=
        fun hall => hk ((lookupE_eq_none_iff _ _).mpr hall)
      push_neg at hnall
      rcases hnall with ⟨p, hpm, hpk⟩
      exact List.mem_map.mpr ⟨p, hpm, hpk⟩

/-- C5 witness: one insertion into the fresh order-3 tree. -/
theorem bplustree_leaves_balanced_and_sorted_witness :
    equalLeafDepth (runT [Op.ins 0 [5]] (BPlusTree.new 3)).root = true
    ∧ List.Pairwise (· < ·) (leafKeys (runT [Op.ins 0 [5]] (BPlusTree.new 3)).root)
    ∧ ∀ k, k ∈ leafKeys (runT [Op.ins 0 [5]] (BPlusTree.new 3)).root
        ↔ (BPlusTree.searchT (runT [Op.ins 0 [5]] (BPlusTree.new 3)) k).1.isSome
            = true :=
  bplustree_leaves_balanced_and_sorted 3 [Op.ins 0 [5]] rfl

/-- C6 counterexample: insert 0, 1, 2 into an order-3 tree (the root splits,
leaving two leaves holding one and two keys) and then delete 0.  The left
leaf now holds zero keys while `min_keys = 1`, so a non-root node violates
the claimed lower bound: delete performs no rebalancing. -/
theorem bplustree_delete_underflow_counterexample :
    nodeSizeOK
      (runT [Op.ins 0 [0], Op.ins 1 [1], Op.ins 2 [2], Op.del 0]
        (BPlusTree.new 3)).order
      true
      (runT [Op.ins 0 [0], Op.ins 1 [1], Op.ins 2 [2], Op.del 0]
        (BPlusTree.new 3)).root = false := by
  decide

theorem runT_insert_sizeOK (ops : List Op) : ∀ (s : TState), TInv s →
    ops.all Op.isIns = true → nodeSizeOK s.order true s.root = true →
    TInv (runT ops s) ∧ (runT ops s).order = s.order
    ∧ nodeSizeOK s.order true (runT ops s).root = true := by
  induction ops with
  | nil =>
    intro s hinv _ hok
    exact ⟨hinv, rfl, hok⟩
  | cons op ops ih =>
    intro s hinv hins hok
    rw [List.all_cons, Bool.and_eq_true] at hins
    cases op with
    | del key => exact absurd hins.1 (by simp [Op.isIns])
    | ins key r =>
      obtain ⟨hi1, hi2, hi3, hi4, hi5, hi6⟩ := insertT_spec key r hinv
      have hstep : nodeSizeOK (BPlusTree.insertT s key r).2.order true
          (BPlusTree.insertT s key r).2.root = true := by
        rw [hi2]
        exact hi6 hok
      obtain ⟨ih1, ih2, ih3⟩ := ih (BPlusTree.insertT s key r).2 hi1 hins.2 hstep
      refine ⟨ih1, ?_, ?_⟩
      · rw [show runT (Op.ins key r :: ops) s
            = runT ops (BPlusTree.insertT s key r).2 from rfl, ih2, hi2]
      · rw [show runT (Op.ins key r :: ops) s
            = runT ops (BPlusTree.insertT s key r).2 from rfl]
        rw [← hi2]
        exact ih3

/-- C6 (amended): under insert-only workloads the bounds do hold — after any
sequence of insertions every node keeps at most `order - 1` keys and every
non-root node at least `min_keys = ceil(order/2) - 1`; deletion, which never
rebalances, is what breaks the lower bound. -/
theorem bplustree_insert_only_size_bounds (order : Nat) (ops : List Op)
    (hins : ops.all Op.isIns = true) :
    nodeSizeOK (runT ops (BPlusTree.new order)).order true
      (runT ops (BPlusTree.new order)).root = true := by
  obtain ⟨h1, h2, h3⟩ := runT_insert_sizeOK ops (BPlusTree.new order)
    (tinv_new order) hins (by
      show nodeSizeOK (BPlusTree.new order).order true (BNode.leaf [] []) = true
      rw [nodeSizeOK_leaf]
      simp)
  rw [h2]
  exact h3

/-- C6 (amended) witness: one insertion into the fresh order-3 tree. -/
theorem bplustree_insert_only_size_bounds_witness :
    nodeSizeOK (runT [Op.ins 0 [5]] (BPlusTree.new 3)).order true
      (runT [Op.ins 0 [5]] (BPlusTree.new 3)).root = true :=
  bplustree_insert_only_size_bounds 3 [Op.ins 0 [5]] rfl

/-- C10: in every reachable tree state the `height` statistic equals the
number of levels from the root down to the leaves (every leaf being at that
same depth); it starts at 1 on the fresh single-leaf tree and is unchanged
by search, range search, delete, and `reset_stats` (insert keeps it equal to
the real depth, bumping it exactly on a root split). -/
theorem bplustree_height_matches_depth {order : Nat} {s : TState}
    (hs : TReach order s) :
    s.stats.height = treeDepth s.root
    ∧ equalLeafDepth s.root = true
    ∧ (BPlusTree.new order).stats.height = 1
    ∧ treeDepth (BPlusTree.new order).root = 1
    ∧ (∀ key, (BPlusTree.searchT s key).2.stats.height = s.stats.height)
    ∧ (∀ key, (BPlusTree.deleteT s key).2.stats.height = s.stats.height)
    ∧ (∀ lo hi, (BPlusTree.rangeT s lo hi).2.stats.height = s.stats.height)
    ∧ (BPlusTree.resetStatsT s).stats.height = s.stats.height := by
  obtain ⟨hord, h, hwf, hh⟩ := treach_inv hs
  refine ⟨?_, ?_, rfl, rfl, fun key => rfl, ?_, ?_, rfl⟩
  · rw [hh, treeDepth_eq h hwf]
  · show depthOK s.root (treeDepth s.root) = true
    rw [treeDepth_eq h hwf]
    exact depthOK_of_wf h hwf
  · intro key
    exact (deleteT_spec key ⟨hord, h, hwf, hh⟩).2.2.2.2.2
  · intro lo hi
    exact (rangeT_state s lo hi).2.2

/-- C10 witness: the fresh order-3 tree. -/
theorem bplustree_height_matches_depth_witness :
    (BPlusTree.new 3).stats.height = treeDepth (BPlusTree.new 3).root
    ∧ equalLeafDepth (BPlusTree.new 3).root = true
    ∧ (BPlusTree.new 3).stats.height = 1
    ∧ treeDepth (BPlusTree.new 3).root = 1
    ∧ (∀ key, (BPlusTree.searchT (BPlusTree.new 3) key).2.stats.height
        = (BPlusTree.new 3).stats.height)
    ∧ (∀ key, (BPlusTree.deleteT (BPlusTree.new 3) key).2.stats.height
        = (BPlusTree.new 3).stats.height)
    ∧ (∀ lo hi, (BPlusTree.rangeT (BPlusTree.new 3) lo hi).2.stats.height
        = (BPlusTree.new 3).stats.height)
    ∧ (BPlusTree.resetStatsT (BPlusTree.new 3)).stats.height
        = (BPlusTree.new 3).stats.height :=
  bplustree_height_matches_depth TReach.init

end BHIndex
